import Mathlib

/-
Verification of the core query-path machinery of the delorean in-memory
time-series engine, shallowly embedded in Lean from the Rust sources:

  * src/storage/memdb.rs              (MemDB, SeriesMap, SeriesBuffer, list_key)
  * src/storage/partitioned_store.rs  (StringMergeStream, ReadMergeStream, ReadBatch)
  * delorean_storage/src/exec/seriesset.rs (SeriesSetConverter)

Modelling conventions:
  * Rust String / &str values are embedded as `List Char` (called `Str` below),
    so that lexicographic comparison is the Mathlib linear order on lists.
  * Rust Vec<T> becomes `List T`; HashMap becomes a function into Option;
    croaring bitmaps (Treemap / Bitmap) become ascending duplicate-free
    `List Nat` values (`tmAdd`, `tmUnion`, `tmInter` below), which also fixes
    their ascending iteration order.
  * f64 payloads are opaque to all of the embedded code (they are only moved,
    compared points are compared by time, never by value), so they are
    modelled by `F64Val`, a wrapper with decidable equality standing for the
    64-bit pattern of the float.
  * Asynchronous streams are totalized: a `BoxStream` of T becomes the
    `List T` of the values it will yield.  The merge streams only act once
    every input is ready, so their emission order is fully captured by this
    synchronous model; Poll::Pending bookkeeping disappears.
  * Rust panics (unwrap, unreachable, unimplemented) are modelled either by
    an Option layer (`none` = panic) where a claim is about panic freedom, or
    by a dedicated abort constructor where the spec names the abort kind.
-/

/-- Rust strings, embedded as their character sequences. -/
abbrev Str := List Char

/-- Coercion helper from Lean string literals to the `Str` embedding. -/
def str (s : String) : Str := s.data

/-- Opaque model of a Rust f64 payload: the embedded code never computes with
float values, it only stores and moves them, so a wrapper around the 64-bit
pattern is a faithful stand-in. -/
structure F64Val where
  bits : Int
deriving DecidableEq, Repr

/-- Embedding of `delorean::TimestampRange { start, end }`.  The second field
is renamed `end_` because `end` is a Lean keyword. -/
structure TimestampRange where
  start : Int
  end_ : Int
deriving DecidableEq, Repr

/-- Embedding of `SeriesDataType` from src/storage. -/
inductive SeriesDataType where
  | I64
  | F64
deriving DecidableEq, Repr

/-- Embedding of `ReadPoint<T>` from src/storage/series_store.rs (declared
outside src; its shape `{ time, value }` is fixed by every use in
memdb.rs and partitioned_store.rs). -/
structure ReadPoint (T : Type) where
  time : Int
  value : T
deriving DecidableEq, Repr

/-! ## memdb.rs: SeriesBuffer -/

/-- Embedding of `SeriesBuffer<T>` (memdb.rs). -/
structure SeriesBuffer (T : Type) where
  values : List (ReadPoint T)
deriving DecidableEq, Repr

/-- Embedding of `SeriesBuffer::read` (memdb.rs lines 40-54): the first
`position` call locates the first stored time `>= range.start` (returning the
empty vector if there is none), the second locates the first stored time
`>= range.end`, defaulting to the length, and the result is the slice
`values[start..stop]`. -/
def SeriesBuffer.read {T : Type} (b : SeriesBuffer T) (range : TimestampRange) :
    List (ReadPoint T) :=
  match b.values.findIdx? (fun val => range.start ≤ val.time) with
  | none => []
  | some start =>
    let stop := (b.values.findIdx? (fun val => range.end_ ≤ val.time)).getD b.values.length
    (b.values.drop start).take (stop - start)

/-! ## memdb.rs: list_key

`list_key` concatenates the raw bytes of the tag key, a single 0 byte, and
the raw bytes of the tag value (memdb.rs lines 181-186).  The byte strings
are embedded as `List Nat`. -/

/-- Embedding of `list_key` (memdb.rs lines 181-186) at the byte level. -/
def list_key (key value : List Nat) : List Nat :=
  key ++ 0 :: value

/-- Byte sequence of an embedded string.  Tag keys and values in this code
base are ASCII, for which the Unicode scalar sequence used here coincides
with the UTF-8 byte sequence produced by `str::as_bytes`. -/
def strBytes (s : Str) : List Nat :=
  s.map Char.toNat

/-! ## line_parser data model (spec-modelled: the parser crate is not under src) -/

/-- Modelled from the spec: a `Point<T>` of line_parser (not under src/):
series key, value, timestamp, and the series id assigned at ingest (spec
section 3, Point). -/
structure Point (T : Type) where
  series : Str
  value : T
  time : Int
  series_id : Option Nat
deriving DecidableEq, Repr

/-- Modelled from the spec: `PointType`, the closed tagged union of i64 and
f64 points (spec sections 3 and 9, typed value dispatch). -/
inductive PointType where
  | i64 : Point Int → PointType
  | f64 : Point F64Val → PointType
deriving DecidableEq, Repr

def PointType.series : PointType → Str
  | .i64 p => p.series
  | .f64 p => p.series

def PointType.set_series_id : PointType → Nat → PointType
  | .i64 p, id => .i64 { p with series_id := some id }
  | .f64 p, id => .f64 { p with series_id := some id }

def PointType.data_type : PointType → SeriesDataType
  | .i64 _ => .I64
  | .f64 _ => .F64

/-- Modelled from the spec: an index `Pair` of tag key and tag value
produced by `index_pairs` (line_parser, not under src/). -/
structure Pair where
  key : Str
  value : Str
deriving DecidableEq, Repr

/-- Modelled from the spec: the parse error type of line_parser. -/
structure ParseError where
  description : Str
deriving DecidableEq, Repr

/-- Splits a character list at every occurrence of the separator. -/
def splitOnChar (sep : Char) : Str → List Str
  | [] => [[]]
  | c :: rest =>
    let r := splitOnChar sep rest
    if c = sep then [] :: r
    else
      match r with
      | [] => [[c]]
      | g :: gs => (c :: g) :: gs

/-- Modelled from the spec: `index_pairs` decomposes a canonical series key
of shape `measurement,tag1=val1,...,tagN=valN<TAB>field` (spec section 3,
SeriesKey) into the index pairs: the measurement under the reserved key
`_m`, every tag pair, and the field name under the reserved key `_f` (the
reserved names are fixed by the memdb tests). -/
def index_pairs (key : Str) : Except ParseError (List Pair) :=
  match splitOnChar '\t' key with
  | [measurement_and_tags, field] =>
    match splitOnChar ',' measurement_and_tags with
    | measurement :: tag_parts => do
      let tags ← tag_parts.mapM (fun part =>
        match splitOnChar '=' part with
        | [k, v] => Except.ok (⟨k, v⟩ : Pair)
        | _ => Except.error (⟨str "malformed tag pair"⟩ : ParseError))
      Except.ok (⟨str "_m", measurement⟩ :: tags ++ [⟨str "_f", field⟩])
    | [] => Except.error ⟨str "malformed series key"⟩
  | _ => Except.error ⟨str "malformed series key"⟩

/-! ## croaring bitmaps -/

/-- Model of a croaring bitmap (`Treemap` in memdb.rs, `Bitmap` in
seriesset.rs): the ascending, duplicate-free list of its members, which is
also its iteration order.  `tmAdd` is `add`. -/
def tmAdd (id : Nat) : List Nat → List Nat
  | [] => [id]
  | x :: xs =>
    if id < x then id :: x :: xs
    else if id = x then x :: xs
    else x :: tmAdd id xs

/-- Bitmap union (`or_inplace` / `Treemap` union). -/
def tmUnion (a b : List Nat) : List Nat :=
  b.foldl (fun acc x => tmAdd x acc) a

/-- Bitmap intersection. -/
def tmInter (a b : List Nat) : List Nat :=
  a.filter (fun x => decide (x ∈ b))

/-! ## memdb.rs: SeriesMap, SeriesData, MemDB -/

/-- Embedding of `SeriesMap` (memdb.rs lines 104-112).  HashMaps become
functions into `Option`; the posting Treemaps become `Finset Nat`, with the
missing-entry case of `HashMap::get` collapsed into the empty set exactly as
`posting_list_for_key_value` and `or_insert_with(Treemap::create)` do.  The
`tag_keys` dictionary and the `current_size` counters only serve the
metadata scans and the advisory size estimate, which no claim concerns, and
are not modelled. -/
structure SeriesMap where
  last_id : Nat
  series_key_to_id : Str → Option Nat
  series_id_to_key_and_type : Nat → Option (Str × SeriesDataType)
  posting_list : List Nat → List Nat

def SeriesMap.empty : SeriesMap :=
  ⟨0, fun _ => none, fun _ => none, fun _ => []⟩

/-- Loop body of `SeriesMap::insert_series` over the index pairs (memdb.rs
lines 151-167): each pair adds the fresh id to the posting list under its
composite `list_key`, creating the entry when missing (the
`or_insert_with(Treemap::create)` is the empty default of the map model). -/
def postPairs (new_id : Nat) (pairs : List Pair) (sm : SeriesMap) : SeriesMap :=
  pairs.foldl (fun sm pair =>
    { sm with posting_list := fun k =>
        if k = list_key (strBytes pair.key) (strBytes pair.value)
        then tmAdd new_id (sm.posting_list k)
        else sm.posting_list k }) sm

/-- Embedding of `SeriesMap::insert_series` (memdb.rs lines 128-170).  The
returned map is the mutated self; the returned point carries the assigned
series id.  Mirrors the source flow: early return for an interned key; then
the id assignment and the two map inserts; then `index_pairs()?`, whose
failure keeps the inserts already performed (the `?` fires after them);
finally the posting-list update per pair. -/
def SeriesMap.insert_series (sm : SeriesMap) (point : PointType) :
    SeriesMap × Except ParseError PointType :=
  match sm.series_key_to_id point.series with
  | some id => (sm, .ok (point.set_series_id id))
  | none =>
    let new_id := sm.last_id + 1
    let point := point.set_series_id new_id
    let sm1 : SeriesMap := { sm with
      last_id := new_id
      series_key_to_id := fun k =>
        if k = point.series then some new_id else sm.series_key_to_id k
      series_id_to_key_and_type := fun i =>
        if i = new_id then some (point.series, point.data_type)
        else sm.series_id_to_key_and_type i }
    match index_pairs point.series with
    | .error e => (sm1, .error e)
    | .ok pairs => (postPairs new_id pairs sm1, .ok point)

/-- Embedding of `SeriesMap::posting_list_for_key_value` (memdb.rs lines
172-178). -/
def SeriesMap.posting_list_for_key_value (sm : SeriesMap) (key value : Str) : List Nat :=
  sm.posting_list (list_key (strBytes key) (strBytes value))

/-- Embedding of `SeriesData` (memdb.rs lines 28-33); the size counter is
not modelled. -/
structure SeriesData where
  i64_series : Nat → Option (SeriesBuffer Int)
  f64_series : Nat → Option (SeriesBuffer F64Val)

def SeriesData.empty : SeriesData := ⟨fun _ => none, fun _ => none⟩

/-- Embedding of `StoreInSeriesData for Point<i64>` (memdb.rs lines 70-85).
The `series_id.unwrap()` is total on the only call path, `MemDB::write`,
where `insert_series` has set the id; a defaulted id 0 stands in for the
unwrap. -/
def storeI64 (p : Point Int) (sd : SeriesData) : SeriesData :=
  let point : ReadPoint Int := ⟨p.time, p.value⟩
  let id := p.series_id.getD 0
  match sd.i64_series id with
  | some buff =>
    { sd with i64_series := fun i =>
        if i = id then some ⟨buff.values ++ [point]⟩ else sd.i64_series i }
  | none =>
    { sd with i64_series := fun i =>
        if i = id then some ⟨[point]⟩ else sd.i64_series i }

/-- Embedding of `StoreInSeriesData for Point<f64>` (memdb.rs lines 87-102). -/
def storeF64 (p : Point F64Val) (sd : SeriesData) : SeriesData :=
  let point : ReadPoint F64Val := ⟨p.time, p.value⟩
  let id := p.series_id.getD 0
  match sd.f64_series id with
  | some buff =>
    { sd with f64_series := fun i =>
        if i = id then some ⟨buff.values ++ [point]⟩ else sd.f64_series i }
  | none =>
    { sd with f64_series := fun i =>
        if i = id then some ⟨[point]⟩ else sd.f64_series i }

/-- Embedding of `StoreInSeriesData for PointType` (memdb.rs lines 61-68). -/
def PointType.write : PointType → SeriesData → SeriesData
  | .i64 p, sd => storeI64 p sd
  | .f64 p, sd => storeF64 p sd

/-- Embedding of `StorageError` from src/storage. -/
structure StorageError where
  description : Str
deriving DecidableEq, Repr

/-- Embedding of `MemDB` (memdb.rs lines 22-26). -/
structure MemDB where
  series_data : SeriesData
  series_map : SeriesMap

/-- Embedding of `MemDB::new` / `Default` (memdb.rs lines 189-191). -/
def MemDB.new : MemDB := ⟨SeriesData.empty, SeriesMap.empty⟩

/-- Embedding of `MemDB::write` (memdb.rs lines 197-206): points are
processed in order; an `insert_series` failure aborts the loop and surfaces
the error while keeping the partially applied state (the source mutates
`self` in place through `&mut`). -/
def MemDB.write : MemDB → List PointType → MemDB × Except StorageError Unit
  | db, [] => (db, .ok ())
  | db, p :: rest =>
    match db.series_map.insert_series p with
    | (sm, .error _e) =>
      ({ db with series_map := sm },
       .error ⟨str "error parsing line protocol metadata"⟩)
    | (sm, .ok p) =>
      MemDB.write ⟨p.write db.series_data, sm⟩ rest

/-- Modelled from the spec: the predicate AST of section 3 (`Equal` leaves
over tag key and value, `And`, `Or`, and other node shapes that the core
evaluator rejects).  The protobuf `Node` type of src/storage/predicate.rs is
not under src/. -/
inductive Node where
  | eq (left right : Str)
  | and (l r : Node)
  | or (l r : Node)
  | unsupported
deriving DecidableEq, Repr

/-- Embedding of `Predicate` (an optional root node). -/
structure Predicate where
  root : Option Node
deriving DecidableEq, Repr

/-- Modelled from the spec: the recursive-descent evaluator of section 4.E.
`Equal` looks up the posting list, `And` intersects, `Or` unions, any other
node shape is an `UnsupportedPredicate` error; memdb.rs supplies the `equal`
visitor case (memdb.rs lines 282-292). -/
def evaluate_node (sm : SeriesMap) : Node → Except StorageError (List Nat)
  | .eq l r => .ok (sm.posting_list_for_key_value l r)
  | .and l r =>
    match evaluate_node sm l with
    | .error e => .error e
    | .ok a =>
      match evaluate_node sm r with
      | .error e => .error e
      | .ok b => .ok (tmInter a b)
  | .or l r =>
    match evaluate_node sm l with
    | .error e => .error e
    | .ok a =>
      match evaluate_node sm r with
      | .error e => .error e
      | .ok b => .ok (tmUnion a b)
  | .unsupported => .error ⟨str "unsupported predicate"⟩

/-! ## partitioned_store.rs value shapes (shared with MemDB::read) -/

/-- Embedding of `ReadValues` (partitioned_store.rs lines 270-283). -/
inductive ReadValues where
  | I64 : List (ReadPoint Int) → ReadValues
  | F64 : List (ReadPoint F64Val) → ReadValues
deriving DecidableEq, Repr

/-- Embedding of `ReadValues::is_empty` (partitioned_store.rs lines 277-282). -/
def ReadValues.is_empty : ReadValues → Bool
  | .I64 vals => vals.isEmpty
  | .F64 vals => vals.isEmpty

/-- Embedding of `ReadBatch` (partitioned_store.rs lines 285-289). -/
structure ReadBatch where
  key : Str
  values : ReadValues
deriving DecidableEq, Repr

/-- Iteration body of `MemDB::read` (memdb.rs lines 250-276): for every id
in ascending bitmap order, the reverse-map and buffer lookups (`unwrap` in
the source; `none` here models the panic), the range slice, and the skip of
empty slices. -/
def read_batches (db : MemDB) (range : TimestampRange) :
    List Nat → Option (List ReadBatch)
  | [] => some []
  | id :: rest =>
    match db.series_map.series_id_to_key_and_type id with
    | none => none
    | some (key, series_type) =>
      match (match series_type with
             | .I64 => (db.series_data.i64_series id).map
                 (fun buff : SeriesBuffer Int => ReadValues.I64 (buff.read range))
             | .F64 => (db.series_data.f64_series id).map
                 (fun buff : SeriesBuffer F64Val => ReadValues.F64 (buff.read range))) with
      | none => none
      | some values =>
        match read_batches db range rest with
        | none => none
        | some batches =>
          some (if values.is_empty then batches else ⟨key, values⟩ :: batches)

/-- Embedding of `MemDB::read` (memdb.rs lines 232-279).  The outer Option
models panic freedom: `none` would mean one of the `unwrap` calls panicked.
The bitmap model is already the ascending list that `Treemap::iter` walks.
The batch size hint is unused by the source. -/
def MemDB.read (db : MemDB) (_batch_size : Nat) (predicate : Predicate)
    (range : TimestampRange) : Option (Except StorageError (List ReadBatch)) :=
  match predicate.root with
  | none => some (.error ⟨str "expected root node to evaluate"⟩)
  | some root =>
    match evaluate_node db.series_map root with
    | .error e => some (.error e)
    | .ok map =>
      (read_batches db range map).map .ok

/-! ## partitioned_store.rs: merge streams

The asynchronous streams are totalized: every input of a merge is the list
of values it will yield, and one `poll_next` acts once every input is
filled, so the Ready/Pending bookkeeping of lines 87-98 and 180-191
disappears: an exhausted input is the empty list. -/

/-- Element count across a list of inputs; the termination measure of both
merges (every step consumes at least one element / one batch). -/
def elemCount {α : Type} (states : List (List α)) : Nat :=
  (states.map List.length).sum

/-- Accumulator of the selection scan of `StringMergeStream::poll_next`
(partitioned_store.rs lines 100-123). -/
structure SmsAcc where
  next_val : Option Str
  next_pos : Nat
deriving Repr

/-- Selection scan of `StringMergeStream::poll_next` (the loop at
partitioned_store.rs lines 103-123): walks the states tracking the least
ready head; a later head equal to the current least is advanced on the spot
(dedup across inputs), and a strictly smaller one becomes the new least.
Returns the final accumulator together with the states as mutated by the
in-scan advances. -/
def sms_scan : List (List Str) → Nat → SmsAcc → SmsAcc × List (List Str)
  | [], _, acc => (acc, [])
  | s :: rest, pos, acc =>
    match s.head?, acc.next_val with
    | none, _ =>
      let r := sms_scan rest (pos + 1) acc
      (r.1, s :: r.2)
    | some v, none =>
      let r := sms_scan rest (pos + 1) ⟨some v, pos⟩
      (r.1, s :: r.2)
    | some v, some nv =>
      if nv > v then
        let r := sms_scan rest (pos + 1) ⟨some v, pos⟩
        (r.1, s :: r.2)
      else if nv = v then
        let r := sms_scan rest (pos + 1) acc
        (r.1, s.tail :: r.2)
      else
        let r := sms_scan rest (pos + 1) acc
        (r.1, s :: r.2)

/-- One `poll_next` of `StringMergeStream` (partitioned_store.rs lines
82-136): after the scan, the winning state is advanced past the emitted
value (the final `mem::replace`); with no ready value the stream is
drained. -/
def sms_step (states : List (List Str)) : Option (Str × List (List Str)) :=
  match sms_scan states 0 ⟨none, 0⟩ with
  | (⟨none, _⟩, _) => none
  | (⟨some v, pos⟩, states1) =>
    some (v, states1.set pos (states1.getD pos []).tail)

/-- Driving the string merge to completion; the fuel is an upper bound on
the number of steps. -/
def sms_run : Nat → List (List Str) → List Str
  | 0, _ => []
  | fuel + 1, states =>
    match sms_step states with
    | none => []
    | some (v, states1) => v :: sms_run fuel states1

/-- Embedding of `ReadBatch::start_stop_times` (partitioned_store.rs lines
297-302): the first and last times in the batch.  The `unwrap` panics on an
empty batch; the model defaults to 0, and every verified use is on
non-empty batches. -/
def ReadBatch.start_stop_times (b : ReadBatch) : Int × Int :=
  match b.values with
  | .I64 vals => ((vals.head?.map (·.time)).getD 0, ((vals.getLast?).map (·.time)).getD 0)
  | .F64 vals => ((vals.head?.map (·.time)).getD 0, ((vals.getLast?).map (·.time)).getD 0)

/-- Stable insertion step: existing values with time `<= p.time` stay in
front of `p`. -/
def insertByTime {γ : Type} (p : ReadPoint γ) : List (ReadPoint γ) → List (ReadPoint γ)
  | [] => [p]
  | q :: rest => if q.time ≤ p.time then q :: insertByTime p rest else p :: q :: rest

/-- Stable sort by time, as structural insertion sort.  `Vec::sort_by_key`
is a stable sort by the key; a stable sort is determined by its
input-output behavior, so insertion sort is an exact model and keeps
concrete runs kernel-computable. -/
def sortByTime {γ : Type} : List (ReadPoint γ) → List (ReadPoint γ)
  | [] => []
  | p :: rest => insertByTime p (sortByTime rest)

/-- Embedding of `ReadBatch::sort_by_time` (partitioned_store.rs lines
304-309). -/
def ReadBatch.sort_by_time (b : ReadBatch) : ReadBatch :=
  match b.values with
  | .I64 vals => ⟨b.key, .I64 (sortByTime vals)⟩
  | .F64 vals => ⟨b.key, .F64 (sortByTime vals)⟩

/-- Embedding of `ReadBatch::append_below_time` (partitioned_store.rs lines
313-333): `position` finds the first value of `other` with time `> t`; the
values before it move to the end of `self`; the returned flag tells whether
`other` is now empty.  Mismatched value types do nothing and report
`true`. -/
def ReadBatch.append_below_time (self other : ReadBatch) (t : Int) :
    ReadBatch × ReadBatch × Bool :=
  match self.values, other.values with
  | .I64 vals, .I64 other_vals =>
    (match other_vals.findIdx? (fun val => t < val.time) with
     | none => (⟨self.key, .I64 (vals ++ other_vals)⟩, ⟨other.key, .I64 []⟩, true)
     | some pos =>
       (⟨self.key, .I64 (vals ++ other_vals.take pos)⟩,
        ⟨other.key, .I64 (other_vals.drop pos)⟩, (other_vals.drop pos).isEmpty))
  | .F64 vals, .F64 other_vals =>
    (match other_vals.findIdx? (fun val => t < val.time) with
     | none => (⟨self.key, .F64 (vals ++ other_vals)⟩, ⟨other.key, .F64 []⟩, true)
     | some pos =>
       (⟨self.key, .F64 (vals ++ other_vals.take pos)⟩,
        ⟨other.key, .F64 (other_vals.drop pos)⟩, (other_vals.drop pos).isEmpty))
  | _, _ => (self, other, true)

/-- Accumulator of the min-key scan of `ReadMergeStream::poll_next`
(partitioned_store.rs lines 195-236). -/
structure RmsAcc where
  next_min_key : Option Str
  min_time : Int
  min_pos : Nat
  positions : List Nat
deriving Repr

/-- Min-key scan of `ReadMergeStream::poll_next` (the loop at
partitioned_store.rs lines 200-236): finds the least ready key, the
position whose batch at that key has the least last time, and the other
ready positions at that key (`positions`). -/
def rms_scan : List (List ReadBatch) → Nat → RmsAcc → RmsAcc
  | [], _, acc => acc
  | s :: rest, pos, acc =>
    match s.head?, acc.next_min_key with
    | none, _ => rms_scan rest (pos + 1) acc
    | some batch, none =>
      rms_scan rest (pos + 1) ⟨some batch.key, batch.start_stop_times.2, pos, acc.positions⟩
    | some batch, some min_key =>
      if batch.key < min_key then
        rms_scan rest (pos + 1) ⟨some batch.key, batch.start_stop_times.2, pos, []⟩
      else if batch.key = min_key then
        if batch.start_stop_times.2 < acc.min_time then
          rms_scan rest (pos + 1)
            ⟨some min_key, batch.start_stop_times.2, pos, acc.positions ++ [acc.min_pos]⟩
        else
          rms_scan rest (pos + 1)
            ⟨some min_key, acc.min_time, acc.min_pos, acc.positions ++ [pos]⟩
      else rms_scan rest (pos + 1) acc

/-- Drain fold of `ReadMergeStream::poll_next` (partitioned_store.rs lines
250-263): every competing position at the min key gives up its prefix of
values with time `<= min_time` to the winning batch; a fully drained
competitor is set back to pending, which in the totalized model moves that
input past its current batch. -/
def rms_drain (min_time : Int) (positions : List Nat) (batch : ReadBatch)
    (states : List (List ReadBatch)) : ReadBatch × List (List ReadBatch) :=
  positions.foldl (fun bs pos =>
    match (bs.2.getD pos []).head? with
    | none => bs
    | some other =>
      let r := bs.1.append_below_time other min_time
      if r.2.2 then (r.1, bs.2.set pos ((bs.2.getD pos []).tail))
      else (r.1, bs.2.set pos (r.2.1 :: (bs.2.getD pos []).tail)))
    (batch, states)

/-- One `poll_next` of `ReadMergeStream` (partitioned_store.rs lines
174-266): scan, take the winning batch out (its input goes pending), short
circuit when it had no competition, otherwise drain the competitors and
re-sort the combined batch by time. -/
def rms_step (states : List (List ReadBatch)) :
    Option (ReadBatch × List (List ReadBatch)) :=
  match rms_scan states 0 ⟨none, 2 ^ 63 - 1, 0, []⟩ with
  | ⟨none, _, _, _⟩ => none
  | ⟨some _, min_time, min_pos, positions⟩ =>
    match (states.getD min_pos []).head? with
    | none => none
    | some batch =>
      let states1 := states.set min_pos (states.getD min_pos []).tail
      if positions.isEmpty then some (batch, states1)
      else
        let r := rms_drain min_time positions batch states1
        some (r.1.sort_by_time, r.2)

/-- Driving the read merge to completion; the fuel is an upper bound on the
number of steps (each step consumes at least the winning batch). -/
def rms_run : Nat → List (List ReadBatch) → List ReadBatch
  | 0, _ => []
  | fuel + 1, states =>
    match rms_step states with
    | none => []
    | some (b, states1) => b :: rms_run fuel states1

/-- Typed point value, for stating multiset preservation across both value
shapes at once. -/
inductive PValue where
  | i : Int → PValue
  | f : F64Val → PValue
deriving DecidableEq, Repr

/-- The points of a batch as `(key, time, value)` triples. -/
def ReadBatch.points (b : ReadBatch) : List (Str × Int × PValue) :=
  match b.values with
  | .I64 vals => vals.map fun p => (b.key, p.time, .i p.value)
  | .F64 vals => vals.map fun p => (b.key, p.time, .f p.value)

/-- The `(key, time)` projections of the points of a batch. -/
def ReadBatch.pairs (b : ReadBatch) : List (Str × Int) :=
  b.points.map fun q => (q.1, q.2.1)

/-- Whether a batch carries i64 values. -/
def ReadBatch.is_i64 : ReadBatch → Bool
  | ⟨_, .I64 _⟩ => true
  | ⟨_, .F64 _⟩ => false

/-- All points across a list of batches, in order. -/
def batchesPoints (l : List ReadBatch) : List (Str × Int × PValue) :=
  (l.map ReadBatch.points).flatten

/-- All points across all inputs. -/
def statesPoints (states : List (List ReadBatch)) : List (Str × Int × PValue) :=
  (states.map batchesPoints).flatten

/-- Lexicographic order on `(key, time)`: key first, then time. -/
def kt_le (a b : Str × Int) : Prop :=
  a.1 < b.1 ∨ (a.1 = b.1 ∧ a.2 ≤ b.2)

instance (a b : Str × Int) : Decidable (kt_le a b) :=
  inferInstanceAs (Decidable (a.1 < b.1 ∨ (a.1 = b.1 ∧ a.2 ≤ b.2)))

/-- Well-formed merge input: every batch non-empty, and the flattened
`(key, time)` pairs lexicographically non-decreasing — this combines the
three documented per-input preconditions of partitioned_store.rs lines
144-147: batches in key order, times sorted within a batch, and times
ascending across batches of one key. -/
def inputOk (input : List ReadBatch) : Prop :=
  (∀ b ∈ input, b.values.is_empty = false) ∧
  ((input.map ReadBatch.pairs).flatten).Pairwise kt_le

/-- Same-type-per-key across all inputs (partitioned_store.rs lines
144-145: values are always of the same type for a given key). -/
def statesTypeOk (states : List (List ReadBatch)) : Prop :=
  ∀ b1 b2, b1 ∈ states.flatten → b2 ∈ states.flatten →
    b1.key = b2.key → b1.is_i64 = b2.is_i64

/-- The full precondition of the read merge. -/
def statesOk (states : List (List ReadBatch)) : Prop :=
  (∀ input ∈ states, inputOk input) ∧ statesTypeOk states

/-- Invariant of the selection scan of `StringMergeStream::poll_next`
relative to the already scanned prefix `P` (in its current, possibly
advanced state): with no candidate every scanned state is exhausted; with
candidate `v` at `next_pos`, that state is ready with head `v` and every
element of every other scanned state is strictly above `v`, while the
holder itself is at or above `v`. -/
def smsAccInv (P : List (List Str)) (acc : SmsAcc) : Prop :=
  match acc.next_val with
  | none => ∀ s ∈ P, s = []
  | some v =>
    acc.next_pos < P.length ∧
    (P.getD acc.next_pos []).head? = some v ∧
    (∀ i, i < P.length → i ≠ acc.next_pos → ∀ x ∈ P.getD i [], v < x) ∧
    (∀ x ∈ P.getD acc.next_pos [], v ≤ x)

/-- Invariant of the min-key scan of `ReadMergeStream::poll_next` relative
to the scanned prefix `P`: with no candidate every scanned state is
exhausted and no positions were collected; with candidate key `k`, the
winning position holds a ready batch at key `k` whose last time is
`min_time`, every scanned ready head has key at least `k` and, at key `k`,
last time at least `min_time`, and `positions` is exactly the set of other
scanned positions ready at key `k`, without duplicates. -/
def rmsAccInv (P : List (List ReadBatch)) (acc : RmsAcc) : Prop :=
  match acc.next_min_key with
  | none => (∀ s ∈ P, s = []) ∧ acc.positions = []
  | some k =>
    acc.min_pos < P.length ∧
    (∃ b, (P.getD acc.min_pos []).head? = some b ∧ b.key = k ∧
      b.start_stop_times.2 = acc.min_time) ∧
    (∀ i, i < P.length → ∀ b, (P.getD i []).head? = some b →
      k ≤ b.key ∧ (b.key = k → acc.min_time ≤ b.start_stop_times.2)) ∧
    (∀ i, i ∈ acc.positions ↔ (i ≠ acc.min_pos ∧ i < P.length ∧
      ∃ b, (P.getD i []).head? = some b ∧ b.key = k)) ∧
    acc.positions.Nodup

/-! ## seriesset.rs: SeriesSetConverter -/

/-- Embedding of the wide `RecordBatch` consumed by the converter, reduced
to what the conversion logic reads: the row count and the resolved,
string-typed tag columns in `tag_columns` order (each of length `num_rows`).
Column-name resolution (`names_to_indices`) and the field and time columns
only produce the indices copied verbatim into every `SeriesSet` and are not
modelled. -/
structure RecordBatchM where
  num_rows : Nat
  tag_cols : List (List Str)
deriving DecidableEq, Repr

/-- Embedding of `SeriesSet` (seriesset.rs lines 72-93), reduced to the row
range fields plus the tag values materialized at the start row. -/
structure SeriesSetM where
  tags : List Str
  start_row : Nat
  num_rows : Nat
deriving DecidableEq, Repr

/-- Scan loop of `compute_transitions` (seriesset.rs lines 290-297): walks
the rows from index `row` with the running `current_val`, adding to the
bitmap every index whose value differs from the previous one. -/
def transitionsAux (current_val : Str) : List Str → Nat → List Nat
  | [], _ => []
  | v :: rest, row =>
    if v ≠ current_val then tmAdd row (transitionsAux v rest (row + 1))
    else transitionsAux current_val rest (row + 1)

/-- Embedding of `compute_transitions` (seriesset.rs lines 274-310): an
empty batch yields the empty bitmap; otherwise the scan from row 1 plus the
past-the-end sentinel `num_rows`.  Tag columns are string-typed in the
model, so the non-Utf8 `unimplemented!` abort has no counterpart here. -/
def compute_transitions (batch : RecordBatchM) (col : List Str) : List Nat :=
  if batch.num_rows < 1 then []
  else
    tmAdd batch.num_rows
      (match col with
       | [] => []
       | c0 :: rest => transitionsAux c0 rest 1)

/-- Union step of `convert_impl` (seriesset.rs lines 193-214): with no tag
columns, the single sentinel bitmap containing `num_rows` (also for the
empty batch); otherwise the OR of all per-column transition bitmaps. -/
def intersectionsOf (batch : RecordBatchM) : List Nat :=
  match batch.tag_cols.map (compute_transitions batch) with
  | [] => tmAdd batch.num_rows []
  | t0 :: rest => rest.foldl tmUnion t0

/-- Run walk of `convert_impl` (seriesset.rs lines 216-243): each element of
the ascending transition union ends one run exclusively; `start_row` then
advances to it. -/
def runsOf (start : Nat) : List Nat → List (Nat × Nat)
  | [] => []
  | e :: rest => (start, e - start) :: runsOf e rest

/-- The SeriesSets built by `convert_impl` for one batch, in emission order:
the `(start_row, num_rows)` runs with the tag values read at each start row
(`get_tag_keys`, seriesset.rs lines 315-337). -/
def seriesSets (batch : RecordBatchM) : List SeriesSetM :=
  (runsOf 0 (intersectionsOf batch)).map fun run =>
    ⟨batch.tag_cols.map (fun col => col.getD run.1 (str "")), run.1, run.2⟩

/-- Abort kinds of the converter path: the error enum of seriesset.rs lines
36-60 restricted to what the modelled path can produce, plus the
`unimplemented!` abort at seriesset.rs line 175, which the spec error
taxonomy (kinds, not types) names MultiBatchNotSupported. -/
inductive ConvertError where
  | readingRecordBatch
  | multiBatchNotSupported
deriving DecidableEq, Repr

/-- Embedding of `SeriesSetConverter::convert_impl` (seriesset.rs lines
162-255) over the totalized record-batch iterator: an empty iterator emits
nothing; an errored first item surfaces as ReadingRecordBatch; any second
item hits the multi-batch abort; otherwise the single batch is converted
and its SeriesSets published in order (the bounded channel is modelled by
the returned list; `Sending` failures are consumer-side cancellations
outside the converter logic). -/
def convert_impl (batches : List (Except Unit RecordBatchM)) :
    Except ConvertError (List SeriesSetM) :=
  match batches with
  | [] => .ok []
  | b :: rest =>
    match b with
    | .error _ => .error .readingRecordBatch
    | .ok batch =>
      if rest.isEmpty then .ok (seriesSets batch)
      else .error .multiBatchNotSupported

/-- Row tuple of the designated tag columns at one row. -/
def RecordBatchM.row_tags (batch : RecordBatchM) (r : Nat) : List Str :=
  batch.tag_cols.map (fun col => col.getD r (str ""))

/-- The lexicographic-ordering precondition on the converter input (spec
section 3, RecordBatch): consecutive rows compare `le` on the tuple of tag
values, in the list lexicographic order. -/
def RecordBatchM.rows_sorted (batch : RecordBatchM) : Prop :=
  ∀ r, r + 1 < batch.num_rows → batch.row_tags r ≤ batch.row_tags (r + 1)

/-- The typed buffer map of the recorded type has an entry for the id: the
proposition whose failure makes the buffer `unwrap` of `MemDB::read` panic. -/
def SeriesData.has_buffer (sd : SeriesData) (ty : SeriesDataType) (id : Nat) : Prop :=
  match ty with
  | .I64 => sd.i64_series id ≠ none
  | .F64 => sd.f64_series id ≠ none

/-- Referential-integrity invariant of a MemDB: posting lists only hold ids
up to the id counter, and every id found in any posting list has a reverse
map entry whose recorded type owns a buffer. -/
def MemDB.Inv (db : MemDB) : Prop :=
  (∀ id kb, id ∈ db.series_map.posting_list kb → id ≤ db.series_map.last_id) ∧
  (∀ id, (∃ kb, id ∈ db.series_map.posting_list kb) →
    ∃ key ty, db.series_map.series_id_to_key_and_type id = some (key, ty) ∧
      db.series_data.has_buffer ty id)

/-- A sequence of `MemDB::write` calls applied in order from a starting
state.  Each call keeps its post-state whether it returned `Ok` or an error:
the source mutates `self` in place, and an `insert_series` error aborts only
the call in which it occurs, so later calls run from the partially applied
state. -/
def MemDB.write_seq : MemDB → List (List PointType) → MemDB
  | db, [] => db
  | db, pts :: rest => MemDB.write_seq (MemDB.write db pts).1 rest

/-- The four input streams of the `read_merge_stream` unit test
(partitioned_store.rs lines 367-441); the opaque f64 payloads 1.1, 2.2, 5.5,
6.6 are carried as the bit tokens 11, 22, 55, 66. -/
def rmsTestStreams : List (List ReadBatch) :=
  [[⟨str "foo", .I64 [⟨3, 30⟩, ⟨4, 40⟩]⟩,
    ⟨str "test", .F64 [⟨1, ⟨11⟩⟩, ⟨2, ⟨22⟩⟩]⟩],
   [⟨str "bar", .F64 [⟨5, ⟨55⟩⟩, ⟨6, ⟨66⟩⟩]⟩,
    ⟨str "foo", .I64 [⟨1, 10⟩, ⟨2, 20⟩, ⟨6, 60⟩, ⟨11, 110⟩]⟩],
   [⟨str "foo", .I64 [⟨5, 50⟩, ⟨10, 100⟩]⟩],
   []]

/-! ## Helper lemmas about findIdx?, takeWhile and dropWhile -/

theorem findIdx?_cons_zero {α : Type} (p : α → Bool) (a : α) (l : List α) :
    (a :: l).findIdx? p = if p a then some 0 else (l.findIdx? p).map (· + 1) := by
  rw [List.findIdx?_cons, List.findIdx?_succ]

theorem findIdx?_none_take {α : Type} (p : α → Bool) :
    ∀ (l : List α), l.findIdx? p = none → l.takeWhile (fun x => !p x) = l
  | [], _ => rfl
  | a :: l, h => by
    rw [findIdx?_cons_zero] at h
    by_cases hp : p a
    · simp [hp] at h
    · simp only [hp, if_false, Bool.false_eq_true, Option.map_eq_none'] at h
      simp [List.takeWhile_cons, hp, findIdx?_none_take p l h]

theorem findIdx?_some_take {α : Type} (p : α → Bool) :
    ∀ (l : List α) (i : Nat), l.findIdx? p = some i →
      l.take i = l.takeWhile (fun x => !p x)
  | [], i, h => by simp [List.findIdx?] at h
  | a :: l, i, h => by
    rw [findIdx?_cons_zero] at h
    by_cases hp : p a
    · simp only [hp, if_true] at h
      obtain rfl : (0 : Nat) = i := Option.some.inj h
      simp [List.takeWhile_cons, hp]
    · simp only [hp, if_false, Bool.false_eq_true, Option.map_eq_some'] at h
      obtain ⟨j, hj, rfl⟩ := h
      simp [List.takeWhile_cons, hp, findIdx?_some_take p l j hj]

theorem findIdx?_some_drop {α : Type} (p : α → Bool) :
    ∀ (l : List α) (i : Nat), l.findIdx? p = some i →
      l.drop i = l.dropWhile (fun x => !p x)
  | [], i, h => by simp [List.findIdx?] at h
  | a :: l, i, h => by
    rw [findIdx?_cons_zero] at h
    by_cases hp : p a
    · simp only [hp, if_true] at h
      obtain rfl : (0 : Nat) = i := Option.some.inj h
      simp [List.dropWhile_cons, hp]
    · simp only [hp, if_false, Bool.false_eq_true, Option.map_eq_some'] at h
      obtain ⟨j, hj, rfl⟩ := h
      simp [List.dropWhile_cons, hp, findIdx?_some_drop p l j hj]

theorem findIdx?_getD_take {α : Type} (p : α → Bool) (l : List α) :
    l.take ((l.findIdx? p).getD l.length) = l.takeWhile (fun x => !p x) := by
  cases h : l.findIdx? p with
  | none =>
    simp only [h, Option.getD_none, List.take_length]
    exact (findIdx?_none_take p l h).symm
  | some i =>
    simp only [h, Option.getD_some]
    exact findIdx?_some_take p l i h

theorem findIdx?_some_lt_length {α : Type} (p : α → Bool) :
    ∀ (l : List α) (i : Nat), l.findIdx? p = some i → i < l.length
  | [], i, h => by simp [List.findIdx?] at h
  | a :: l, i, h => by
    rw [findIdx?_cons_zero] at h
    by_cases hp : p a
    · simp only [hp, if_true] at h
      obtain rfl : (0 : Nat) = i := Option.some.inj h
      simp
    · simp only [hp, if_false, Bool.false_eq_true, Option.map_eq_some'] at h
      obtain ⟨j, hj, rfl⟩ := h
      simpa using findIdx?_some_lt_length p l j hj

/-- Sorted lists: dropping the prefix of elements below a bound is the same
as filtering the whole list with the bound, stated for time-sorted point
lists. -/
theorem dropWhile_eq_filter_of_sorted {T : Type} (lo : Int) :
    ∀ (l : List (ReadPoint T)),
      l.Pairwise (fun p q => p.time ≤ q.time) →
      l.dropWhile (fun v => !decide (lo ≤ v.time)) = l.filter (fun v => decide (lo ≤ v.time))
  | [], _ => rfl
  | a :: l, h => by
    have hl := (List.pairwise_cons.mp h).2
    have ha := (List.pairwise_cons.mp h).1
    by_cases hp : lo ≤ a.time
    · have hrest : ∀ v ∈ l, decide (lo ≤ v.time) = true := by
        intro v hv
        exact decide_eq_true (le_trans hp (ha v hv))
      simp [List.dropWhile_cons, List.filter_cons, hp, List.filter_eq_self.mpr hrest]
    · simp only [List.dropWhile_cons, List.filter_cons, hp]
      simp only [decide_eq_true_eq]
      simp [hp, dropWhile_eq_filter_of_sorted lo l hl]

/-- Sorted lists: taking the prefix of elements below a bound is the same as
filtering with the bound. -/
theorem takeWhile_eq_filter_of_sorted {T : Type} (hi : Int) :
    ∀ (l : List (ReadPoint T)),
      l.Pairwise (fun p q => p.time ≤ q.time) →
      l.takeWhile (fun v => !decide (hi ≤ v.time)) = l.filter (fun v => decide (v.time < hi))
  | [], _ => rfl
  | a :: l, h => by
    have hl := (List.pairwise_cons.mp h).2
    have ha := (List.pairwise_cons.mp h).1
    by_cases hp : hi ≤ a.time
    · have hnot : ¬ a.time < hi := not_lt.mpr hp
      have hrest : l.filter (fun v => decide (v.time < hi)) = [] := by
        apply List.filter_eq_nil_iff.mpr
        intro v hv
        simp only [decide_eq_true_eq]
        exact not_lt.mpr (le_trans hp (ha v hv))
      simp [List.takeWhile_cons, List.filter_cons, hp, hnot, hrest]
    · have hlt : a.time < hi := not_le.mp hp
      simp [List.takeWhile_cons, List.filter_cons, hp, hlt,
        takeWhile_eq_filter_of_sorted hi l hl]

theorem take_takeWhile_length {α : Type} (p : α → Bool) :
    ∀ (l : List α), l.take (l.takeWhile p).length = l.takeWhile p
  | [] => rfl
  | a :: l => by
    by_cases hp : p a
    · simp [List.takeWhile_cons, hp, take_takeWhile_length p l]
    · simp [List.takeWhile_cons, hp]

theorem takeWhile_split {α : Type} (p q : α → Bool)
    (himp : ∀ x, p x = true → q x = true) :
    ∀ (l : List α), l.takeWhile q = l.takeWhile p ++ (l.dropWhile p).takeWhile q
  | [] => rfl
  | a :: l => by
    by_cases hp : p a
    · have hq : q a = true := himp a hp
      simp [List.takeWhile_cons, List.dropWhile_cons, hp, hq, takeWhile_split p q himp l]
    · simp [List.takeWhile_cons, List.dropWhile_cons, hp]

/-- C4: for a `SeriesBuffer` whose stored times are non-decreasing and a
timestamp range with `start ≤ end`, `SeriesBuffer::read` returns exactly the
stored points whose time lies in the half-open window `[start, end)`, in
stored order; in particular the result is empty whenever the buffer is empty
or no stored time falls inside the window. -/
theorem seriesBuffer_read_C4 {T : Type} (b : SeriesBuffer T) (range : TimestampRange)
    (hsorted : b.values.Pairwise (fun p q => p.time ≤ q.time))
    (hrange : range.start ≤ range.end_) :
    b.read range =
      b.values.filter (fun v => decide (range.start ≤ v.time) && decide (v.time < range.end_)) ∧
    ((b.values = [] ∨ ∀ v ∈ b.values, ¬(range.start ≤ v.time ∧ v.time < range.end_)) →
      b.read range = []) := by
  have himp : ∀ v : ReadPoint T,
      (!decide (range.start ≤ v.time)) = true → (!decide (range.end_ ≤ v.time)) = true := by
    intro v hv
    simp only [Bool.not_eq_true', decide_eq_false_iff_not, not_le] at hv ⊢
    exact lt_of_lt_of_le hv hrange
  have hmain : b.read range =
      b.values.filter (fun v => decide (range.start ≤ v.time) && decide (v.time < range.end_)) := by
    unfold SeriesBuffer.read
    cases hf : b.values.findIdx? (fun val => decide (range.start ≤ val.time)) with
    | none =>
      have hall := List.findIdx?_eq_none_iff.mp hf
      symm
      apply List.filter_eq_nil_iff.mpr
      intro v hv
      have hvf := hall v hv
      simp only [decide_eq_false_iff_not] at hvf
      simp [hvf]
    | some start =>
      have hstartlt := findIdx?_some_lt_length _ _ _ hf
      have htake := findIdx?_some_take _ _ _ hf
      have hdrop := findIdx?_some_drop _ _ _ hf
      have hstart_len :
          start = (b.values.takeWhile (fun v => !decide (range.start ≤ v.time))).length := by
        rw [← htake, List.length_take]
        exact (Nat.min_eq_left (le_of_lt hstartlt)).symm
      have hstop_len :
          (b.values.findIdx? (fun val => decide (range.end_ ≤ val.time))).getD b.values.length =
            (b.values.takeWhile (fun v => !decide (range.end_ ≤ v.time))).length := by
        have h1 := findIdx?_getD_take (fun val => decide (range.end_ ≤ val.time)) b.values
        have h2 : ((b.values.findIdx? (fun val => decide (range.end_ ≤ val.time))).getD
            b.values.length) ≤ b.values.length := by
          cases hg : b.values.findIdx? (fun val => decide (range.end_ ≤ val.time)) with
          | none => simp
          | some j =>
            simpa using le_of_lt (findIdx?_some_lt_length _ _ _ hg)
        calc (b.values.findIdx? (fun val => decide (range.end_ ≤ val.time))).getD b.values.length
            = (b.values.take ((b.values.findIdx? (fun val => decide (range.end_ ≤ val.time))).getD
                b.values.length)).length := by
              rw [List.length_take]
              exact (Nat.min_eq_left h2).symm
          _ = _ := by rw [h1]
      have hsplit := takeWhile_split (fun v : ReadPoint T => !decide (range.start ≤ v.time))
        (fun v => !decide (range.end_ ≤ v.time)) himp b.values
      have hdiff :
          (b.values.findIdx? (fun val => decide (range.end_ ≤ val.time))).getD b.values.length -
              start =
            (((b.values.dropWhile (fun v => !decide (range.start ≤ v.time))).takeWhile
              (fun v => !decide (range.end_ ≤ v.time)))).length := by
        rw [hstop_len, hstart_len, hsplit, List.length_append]
        omega
      simp only [hdrop, hdiff, take_takeWhile_length]
      have hRsorted :
          (b.values.dropWhile (fun v => !decide (range.start ≤ v.time))).Pairwise
            (fun p q => p.time ≤ q.time) :=
        List.Pairwise.sublist (List.dropWhile_sublist _) hsorted
      rw [takeWhile_eq_filter_of_sorted range.end_ _ hRsorted,
        dropWhile_eq_filter_of_sorted range.start _ hsorted, List.filter_filter]
      apply List.filter_congr
      intro v _
      rw [Bool.and_comm]
  refine ⟨hmain, ?_⟩
  rintro (hempty | hout)
  · rw [hmain, hempty]
    rfl
  · rw [hmain]
    apply List.filter_eq_nil_iff.mpr
    intro v hv
    have := hout v hv
    simp only [Bool.and_eq_true, decide_eq_true_eq]
    exact this

/-- Concrete instantiation of `seriesBuffer_read_C4`. -/
theorem seriesBuffer_read_C4_witness :
    List.Pairwise (fun p q : ReadPoint Int => p.time ≤ q.time)
      [⟨1, 10⟩, ⟨3, 30⟩, ⟨5, 50⟩] ∧
    (2 : Int) ≤ 5 ∧
    SeriesBuffer.read (⟨[⟨1, 10⟩, ⟨3, 30⟩, ⟨5, 50⟩]⟩ : SeriesBuffer Int) ⟨2, 5⟩ =
      [⟨3, 30⟩] := by
  refine ⟨by decide, by decide, ?_⟩
  have h := seriesBuffer_read_C4 (⟨[⟨1, 10⟩, ⟨3, 30⟩, ⟨5, 50⟩]⟩ : SeriesBuffer Int)
    ⟨2, 5⟩ (by decide) (by decide)
  exact h.1.trans (by decide)

theorem zero_sep_append_inj :
    ∀ (k1 k2 v1 v2 : List Nat), 0 ∉ k1 → 0 ∉ k2 →
      k1 ++ 0 :: v1 = k2 ++ 0 :: v2 → k1 = k2 ∧ v1 = v2
  | [], [], v1, v2, _, _, h => ⟨rfl, by simpa using h⟩
  | [], b :: k2, v1, v2, _, h2, h => by
    simp only [List.nil_append, List.cons_append, List.cons.injEq] at h
    exact (h2 (show (0 : Nat) ∈ b :: k2 by rw [h.1]; exact List.mem_cons_self b k2)).elim
  | a :: k1, [], v1, v2, h1, _, h => by
    simp only [List.cons_append, List.nil_append, List.cons.injEq] at h
    exact (h1 (show (0 : Nat) ∈ a :: k1 by rw [← h.1]; exact List.mem_cons_self a k1)).elim
  | a :: k1, b :: k2, v1, v2, h1, h2, h => by
    simp only [List.cons_append, List.cons.injEq] at h
    have hrec := zero_sep_append_inj k1 k2 v1 v2
      (fun hc => h1 (List.mem_cons_of_mem a hc))
      (fun hc => h2 (List.mem_cons_of_mem b hc)) h.2
    exact ⟨by rw [h.1, hrec.1], hrec.2⟩

theorem char_toNat_injective : Function.Injective Char.toNat := by
  intro a b h
  apply Char.ext
  apply UInt32.ext
  exact h

/-- C9: the posting-list key encoding `key || 0x00 || value` built by
`list_key` is injective as long as the key side contains no 0 byte, both at
the byte level and for embedded strings. -/
theorem list_key_injective_C9 (k1 v1 k2 v2 : List Nat)
    (h1 : 0 ∉ k1) (h2 : 0 ∉ k2) :
    (list_key k1 v1 = list_key k2 v2 ↔ k1 = k2 ∧ v1 = v2) ∧
    (∀ (s1 t1 s2 t2 : Str), 0 ∉ strBytes s1 → 0 ∉ strBytes s2 →
      (list_key (strBytes s1) (strBytes t1) = list_key (strBytes s2) (strBytes t2) ↔
        s1 = s2 ∧ t1 = t2)) := by
  constructor
  · constructor
    · exact fun h => zero_sep_append_inj k1 k2 v1 v2 h1 h2 h
    · rintro ⟨rfl, rfl⟩
      rfl
  · intro s1 t1 s2 t2 hs1 hs2
    constructor
    · intro h
      have hb := zero_sep_append_inj _ _ _ _ hs1 hs2 h
      have hinj : Function.Injective strBytes :=
        List.map_injective_iff.mpr char_toNat_injective
      exact ⟨hinj hb.1, hinj hb.2⟩
    · rintro ⟨rfl, rfl⟩
      rfl

/-- Concrete instantiation of `list_key_injective_C9`: the two keys (104, 111)
and (104) with values (115) and (111, 0, 115) concatenate to the same raw
bytes only through the separator, and the encoding tells them apart. -/
theorem list_key_injective_C9_witness :
    (0 : Nat) ∉ [(104 : Nat), 111] ∧ (0 : Nat) ∉ [(104 : Nat)] ∧
    list_key [(104 : Nat), 111] [115] ≠ list_key [(104 : Nat)] [111, 0, 115] := by
  refine ⟨by decide, by decide, ?_⟩
  have h := list_key_injective_C9 [(104 : Nat), 111] [115] [(104 : Nat)] [111, 0, 115]
    (by decide) (by decide)
  intro heq
  exact absurd (h.1.mp heq).1 (by decide)

/-- Counterexample to C3 as stated: after an i64 point interns the series
key, a second write with an f64 point under the same key does not fail with
a type-mismatch error — it succeeds, leaves the recorded type untouched, and
silently stores the point in the f64 buffer map under the same id. -/
theorem memdb_write_typeMismatch_counterexample_C3 :
    (MemDB.write MemDB.new
      [PointType.i64 ⟨str "m,h=a\tf", 1, 0, none⟩,
       PointType.f64 ⟨str "m,h=a\tf", ⟨1⟩, 1, none⟩]).2 = Except.ok () ∧
    (MemDB.write MemDB.new
      [PointType.i64 ⟨str "m,h=a\tf", 1, 0, none⟩,
       PointType.f64 ⟨str "m,h=a\tf", ⟨1⟩, 1, none⟩]).1.series_map.series_id_to_key_and_type 1 =
      some (str "m,h=a\tf", SeriesDataType.I64) ∧
    (MemDB.write MemDB.new
      [PointType.i64 ⟨str "m,h=a\tf", 1, 0, none⟩,
       PointType.f64 ⟨str "m,h=a\tf", ⟨1⟩, 1, none⟩]).1.series_data.f64_series 1 =
      some ⟨[⟨1, ⟨1⟩⟩]⟩ :=
  ⟨rfl, rfl, rfl⟩

/-- C3 (amended): a subsequent write of a point whose series key is already
interned succeeds unconditionally — `insert_series` returns early on the
interned key without comparing value types — and the whole series map, in
particular the recorded `(key, type)` entry, is unchanged. -/
theorem memdb_write_same_key_other_type_C3 (db : MemDB) (p : PointType) (id : Nat)
    (key : Str) (ty : SeriesDataType)
    (hkey : db.series_map.series_key_to_id p.series = some id)
    (_hty : db.series_map.series_id_to_key_and_type id = some (key, ty))
    (_hmismatch : ty ≠ p.data_type) :
    (MemDB.write db [p]).2 = Except.ok () ∧
    (MemDB.write db [p]).1.series_map = db.series_map := by
  have hins : db.series_map.insert_series p = (db.series_map, .ok (p.set_series_id id)) := by
    unfold SeriesMap.insert_series
    rw [hkey]
  simp [MemDB.write, hins]

/-- Concrete instantiation of `memdb_write_same_key_other_type_C3`. -/
theorem memdb_write_same_key_other_type_C3_witness :
    ((MemDB.write MemDB.new [PointType.i64 ⟨str "m,h=a\tf", 1, 0, none⟩]).1.series_map.series_key_to_id
      (PointType.f64 ⟨str "m,h=a\tf", ⟨1⟩, 1, none⟩).series = some 1) ∧
    ((MemDB.write MemDB.new [PointType.i64 ⟨str "m,h=a\tf", 1, 0, none⟩]).1.series_map.series_id_to_key_and_type
      1 = some (str "m,h=a\tf", SeriesDataType.I64)) ∧
    SeriesDataType.I64 ≠ (PointType.f64 ⟨str "m,h=a\tf", ⟨1⟩, 1, none⟩).data_type ∧
    (MemDB.write (MemDB.write MemDB.new [PointType.i64 ⟨str "m,h=a\tf", 1, 0, none⟩]).1
      [PointType.f64 ⟨str "m,h=a\tf", ⟨1⟩, 1, none⟩]).2 = Except.ok () := by
  refine ⟨rfl, rfl, fun h => SeriesDataType.noConfusion h, ?_⟩
  exact (memdb_write_same_key_other_type_C3 _ _ 1 (str "m,h=a\tf") SeriesDataType.I64
    rfl rfl (fun h => SeriesDataType.noConfusion h)).1

theorem read_batches_nonempty (db : MemDB) (range : TimestampRange) :
    ∀ (ids : List Nat) (batches : List ReadBatch),
      read_batches db range ids = some batches →
      ∀ b ∈ batches, b.values.is_empty = false
  | [], batches, h => by
    unfold read_batches at h
    obtain rfl := Option.some.inj h
    intro b hb
    cases hb
  | id :: rest, batches, h => by
    unfold read_batches at h
    split at h
    · exact absurd h (by simp)
    · rename_i key series_type _
      split at h
      · exact absurd h (by simp)
      · rename_i values hvals
        split at h
        · exact absurd h (by simp)
        · rename_i batches0 hrec
          have ih := read_batches_nonempty db range rest batches0 hrec
          obtain rfl := Option.some.inj h
          intro b hb
          by_cases hemp : values.is_empty
          · rw [if_pos hemp] at hb
            exact ih b hb
          · rw [if_neg hemp] at hb
            cases hb with
            | head => simpa using hemp
            | tail _ hb => exact ih b hb

/-- C8: whenever `MemDB::read` succeeds, every `ReadBatch` it returns is
non-empty: series whose range slice comes back empty are skipped and produce
no batch. -/
theorem memdb_read_nonempty_C8 (db : MemDB) (n : Nat) (predicate : Predicate)
    (range : TimestampRange) (batches : List ReadBatch)
    (h : db.read n predicate range = some (Except.ok batches)) :
    ∀ b ∈ batches, b.values.is_empty = false := by
  unfold MemDB.read at h
  split at h
  · exact absurd (Option.some.inj h) (by simp)
  · split at h
    · exact absurd (Option.some.inj h) (by simp)
    · rename_i map _
      cases hrb : read_batches db range map with
      | none => rw [hrb] at h; exact absurd h (by simp)
      | some bs =>
        rw [hrb] at h
        obtain rfl : bs = batches := Except.ok.inj (Option.some.inj h)
        exact read_batches_nonempty db range map bs hrb

/-- Concrete instantiation of `memdb_read_nonempty_C8`. -/
theorem memdb_read_nonempty_C8_witness :
    MemDB.read (MemDB.write MemDB.new [PointType.i64 ⟨str "m,h=a\tf", 1, 0, none⟩]).1
      10 ⟨some (Node.eq (str "h") (str "a"))⟩ ⟨0, 5⟩ =
      some (Except.ok [⟨str "m,h=a\tf", ReadValues.I64 [⟨0, 1⟩]⟩]) ∧
    ∀ b ∈ [(⟨str "m,h=a\tf", ReadValues.I64 [⟨0, 1⟩]⟩ : ReadBatch)],
      b.values.is_empty = false := by
  have h : MemDB.read (MemDB.write MemDB.new
        [PointType.i64 ⟨str "m,h=a\tf", 1, 0, none⟩]).1
      10 ⟨some (Node.eq (str "h") (str "a"))⟩ ⟨0, 5⟩ =
      some (Except.ok [⟨str "m,h=a\tf", ReadValues.I64 [⟨0, 1⟩]⟩]) := by rfl
  exact ⟨h, memdb_read_nonempty_C8 _ 10 _ _ _ h⟩

theorem mem_tmAdd (x : Nat) :
    ∀ (l : List Nat) (y : Nat), y ∈ tmAdd x l ↔ y = x ∨ y ∈ l
  | [], y => by simp [tmAdd]
  | a :: l, y => by
    unfold tmAdd
    rcases Nat.lt_trichotomy x a with h1 | h1 | h1
    · rw [if_pos h1]
      simp [List.mem_cons]
    · subst h1
      rw [if_neg (lt_irrefl x), if_pos rfl]
      simp only [List.mem_cons]
      tauto
    · rw [if_neg (by omega), if_neg (by omega)]
      simp only [List.mem_cons, mem_tmAdd x l y]
      tauto

theorem mem_tmUnion :
    ∀ (b a : List Nat) (y : Nat), y ∈ tmUnion a b ↔ y ∈ a ∨ y ∈ b
  | [], a, y => by simp [tmUnion]
  | x :: b, a, y => by
    have hstep : tmUnion a (x :: b) = tmUnion (tmAdd x a) b := rfl
    rw [hstep, mem_tmUnion b (tmAdd x a) y, mem_tmAdd]
    simp only [List.mem_cons]
    tauto

theorem mem_tmInter (a b : List Nat) (y : Nat) :
    y ∈ tmInter a b ↔ y ∈ a ∧ y ∈ b := by
  simp [tmInter]

theorem postPairs_fields (new_id : Nat) :
    ∀ (pairs : List Pair) (sm : SeriesMap),
      (postPairs new_id pairs sm).last_id = sm.last_id ∧
      (postPairs new_id pairs sm).series_key_to_id = sm.series_key_to_id ∧
      (postPairs new_id pairs sm).series_id_to_key_and_type = sm.series_id_to_key_and_type
  | [], _ => ⟨rfl, rfl, rfl⟩
  | _p :: ps, _sm => postPairs_fields new_id ps _

theorem postPairs_posting_sub (new_id : Nat) :
    ∀ (pairs : List Pair) (sm : SeriesMap) (kb : List Nat) (id : Nat),
      id ∈ (postPairs new_id pairs sm).posting_list kb →
      id ∈ sm.posting_list kb ∨ id = new_id
  | [], _, _, _, h => .inl h
  | p :: ps, sm, kb, id, h => by
    have hrec := postPairs_posting_sub new_id ps _ kb id h
    cases hrec with
    | inr h => exact .inr h
    | inl h =>
      dsimp only at h
      by_cases hk : kb = list_key (strBytes p.key) (strBytes p.value)
      · rw [if_pos hk] at h
        rcases (mem_tmAdd new_id _ id).mp h with h | h
        · exact .inr h
        · exact .inl h
      · rw [if_neg hk] at h
        exact .inl h

theorem write_preserves_has_buffer (p : PointType) (sd : SeriesData)
    (ty : SeriesDataType) (id : Nat) (h : sd.has_buffer ty id) :
    (p.write sd).has_buffer ty id := by
  cases p with
  | i64 q =>
    cases ty with
    | I64 =>
      simp only [PointType.write, storeI64, SeriesData.has_buffer] at h ⊢
      split
      · dsimp only
        split <;> simp_all
      · dsimp only
        split <;> simp_all
    | F64 =>
      simp only [PointType.write, storeI64, SeriesData.has_buffer] at h ⊢
      split <;> exact h
  | f64 q =>
    cases ty with
    | I64 =>
      simp only [PointType.write, storeF64, SeriesData.has_buffer] at h ⊢
      split <;> exact h
    | F64 =>
      simp only [PointType.write, storeF64, SeriesData.has_buffer] at h ⊢
      split
      · dsimp only
        split <;> simp_all
      · dsimp only
        split <;> simp_all

theorem write_self_has_buffer (p : PointType) (sd : SeriesData) (id : Nat) :
    ((p.set_series_id id).write sd).has_buffer p.data_type id := by
  cases p with
  | i64 q =>
    simp only [PointType.set_series_id, PointType.write, PointType.data_type, storeI64,
      SeriesData.has_buffer, Option.getD_some]
    split
    · simp
    · simp
  | f64 q =>
    simp only [PointType.set_series_id, PointType.write, PointType.data_type, storeF64,
      SeriesData.has_buffer, Option.getD_some]
    split
    · simp
    · simp

theorem set_series_id_series (p : PointType) (id : Nat) :
    (p.set_series_id id).series = p.series := by
  cases p <;> rfl

theorem set_series_id_data_type (p : PointType) (id : Nat) :
    (p.set_series_id id).data_type = p.data_type := by
  cases p <;> rfl

theorem insert_series_inv (db : MemDB) (p : PointType) (hinv : db.Inv) :
    ∀ (sm2 : SeriesMap) (res : Except ParseError PointType),
      db.series_map.insert_series p = (sm2, res) →
      (∀ e, res = .error e → (MemDB.mk db.series_data sm2).Inv) ∧
      (∀ p2, res = .ok p2 → (MemDB.mk (p2.write db.series_data) sm2).Inv) := by
  intro sm2 res h
  unfold SeriesMap.insert_series at h
  cases hk : db.series_map.series_key_to_id p.series with
  | some id =>
    rw [hk] at h
    injection h with h1 h2
    subst h1
    subst h2
    refine ⟨fun e he => absurd he (by simp), fun p2 hp2 => ?_⟩
    obtain rfl := Except.ok.inj hp2
    refine ⟨hinv.1, ?_⟩
    intro id0 hex
    obtain ⟨key, ty, hrev, hbuf⟩ := hinv.2 id0 hex
    exact ⟨key, ty, hrev, write_preserves_has_buffer _ _ _ _ hbuf⟩
  | none =>
    rw [hk] at h
    dsimp only at h
    rw [set_series_id_series] at h
    cases hip : index_pairs p.series with
    | error e =>
      rw [hip] at h
      injection h with h1 h2
      subst h1
      subst h2
      refine ⟨fun e' _ => ?_, fun p2 hp2 => absurd hp2 (by simp)⟩
      constructor
      · intro id0 kb hkb
        exact le_trans (hinv.1 id0 kb hkb) (Nat.le_succ _)
      · rintro id0 ⟨kb, hkb⟩
        obtain ⟨key, ty, hrev, hbuf⟩ := hinv.2 id0 ⟨kb, hkb⟩
        have hlt : id0 ≠ db.series_map.last_id + 1 := by
          have := hinv.1 id0 kb hkb
          omega
        refine ⟨key, ty, ?_, hbuf⟩
        dsimp only
        rw [if_neg hlt]
        exact hrev
    | ok pairs =>
      rw [hip] at h
      injection h with h1 h2
      subst h1
      subst h2
      refine ⟨fun e he => absurd he (by simp), fun p2 hp2 => ?_⟩
      obtain rfl := Except.ok.inj hp2
      constructor
      · intro id0 kb hkb
        rw [(postPairs_fields _ pairs _).1]
        rcases postPairs_posting_sub _ _ _ _ _ hkb with hold | rfl
        · exact le_trans (hinv.1 id0 kb hold) (Nat.le_succ _)
        · exact le_refl _
      · rintro id0 ⟨kb, hkb⟩
        rw [(postPairs_fields _ pairs _).2.2]
        rcases postPairs_posting_sub _ _ _ _ _ hkb with hold | rfl
        · obtain ⟨key, ty, hrev, hbuf⟩ := hinv.2 id0 ⟨kb, hold⟩
          have hlt : id0 ≠ db.series_map.last_id + 1 := by
            have := hinv.1 id0 kb hold
            omega
          refine ⟨key, ty, ?_, write_preserves_has_buffer _ _ _ _ hbuf⟩
          dsimp only
          rw [if_neg hlt]
          exact hrev
        · refine ⟨p.series, p.data_type, ?_, ?_⟩
          · dsimp only
            rw [if_pos rfl, set_series_id_data_type]
          · exact write_self_has_buffer p db.series_data _

theorem memdb_write_inv :
    ∀ (pts : List PointType) (db : MemDB), db.Inv → (MemDB.write db pts).1.Inv
  | [], _, hinv => hinv
  | p :: rest, db, hinv => by
    unfold MemDB.write
    rcases hins : db.series_map.insert_series p with ⟨sm2, res⟩
    have hcase := insert_series_inv db p hinv sm2 res hins
    cases res with
    | error e => exact hcase.1 e rfl
    | ok p2 => exact memdb_write_inv rest _ (hcase.2 p2 rfl)

theorem evaluate_node_sub (sm : SeriesMap) :
    ∀ (n : Node) (ids : List Nat), evaluate_node sm n = .ok ids →
      ∀ id ∈ ids, ∃ kb, id ∈ sm.posting_list kb
  | .eq l r, ids, h => by
    obtain rfl := Except.ok.inj h
    intro id hid
    exact ⟨_, hid⟩
  | .and l r, ids, h => by
    unfold evaluate_node at h
    cases hl : evaluate_node sm l with
    | error e => rw [hl] at h; exact absurd h (by simp)
    | ok a =>
      rw [hl] at h
      cases hr : evaluate_node sm r with
      | error e => rw [hr] at h; exact absurd h (by simp)
      | ok b =>
        rw [hr] at h
        obtain rfl := Except.ok.inj h
        intro id hid
        exact evaluate_node_sub sm l a hl id ((mem_tmInter a b id).mp hid).1
  | .or l r, ids, h => by
    unfold evaluate_node at h
    cases hl : evaluate_node sm l with
    | error e => rw [hl] at h; exact absurd h (by simp)
    | ok a =>
      rw [hl] at h
      cases hr : evaluate_node sm r with
      | error e => rw [hr] at h; exact absurd h (by simp)
      | ok b =>
        rw [hr] at h
        obtain rfl := Except.ok.inj h
        intro id hid
        rcases (mem_tmUnion b a id).mp hid with hida | hidb
        · exact evaluate_node_sub sm l a hl id hida
        · exact evaluate_node_sub sm r b hr id hidb
  | .unsupported, ids, h => by exact absurd h (by simp [evaluate_node])

theorem read_batches_some (db : MemDB) (range : TimestampRange) :
    ∀ (ids : List Nat),
      (∀ id ∈ ids, ∃ key ty, db.series_map.series_id_to_key_and_type id = some (key, ty) ∧
        db.series_data.has_buffer ty id) →
      read_batches db range ids ≠ none
  | [], _ => by simp [read_batches]
  | id :: rest, h => by
    obtain ⟨key, ty, hrev, hbuf⟩ := h id (List.mem_cons_self id rest)
    have hrest := read_batches_some db range rest (fun i hi => h i (List.mem_cons_of_mem id hi))
    unfold read_batches
    rw [hrev]
    cases ty with
    | I64 =>
      simp only [SeriesData.has_buffer] at hbuf
      dsimp only
      cases hbi : db.series_data.i64_series id with
      | none => exact absurd hbi hbuf
      | some buff =>
        dsimp only [Option.map]
        cases hrb : read_batches db range rest with
        | none => exact absurd hrb hrest
        | some bs => simp
    | F64 =>
      simp only [SeriesData.has_buffer] at hbuf
      dsimp only
      cases hbi : db.series_data.f64_series id with
      | none => exact absurd hbi hbuf
      | some buff =>
        dsimp only [Option.map]
        cases hrb : read_batches db range rest with
        | none => exact absurd hrb hrest
        | some bs => simp

theorem memdb_write_seq_inv :
    ∀ (ptss : List (List PointType)) (db : MemDB), db.Inv →
      (MemDB.write_seq db ptss).Inv
  | [], _, hinv => hinv
  | pts :: rest, db, hinv =>
    memdb_write_seq_inv rest (MemDB.write db pts).1 (memdb_write_inv pts db hinv)

/-- C7: every MemDB state reachable from `MemDB::new` by a sequence of
`write` calls — including sequences in which earlier calls aborted with an
`insert_series` error, leaving a dangling interned id with a reverse-map
entry but no buffer — keeps referential integrity between its posting
lists, the id reverse map, and the typed buffer maps: every id present in
any posting list has a reverse entry whose recorded type owns a buffer.
Hence the `unwrap` lookups performed by `MemDB::read` for the ids produced
by predicate evaluation cannot panic (the Option layer of the embedding
never yields `none`), for any predicate and timestamp range. -/
theorem memdb_reachable_read_no_panic_C7 (ptss : List (List PointType)) (db : MemDB)
    (h : MemDB.write_seq MemDB.new ptss = db) :
    (∀ id, (∃ kb, id ∈ db.series_map.posting_list kb) →
      ∃ key ty, db.series_map.series_id_to_key_and_type id = some (key, ty) ∧
        db.series_data.has_buffer ty id) ∧
    (∀ (n : Nat) (predicate : Predicate) (range : TimestampRange),
      db.read n predicate range ≠ none) := by
  have hdb : db = MemDB.write_seq MemDB.new ptss := by rw [h]
  have hinvnew : MemDB.new.Inv := by
    constructor
    · intro id kb hkb
      cases hkb
    · rintro id ⟨kb, hkb⟩
      cases hkb
  have hinv : db.Inv := by
    rw [hdb]
    exact memdb_write_seq_inv ptss MemDB.new hinvnew
  refine ⟨hinv.2, ?_⟩
  intro n predicate range
  unfold MemDB.read
  cases hroot : predicate.root with
  | none => simp
  | some root =>
    dsimp only
    cases hev : evaluate_node db.series_map root with
    | error e => simp
    | ok map =>
      have hmem := evaluate_node_sub db.series_map root map hev
      have hsome := read_batches_some db range map (fun id hid => hinv.2 id (hmem id hid))
      simp only [ne_eq, Option.map_eq_none']
      exact hsome

/-- Concrete instantiation of `memdb_reachable_read_no_panic_C7` on a
two-call sequence in which the first call fails (the malformed key `bad`
aborts `insert_series` after interning id 1, leaving a reverse-map entry
with no buffer and no posting-list occurrence) and the second call succeeds
on a well-formed key: the resulting state carries the dangling id below a
fully written one, and `read` still cannot panic. -/
theorem memdb_reachable_read_no_panic_C7_witness :
    MemDB.write_seq MemDB.new [[PointType.i64 ⟨str "bad", 1, 0, none⟩],
        [PointType.i64 ⟨str "m,h=a\tf", 1, 0, none⟩]] =
      MemDB.write_seq MemDB.new [[PointType.i64 ⟨str "bad", 1, 0, none⟩],
        [PointType.i64 ⟨str "m,h=a\tf", 1, 0, none⟩]] ∧
    (MemDB.write MemDB.new [PointType.i64 ⟨str "bad", 1, 0, none⟩]).2 =
      Except.error ⟨str "error parsing line protocol metadata"⟩ ∧
    (MemDB.write_seq MemDB.new [[PointType.i64 ⟨str "bad", 1, 0, none⟩],
        [PointType.i64 ⟨str "m,h=a\tf", 1, 0, none⟩]]).series_map.series_id_to_key_and_type
      1 = some (str "bad", SeriesDataType.I64) ∧
    (MemDB.write_seq MemDB.new [[PointType.i64 ⟨str "bad", 1, 0, none⟩],
        [PointType.i64 ⟨str "m,h=a\tf", 1, 0, none⟩]]).series_data.i64_series 1 =
      none ∧
    (MemDB.write_seq MemDB.new [[PointType.i64 ⟨str "bad", 1, 0, none⟩],
        [PointType.i64 ⟨str "m,h=a\tf", 1, 0, none⟩]]).series_data.i64_series 2 ≠
      none ∧
    (∀ (n : Nat) (predicate : Predicate) (range : TimestampRange),
      (MemDB.write_seq MemDB.new [[PointType.i64 ⟨str "bad", 1, 0, none⟩],
        [PointType.i64 ⟨str "m,h=a\tf", 1, 0, none⟩]]).read n predicate range ≠
        none) :=
  ⟨rfl, rfl, rfl, rfl, by decide,
    (memdb_reachable_read_no_panic_C7 [[PointType.i64 ⟨str "bad", 1, 0, none⟩],
      [PointType.i64 ⟨str "m,h=a\tf", 1, 0, none⟩]] _ rfl).2⟩

/-- C6: whenever the record-batch iterator yields any second item after a
successfully read first batch, `convert_impl` aborts with the multi-batch
outcome — the `unimplemented!` abort that the spec error taxonomy names
MultiBatchNotSupported — and never any other outcome. -/
theorem convert_impl_multi_batch_C6 (batch : RecordBatchM)
    (x : Except Unit RecordBatchM) (rest : List (Except Unit RecordBatchM)) :
    convert_impl (Except.ok batch :: x :: rest) =
      Except.error ConvertError.multiBatchNotSupported := rfl

theorem tmAdd_pairwise (x : Nat) :
    ∀ (l : List Nat), l.Pairwise (· < ·) → (tmAdd x l).Pairwise (· < ·)
  | [], _ => by simp [tmAdd]
  | a :: l, h => by
    unfold tmAdd
    rcases Nat.lt_trichotomy x a with h1 | h1 | h1
    · rw [if_pos h1]
      refine List.Pairwise.cons ?_ h
      intro y hy
      rcases List.mem_cons.mp hy with rfl | hy
      · exact h1
      · exact lt_trans h1 ((List.pairwise_cons.mp h).1 y hy)
    · subst h1
      rw [if_neg (lt_irrefl x), if_pos rfl]
      exact h
    · rw [if_neg (by omega), if_neg (by omega)]
      refine List.Pairwise.cons ?_ (tmAdd_pairwise x l (List.pairwise_cons.mp h).2)
      intro y hy
      rcases (mem_tmAdd x l y).mp hy with rfl | hy
      · exact h1
      · exact (List.pairwise_cons.mp h).1 y hy

theorem tmUnion_pairwise :
    ∀ (b a : List Nat), a.Pairwise (· < ·) → (tmUnion a b).Pairwise (· < ·)
  | [], _, h => h
  | x :: b, a, h => tmUnion_pairwise b (tmAdd x a) (tmAdd_pairwise x a h)

theorem transitionsAux_mem :
    ∀ (rest : List Str) (cur : Str) (row : Nat) (e : Nat),
      e ∈ transitionsAux cur rest row → row ≤ e ∧ e < row + rest.length
  | [], cur, row, e, h => by simp [transitionsAux] at h
  | v :: rest, cur, row, e, h => by
    unfold transitionsAux at h
    by_cases hv : v ≠ cur
    · rw [if_pos hv] at h
      rcases (mem_tmAdd row _ e).mp h with rfl | h
      · simp
      · have hrec := transitionsAux_mem rest v (row + 1) e h
        exact ⟨by omega, by simp only [List.length_cons]; omega⟩
    · rw [if_neg hv] at h
      have hrec := transitionsAux_mem rest cur (row + 1) e h
      exact ⟨by omega, by simp only [List.length_cons]; omega⟩

theorem transitionsAux_pairwise :
    ∀ (rest : List Str) (cur : Str) (row : Nat),
      (transitionsAux cur rest row).Pairwise (· < ·)
  | [], _, _ => List.Pairwise.nil
  | v :: rest, cur, row => by
    unfold transitionsAux
    by_cases hv : v ≠ cur
    · rw [if_pos hv]
      exact tmAdd_pairwise row _ (transitionsAux_pairwise rest v (row + 1))
    · rw [if_neg hv]
      exact transitionsAux_pairwise rest cur (row + 1)

theorem compute_transitions_pairwise (batch : RecordBatchM) (col : List Str) :
    (compute_transitions batch col).Pairwise (· < ·) := by
  unfold compute_transitions
  by_cases hN : batch.num_rows < 1
  · rw [if_pos hN]
    exact List.Pairwise.nil
  · rw [if_neg hN]
    cases col with
    | nil => exact tmAdd_pairwise _ _ List.Pairwise.nil
    | cons c0 rest => exact tmAdd_pairwise _ _ (transitionsAux_pairwise rest c0 1)

theorem compute_transitions_mem (batch : RecordBatchM) (col : List Str) (e : Nat)
    (hlen : col.length = batch.num_rows)
    (h : e ∈ compute_transitions batch col) : 1 ≤ e ∧ e ≤ batch.num_rows := by
  unfold compute_transitions at h
  by_cases hN : batch.num_rows < 1
  · rw [if_pos hN] at h
    cases h
  · rw [if_neg hN] at h
    rcases (mem_tmAdd _ _ e).mp h with rfl | h
    · omega
    · cases col with
      | nil => cases h
      | cons c0 rest =>
        have hrec := transitionsAux_mem rest c0 1 e h
        have : rest.length + 1 = batch.num_rows := by
          simpa [List.length_cons] using hlen
        omega

theorem compute_transitions_mem_last (batch : RecordBatchM) (col : List Str)
    (hN : 1 ≤ batch.num_rows) : batch.num_rows ∈ compute_transitions batch col := by
  unfold compute_transitions
  rw [if_neg (by omega)]
  exact (mem_tmAdd _ _ _).mpr (Or.inl rfl)

theorem mem_foldl_tmUnion :
    ∀ (rest : List (List Nat)) (t0 : List Nat) (y : Nat),
      y ∈ rest.foldl tmUnion t0 ↔ y ∈ t0 ∨ ∃ t ∈ rest, y ∈ t
  | [], t0, y => by simp
  | t :: rest, t0, y => by
    simp only [List.foldl_cons, mem_foldl_tmUnion rest (tmUnion t0 t) y,
      mem_tmUnion t t0 y, List.mem_cons]
    constructor
    · rintro ((h | h) | ⟨u, hu, hyu⟩)
      · exact Or.inl h
      · exact Or.inr ⟨t, Or.inl rfl, h⟩
      · exact Or.inr ⟨u, Or.inr hu, hyu⟩
    · rintro (h | ⟨u, (rfl | hu), hyu⟩)
      · exact Or.inl (Or.inl h)
      · exact Or.inl (Or.inr hyu)
      · exact Or.inr ⟨u, hu, hyu⟩

theorem foldl_tmUnion_pairwise :
    ∀ (rest : List (List Nat)) (t0 : List Nat),
      t0.Pairwise (· < ·) → (rest.foldl tmUnion t0).Pairwise (· < ·)
  | [], _, h => h
  | t :: rest, t0, h => foldl_tmUnion_pairwise rest (tmUnion t0 t) (tmUnion_pairwise t t0 h)

theorem intersections_pairwise (batch : RecordBatchM) :
    (intersectionsOf batch).Pairwise (· < ·) := by
  unfold intersectionsOf
  cases htags : batch.tag_cols with
  | nil => simp [tmAdd]
  | cons c cs =>
    simp only [List.map_cons]
    exact foldl_tmUnion_pairwise _ _ (compute_transitions_pairwise batch c)

theorem intersections_mem_of_tags (batch : RecordBatchM) (c : List Str) (cs : List (List Str))
    (htags : batch.tag_cols = c :: cs)
    (hwf : ∀ col ∈ batch.tag_cols, col.length = batch.num_rows)
    (e : Nat) (h : e ∈ intersectionsOf batch) : 1 ≤ e ∧ e ≤ batch.num_rows := by
  unfold intersectionsOf at h
  rw [htags] at h
  simp only [List.map_cons] at h
  rcases (mem_foldl_tmUnion _ _ e).mp h with h | ⟨t, ht, hyt⟩
  · exact compute_transitions_mem batch c e (hwf c (htags ▸ List.mem_cons_self c cs)) h
  · obtain ⟨col, hcol, rfl⟩ := List.mem_map.mp ht
    exact compute_transitions_mem batch col e
      (hwf col (htags ▸ List.mem_cons_of_mem c hcol)) hyt

theorem intersections_last (batch : RecordBatchM) (hN : 1 ≤ batch.num_rows) :
    batch.num_rows ∈ intersectionsOf batch := by
  unfold intersectionsOf
  cases htags : batch.tag_cols with
  | nil => exact (mem_tmAdd _ _ _).mpr (Or.inl rfl)
  | cons c cs =>
    simp only [List.map_cons]
    exact (mem_foldl_tmUnion _ _ _).mpr (Or.inl (compute_transitions_mem_last batch c hN))

theorem runsOf_length : ∀ (ends : List Nat) (s : Nat), (runsOf s ends).length = ends.length
  | [], _ => rfl
  | _ :: rest, _ => by simp [runsOf, runsOf_length rest]

theorem runsOf_starts :
    ∀ (e : Nat) (rest : List Nat) (s : Nat),
      (runsOf s (e :: rest)).map Prod.fst = s :: (e :: rest).dropLast
  | e, [], s => by simp [runsOf]
  | e, e2 :: rest, s => by
    have hrec := runsOf_starts e2 rest e
    simp only [runsOf, List.map_cons] at hrec ⊢
    rw [hrec]
    rfl

theorem runsOf_chain :
    ∀ (ends : List Nat) (s : Nat), (∀ e ∈ ends, s ≤ e) → ends.Pairwise (· ≤ ·) →
      ∀ i, i + 1 < (runsOf s ends).length →
        ((runsOf s ends).map Prod.fst).getD (i + 1) 0 =
          ((runsOf s ends).map Prod.fst).getD i 0 +
            ((runsOf s ends).map Prod.snd).getD i 0
  | [], _, _, _, i, h => by simp [runsOf] at h
  | [_], _, _, _, i, h => by simp [runsOf, runsOf_length] at h
  | e :: e2 :: rest, s, hs, hp, i, h => by
    cases i with
    | zero =>
      have hse : s ≤ e := hs e (List.mem_cons_self _ _)
      simp only [runsOf, List.map_cons, List.getD_cons_succ, List.getD_cons_zero]
      omega
    | succ j =>
      have htail : ∀ x ∈ e2 :: rest, e ≤ x := (List.pairwise_cons.mp hp).1
      have hrec := runsOf_chain (e2 :: rest) e htail (List.pairwise_cons.mp hp).2 j
        (by
          simp only [runsOf_length] at h ⊢
          simpa using Nat.lt_of_succ_lt_succ h)
      simp only [runsOf, List.map_cons, List.getD_cons_succ]
      exact hrec

theorem pairwise_le_getLast :
    ∀ (l : List Nat), l.Pairwise (· ≤ ·) →
      ∀ y ∈ l, ∃ L, l.getLast? = some L ∧ y ≤ L
  | [], _, y, hy => by cases hy
  | [x], _, y, hy => ⟨x, rfl, le_of_eq (by simpa using hy)⟩
  | x :: x2 :: rest, hp, y, hy => by
    have htail := (List.pairwise_cons.mp hp).2
    rcases List.mem_cons.mp hy with rfl | hy
    · obtain ⟨L, hL, hle⟩ :=
        pairwise_le_getLast (x2 :: rest) htail x2 (List.mem_cons_self _ _)
      refine ⟨L, ?_, ?_⟩
      · rw [List.getLast?_cons_cons]
        exact hL
      · exact le_trans ((List.pairwise_cons.mp hp).1 x2 (List.mem_cons_self _ _)) hle
    · obtain ⟨L, hL, hle⟩ := pairwise_le_getLast (x2 :: rest) htail y hy
      refine ⟨L, ?_, hle⟩
      rw [List.getLast?_cons_cons]
      exact hL

theorem runsOf_sum :
    ∀ (ends : List Nat) (s L : Nat), ends.Pairwise (· ≤ ·) → (∀ e ∈ ends, s ≤ e) →
      ends.getLast? = some L →
      ((runsOf s ends).map Prod.snd).sum = L - s
  | [], _, _, _, _, h => by simp at h
  | [e], s, L, _, hs, h => by
    obtain rfl : e = L := by simpa using h
    simp [runsOf]
  | e :: e2 :: rest, s, L, hp, hs, h => by
    have htail : ∀ x ∈ e2 :: rest, e ≤ x := (List.pairwise_cons.mp hp).1
    rw [List.getLast?_cons_cons] at h
    have hrec := runsOf_sum (e2 :: rest) e L (List.pairwise_cons.mp hp).2 htail h
    have hse : s ≤ e := hs e (List.mem_cons_self _ _)
    have heL : e ≤ L := by
      obtain ⟨L2, hL2, hle⟩ :=
        pairwise_le_getLast (e2 :: rest) (List.pairwise_cons.mp hp).2 e2
          (List.mem_cons_self _ _)
      have : L2 = L := by rw [hL2] at h; exact Option.some.inj h
      subst this
      exact le_trans ((List.pairwise_cons.mp hp).1 e2 (List.mem_cons_self _ _)) hle
    have hunfold : runsOf s (e :: e2 :: rest) = (s, e - s) :: runsOf e (e2 :: rest) := rfl
    rw [hunfold, List.map_cons, List.sum_cons, hrec]
    omega

/-- C2: for a single record batch whose designated tag columns are
well-formed (each `num_rows` long), string-typed, and lexicographically
sorted, the emitted SeriesSets have strictly ascending `start_row`, the
first starts at row 0, each subsequent `start_row` equals the previous
`start_row + num_rows`, and the `num_rows` sum to the batch row count — the
runs partition the batch rows exactly. -/
theorem seriesSets_partition_C2 (batch : RecordBatchM)
    (hwf : ∀ col ∈ batch.tag_cols, col.length = batch.num_rows)
    (_hsorted : batch.rows_sorted) :
    ((seriesSets batch).map SeriesSetM.start_row).Pairwise (· < ·) ∧
    ((seriesSets batch).map SeriesSetM.start_row).head?.getD 0 = 0 ∧
    (∀ i, i + 1 < (seriesSets batch).length →
      ((seriesSets batch).map SeriesSetM.start_row).getD (i + 1) 0 =
        ((seriesSets batch).map SeriesSetM.start_row).getD i 0 +
          ((seriesSets batch).map SeriesSetM.num_rows).getD i 0) ∧
    ((seriesSets batch).map SeriesSetM.num_rows).sum = batch.num_rows := by
  have hstarts : (seriesSets batch).map SeriesSetM.start_row =
      (runsOf 0 (intersectionsOf batch)).map Prod.fst := by
    simp only [seriesSets, List.map_map]
    rfl
  have hnums : (seriesSets batch).map SeriesSetM.num_rows =
      (runsOf 0 (intersectionsOf batch)).map Prod.snd := by
    simp only [seriesSets, List.map_map]
    rfl
  have hlen : (seriesSets batch).length = (runsOf 0 (intersectionsOf batch)).length := by
    simp [seriesSets]
  rcases hcase : batch.tag_cols with _ | ⟨c, cs⟩
  · have hends : intersectionsOf batch = [batch.num_rows] := by
      unfold intersectionsOf
      rw [hcase]
      rfl
    rw [hstarts, hnums, hlen, hends]
    refine ⟨?_, ?_, ?_, ?_⟩
    · simp [runsOf]
    · simp [runsOf]
    · intro i hi
      simp [runsOf] at hi
    · simp [runsOf]
  · have hmem : ∀ e ∈ intersectionsOf batch, 1 ≤ e ∧ e ≤ batch.num_rows :=
      fun e he => intersections_mem_of_tags batch c cs hcase hwf e he
    have hpair := intersections_pairwise batch
    cases hE : intersectionsOf batch with
    | nil =>
      have hN : batch.num_rows = 0 := by
        by_contra hN0
        have hlast := intersections_last batch (by omega)
        rw [hE] at hlast
        cases hlast
      rw [hstarts, hnums, hlen, hE]
      refine ⟨?_, ?_, ?_, ?_⟩
      · simp [runsOf]
      · simp [runsOf]
      · intro i hi
        simp [runsOf] at hi
      · simp [runsOf, hN]
    | cons e1 rest =>
      have hmem1 : ∀ e ∈ e1 :: rest, 1 ≤ e ∧ e ≤ batch.num_rows := hE ▸ hmem
      have hpair1 : (e1 :: rest).Pairwise (· < ·) := hE ▸ hpair
      have hple : (e1 :: rest).Pairwise (· ≤ ·) := hpair1.imp le_of_lt
      have hzero : ∀ e ∈ e1 :: rest, 0 ≤ e := fun e _ => Nat.zero_le e
      have hone : 1 ≤ batch.num_rows :=
        le_trans (hmem1 e1 (List.mem_cons_self _ _)).1 (hmem1 e1 (List.mem_cons_self _ _)).2
      have hNin : batch.num_rows ∈ e1 :: rest := by
        have hlast := intersections_last batch hone
        rwa [hE] at hlast
      obtain ⟨L, hL, hleL⟩ := pairwise_le_getLast (e1 :: rest) hple batch.num_rows hNin
      have hLmem : L ∈ e1 :: rest := List.mem_of_mem_getLast? hL
      have hLN : L = batch.num_rows := le_antisymm (hmem1 L hLmem).2 hleL
      rw [hstarts, hnums, hlen, hE]
      refine ⟨?_, ?_, ?_, ?_⟩
      · rw [runsOf_starts]
        refine List.Pairwise.cons ?_ ?_
        · intro y hy
          have hymem : y ∈ e1 :: rest := List.Sublist.mem hy (List.dropLast_sublist _)
          have := (hmem1 y hymem).1
          omega
        · exact List.Pairwise.sublist (List.dropLast_sublist _) hpair1
      · rw [runsOf_starts]
        rfl
      · intro i hi
        exact runsOf_chain (e1 :: rest) 0 hzero hple i hi
      · rw [runsOf_sum (e1 :: rest) 0 L hple hzero hL, hLN]
        omega

/-- Concrete instantiation of `seriesSets_partition_C2` on a sorted two-tag
batch of four rows. -/
theorem seriesSets_partition_C2_witness :
    (∀ col ∈ (RecordBatchM.mk 4 [[str "a", str "a", str "b", str "b"],
        [str "x", str "y", str "y", str "z"]]).tag_cols,
      col.length = (RecordBatchM.mk 4 [[str "a", str "a", str "b", str "b"],
        [str "x", str "y", str "y", str "z"]]).num_rows) ∧
    (RecordBatchM.mk 4 [[str "a", str "a", str "b", str "b"],
        [str "x", str "y", str "y", str "z"]]).rows_sorted ∧
    ((seriesSets (RecordBatchM.mk 4 [[str "a", str "a", str "b", str "b"],
        [str "x", str "y", str "y", str "z"]])).map SeriesSetM.num_rows).sum =
      (RecordBatchM.mk 4 [[str "a", str "a", str "b", str "b"],
        [str "x", str "y", str "y", str "z"]]).num_rows := by
  have hsorted : (RecordBatchM.mk 4 [[str "a", str "a", str "b", str "b"],
      [str "x", str "y", str "y", str "z"]]).rows_sorted := by
    intro r hr
    have hr2 : r < 3 := by
      have hr3 : r + 1 < 4 := hr
      omega
    interval_cases r <;> decide
  refine ⟨by decide, hsorted, ?_⟩
  exact (seriesSets_partition_C2 _ (by decide) hsorted).2.2.2

/-- C10 (implicit): in a merge step whose leader and competitor share a key
but carry different value types, `append_below_time` moves no points yet
reports the competitor fully drained, so the step silently drops its
points: the first conjunct is the general mismatch behavior, and the
concrete two-input run loses the f64 point, breaking multiset preservation
— the same-type-per-key precondition is necessary for C1. -/
theorem append_below_time_mismatch_C10 :
    (∀ (k1 k2 : Str) (vs : List (ReadPoint Int)) (ws : List (ReadPoint F64Val)) (t : Int),
      ReadBatch.append_below_time ⟨k1, .I64 vs⟩ ⟨k2, .F64 ws⟩ t =
        (⟨k1, .I64 vs⟩, ⟨k2, .F64 ws⟩, true) ∧
      ReadBatch.append_below_time ⟨k1, .F64 ws⟩ ⟨k2, .I64 vs⟩ t =
        (⟨k1, .F64 ws⟩, ⟨k2, .I64 vs⟩, true)) ∧
    rms_run 2 [[⟨str "foo", .I64 [⟨1, 10⟩]⟩], [⟨str "foo", .F64 [⟨1, ⟨7⟩⟩]⟩]] =
      [⟨str "foo", .I64 [⟨1, 10⟩]⟩] ∧
    ¬ (batchesPoints
        (rms_run 2 [[⟨str "foo", .I64 [⟨1, 10⟩]⟩], [⟨str "foo", .F64 [⟨1, ⟨7⟩⟩]⟩]])).Perm
      (statesPoints [[⟨str "foo", .I64 [⟨1, 10⟩]⟩], [⟨str "foo", .F64 [⟨1, ⟨7⟩⟩]⟩]]) := by
  exact ⟨fun k1 k2 vs ws t => ⟨rfl, rfl⟩, rfl, by decide⟩

/-! ## Generic list lemmas for the merge proofs -/

theorem getD_append_lt {α : Type} (P Q : List α) (i : Nat) (d : α) (h : i < P.length) :
    (P ++ Q).getD i d = P.getD i d := by
  rw [List.getD_eq_getElem?_getD, List.getD_eq_getElem?_getD, List.getElem?_append_left h]

theorem getD_append_len {α : Type} (P Q : List α) (y : α) (d : α) :
    (P ++ y :: Q).getD P.length d = y := by
  rw [List.getD_eq_getElem?_getD, List.getElem?_append_right (le_refl _)]
  simp

theorem getD_set_self {α : Type} (l : List α) (i : Nat) (x d : α) (h : i < l.length) :
    (l.set i x).getD i d = x := by
  rw [List.getD_eq_getElem?_getD, List.getElem?_set_self h]
  rfl

theorem getD_set_ne {α : Type} (l : List α) (i j : Nat) (x d : α) (h : i ≠ j) :
    (l.set i x).getD j d = l.getD j d := by
  rw [List.getD_eq_getElem?_getD, List.getD_eq_getElem?_getD, List.getElem?_set_ne h]

theorem mem_flatten_getD {α : Type} :
    ∀ (states : List (List α)) (x : α),
      x ∈ states.flatten ↔ ∃ i, i < states.length ∧ x ∈ states.getD i []
  | [], x => by simp
  | s :: rest, x => by
    simp only [List.flatten_cons, List.mem_append, mem_flatten_getD rest x]
    constructor
    · rintro (h | ⟨i, hi, hx⟩)
      · exact ⟨0, by simp, by simpa using h⟩
      · exact ⟨i + 1, by simpa using Nat.succ_lt_succ hi,
          by simpa [List.getD_cons_succ] using hx⟩
    · rintro ⟨i, hi, hx⟩
      cases i with
      | zero => exact Or.inl (by simpa using hx)
      | succ j =>
        exact Or.inr ⟨j, by simpa using hi, by simpa [List.getD_cons_succ] using hx⟩

theorem elemCount_cons {α : Type} (s : List α) (rest : List (List α)) :
    elemCount (s :: rest) = s.length + elemCount rest := by
  simp [elemCount]

theorem elemCount_set {α : Type} :
    ∀ (l : List (List α)) (i : Nat) (x : List α), i < l.length →
      elemCount (l.set i x) + (l.getD i []).length = elemCount l + x.length
  | [], i, x, h => by simp at h
  | s :: rest, 0, x, _ => by
    simp only [List.set_cons_zero, elemCount_cons, List.getD_cons_zero]
    omega
  | s :: rest, i + 1, x, h => by
    have hrec := elemCount_set rest i x (by simpa using h)
    simp only [List.set_cons_succ, elemCount_cons, List.getD_cons_succ]
    omega

theorem elemCount_zero_flatten {α : Type} :
    ∀ (l : List (List α)), elemCount l = 0 → l.flatten = []
  | [], _ => rfl
  | s :: rest, h => by
    rw [elemCount_cons] at h
    have hs : s = [] := List.length_eq_zero.mp (by omega)
    have hr := elemCount_zero_flatten rest (by omega)
    simp [hs, hr]

theorem head?_sorted_le {α : Type} [Preorder α] (s : List α) (v : α)
    (hh : s.head? = some v) (hs : s.Pairwise (· < ·)) :
    (∀ x ∈ s, v ≤ x) ∧ (∀ x ∈ s.tail, v < x) := by
  cases s with
  | nil => cases hh
  | cons a t =>
    obtain rfl : a = v := Option.some.inj hh
    have hta := (List.pairwise_cons.mp hs).1
    refine ⟨?_, by simpa using hta⟩
    intro x hx
    rcases List.mem_cons.mp hx with rfl | hx
    · exact le_refl x
    · exact le_of_lt (hta x hx)

theorem getD_mem {α : Type} :
    ∀ (l : List α) (i : Nat) (d : α), i < l.length → l.getD i d ∈ l
  | a :: l, 0, d, _ => by simp
  | a :: l, i + 1, d, h => by
    rw [List.getD_cons_succ]
    exact List.mem_cons_of_mem a (getD_mem l i d (by simpa using h))

theorem sms_scan_cons_nil (rest : List (List Str)) (pos : Nat) (acc : SmsAcc) :
    sms_scan ([] :: rest) pos acc =
      ((sms_scan rest (pos + 1) acc).1, [] :: (sms_scan rest (pos + 1) acc).2) := by
  cases acc with
  | mk nv np => cases nv <;> rfl

theorem sms_scan_cons_adopt (v : Str) (t : List Str) (rest : List (List Str))
    (pos np : Nat) :
    sms_scan ((v :: t) :: rest) pos ⟨none, np⟩ =
      ((sms_scan rest (pos + 1) ⟨some v, pos⟩).1,
        (v :: t) :: (sms_scan rest (pos + 1) ⟨some v, pos⟩).2) := rfl

theorem sms_scan_cons_switch (v : Str) (t : List Str) (rest : List (List Str))
    (pos np : Nat) (nv : Str) (h3 : v < nv) :
    sms_scan ((v :: t) :: rest) pos ⟨some nv, np⟩ =
      ((sms_scan rest (pos + 1) ⟨some v, pos⟩).1,
        (v :: t) :: (sms_scan rest (pos + 1) ⟨some v, pos⟩).2) := by
  have hred : sms_scan ((v :: t) :: rest) pos ⟨some nv, np⟩ =
      if nv > v then
        ((sms_scan rest (pos + 1) ⟨some v, pos⟩).1,
          (v :: t) :: (sms_scan rest (pos + 1) ⟨some v, pos⟩).2)
      else if nv = v then
        ((sms_scan rest (pos + 1) ⟨some nv, np⟩).1,
          t :: (sms_scan rest (pos + 1) ⟨some nv, np⟩).2)
      else
        ((sms_scan rest (pos + 1) ⟨some nv, np⟩).1,
          (v :: t) :: (sms_scan rest (pos + 1) ⟨some nv, np⟩).2) := rfl
  rw [hred, if_pos h3]

theorem sms_scan_cons_dup (v : Str) (t : List Str) (rest : List (List Str))
    (pos np : Nat) (nv : Str) (h3 : ¬ v < nv) (h4 : nv = v) :
    sms_scan ((v :: t) :: rest) pos ⟨some nv, np⟩ =
      ((sms_scan rest (pos + 1) ⟨some nv, np⟩).1,
        t :: (sms_scan rest (pos + 1) ⟨some nv, np⟩).2) := by
  have hred : sms_scan ((v :: t) :: rest) pos ⟨some nv, np⟩ =
      if nv > v then
        ((sms_scan rest (pos + 1) ⟨some v, pos⟩).1,
          (v :: t) :: (sms_scan rest (pos + 1) ⟨some v, pos⟩).2)
      else if nv = v then
        ((sms_scan rest (pos + 1) ⟨some nv, np⟩).1,
          t :: (sms_scan rest (pos + 1) ⟨some nv, np⟩).2)
      else
        ((sms_scan rest (pos + 1) ⟨some nv, np⟩).1,
          (v :: t) :: (sms_scan rest (pos + 1) ⟨some nv, np⟩).2) := rfl
  rw [hred, if_neg h3, if_pos h4]

theorem sms_scan_cons_keep (v : Str) (t : List Str) (rest : List (List Str))
    (pos np : Nat) (nv : Str) (h3 : ¬ v < nv) (h4 : nv ≠ v) :
    sms_scan ((v :: t) :: rest) pos ⟨some nv, np⟩ =
      ((sms_scan rest (pos + 1) ⟨some nv, np⟩).1,
        (v :: t) :: (sms_scan rest (pos + 1) ⟨some nv, np⟩).2) := by
  have hred : sms_scan ((v :: t) :: rest) pos ⟨some nv, np⟩ =
      if nv > v then
        ((sms_scan rest (pos + 1) ⟨some v, pos⟩).1,
          (v :: t) :: (sms_scan rest (pos + 1) ⟨some v, pos⟩).2)
      else if nv = v then
        ((sms_scan rest (pos + 1) ⟨some nv, np⟩).1,
          t :: (sms_scan rest (pos + 1) ⟨some nv, np⟩).2)
      else
        ((sms_scan rest (pos + 1) ⟨some nv, np⟩).1,
          (v :: t) :: (sms_scan rest (pos + 1) ⟨some nv, np⟩).2) := rfl
  rw [hred, if_neg h3, if_neg h4]

theorem smsAccInv_extend_none (P : List (List Str)) (acc : SmsAcc)
    (h : acc.next_val = none) (hinv : smsAccInv P acc) : smsAccInv (P ++ [[]]) acc := by
  unfold smsAccInv at hinv ⊢
  rw [h] at hinv ⊢
  intro t ht
  rcases List.mem_append.mp ht with ht | ht
  · exact hinv t ht
  · simpa using ht

theorem smsAccInv_extend_gt (P : List (List Str)) (acc : SmsAcc) (v : Str) (s : List Str)
    (hv : acc.next_val = some v) (hinv : smsAccInv P acc) (hall : ∀ x ∈ s, v < x) :
    smsAccInv (P ++ [s]) acc := by
  unfold smsAccInv at hinv ⊢
  rw [hv] at hinv ⊢
  obtain ⟨hpos, hhead, hothers, hholder⟩ := hinv
  refine ⟨by simp only [List.length_append, List.length_cons, List.length_nil]; omega,
    ?_, ?_, ?_⟩
  · rw [getD_append_lt _ _ _ _ hpos]
    exact hhead
  · intro i hi hne x hx
    rcases Nat.lt_or_ge i P.length with hlt | hge
    · rw [getD_append_lt _ _ _ _ hlt] at hx
      exact hothers i hlt hne x hx
    · have heq : i = P.length := by
        simp only [List.length_append, List.length_cons, List.length_nil] at hi
        omega
      subst heq
      rw [getD_append_len] at hx
      exact hall x hx
  · rw [getD_append_lt _ _ _ _ hpos]
    exact hholder

theorem smsAccInv_adopt (P : List (List Str)) (s : List Str) (v : Str)
    (hh : s.head? = some v) (hs : s.Pairwise (· < ·))
    (hP : ∀ i, i < P.length → ∀ x ∈ P.getD i [], v < x) :
    smsAccInv (P ++ [s]) ⟨some v, P.length⟩ := by
  unfold smsAccInv
  refine ⟨by simp, ?_, ?_, ?_⟩
  · rw [getD_append_len]
    exact hh
  · intro i hi hne x hx
    have hlt : i < P.length := by
      simp only [List.length_append, List.length_cons, List.length_nil] at hi
      exact lt_of_le_of_ne (by omega) hne
    rw [getD_append_lt _ _ _ _ hlt] at hx
    exact hP i hlt x hx
  · rw [getD_append_len]
    exact (head?_sorted_le s v hh hs).1

theorem mem_flatten_append_singleton {α : Type} (P : List (List α)) (s : List α) (x : α) :
    x ∈ (P ++ [s]).flatten ↔ x ∈ P.flatten ∨ x ∈ s := by
  simp [List.flatten_append]

theorem sms_scan_spec :
    ∀ (ss P : List (List Str)) (acc : SmsAcc),
      (∀ s ∈ ss, s.Pairwise (· < ·)) →
      smsAccInv P acc →
      smsAccInv (P ++ (sms_scan ss P.length acc).2) (sms_scan ss P.length acc).1 ∧
      (∀ s ∈ (sms_scan ss P.length acc).2, s.Pairwise (· < ·)) ∧
      (∀ x ∈ (sms_scan ss P.length acc).2.flatten, x ∈ ss.flatten) ∧
      (∀ x ∈ ss.flatten, x ∈ P.flatten ∨ x ∈ (sms_scan ss P.length acc).2.flatten) ∧
      elemCount (sms_scan ss P.length acc).2 ≤ elemCount ss
  | [], P, acc, _, hinv => by
    simp only [sms_scan]
    exact ⟨by simpa using hinv, by simp, by simp, by simp, le_refl _⟩
  | s :: rest, P, acc, hsorted, hinv => by
    have hs := hsorted s (List.mem_cons_self _ _)
    have hrest : ∀ t ∈ rest, t.Pairwise (· < ·) :=
      fun t ht => hsorted t (List.mem_cons_of_mem _ ht)
    obtain ⟨anv, anp⟩ := acc
    cases s with
    | nil =>
      rw [sms_scan_cons_nil]
      dsimp only
      have hinv' : smsAccInv (P ++ [[]]) ⟨anv, anp⟩ := by
        cases anv with
        | none => exact smsAccInv_extend_none P _ rfl hinv
        | some nv => exact smsAccInv_extend_gt P _ nv [] rfl hinv (by simp)
      have ih := sms_scan_spec rest (P ++ [[]]) ⟨anv, anp⟩ hrest hinv'
      have hplen : (P ++ [[]]).length = P.length + 1 := by simp
      rw [hplen] at ih
      obtain ⟨ih1, ih2, ih3, ih4, ih5⟩ := ih
      refine ⟨?_, ?_, ?_, ?_, ?_⟩
      · rw [List.append_cons]
        exact ih1
      · intro t ht
        rcases List.mem_cons.mp ht with rfl | ht
        · exact List.Pairwise.nil
        · exact ih2 t ht
      · intro x hx
        simp only [List.flatten_cons, List.nil_append] at hx
        exact List.mem_append_right _ (ih3 x hx)
      · intro x hx
        simp only [List.flatten_cons, List.nil_append] at hx
        rcases ih4 x hx with h | h
        · left
          simpa using h
        · right
          simpa using h
      · simp only [elemCount_cons, List.length_nil]
        omega
    | cons v t =>
      cases anv with
      | none =>
        rw [sms_scan_cons_adopt]
        dsimp only
        have hP : ∀ i, i < P.length → ∀ x ∈ P.getD i [], v < x := by
          intro i hi x hx
          have := hinv (P.getD i []) (getD_mem P i [] hi)
          rw [this] at hx
          cases hx
        have hinv' : smsAccInv (P ++ [v :: t]) ⟨some v, P.length⟩ :=
          smsAccInv_adopt P (v :: t) v rfl hs hP
        have ih := sms_scan_spec rest (P ++ [v :: t]) ⟨some v, P.length⟩ hrest hinv'
        have hplen : (P ++ [v :: t]).length = P.length + 1 := by simp
        rw [hplen] at ih
        obtain ⟨ih1, ih2, ih3, ih4, ih5⟩ := ih
        refine ⟨?_, ?_, ?_, ?_, ?_⟩
        · rw [List.append_cons]
          exact ih1
        · intro u hu
          rcases List.mem_cons.mp hu with rfl | hu
          · exact hs
          · exact ih2 u hu
        · intro x hx
          simp only [List.flatten_cons, List.mem_append] at hx ⊢
          rcases hx with hx | hx
          · exact Or.inl hx
          · exact Or.inr (ih3 x hx)
        · intro x hx
          simp only [List.flatten_cons, List.mem_append] at hx ⊢
          rcases hx with hx | hx
          · exact Or.inr (Or.inl hx)
          · rcases ih4 x hx with h | h
            · rcases (mem_flatten_append_singleton _ _ _).mp h with h | h
              · exact Or.inl h
              · exact Or.inr (Or.inl h)
            · exact Or.inr (Or.inr h)
        · simp only [elemCount_cons]
          omega
      | some nv =>
        have hinvS : anp < P.length ∧ (P.getD anp []).head? = some nv ∧
            (∀ i, i < P.length → i ≠ anp → ∀ x ∈ P.getD i [], nv < x) ∧
            (∀ x ∈ P.getD anp [], nv ≤ x) := hinv
        rcases lt_trichotomy v nv with h3 | h3 | h3
        · -- switch to the strictly smaller v
          rw [sms_scan_cons_switch v t rest P.length anp nv h3]
          dsimp only
          have hP : ∀ i, i < P.length → ∀ x ∈ P.getD i [], v < x := by
            intro i hi x hx
            by_cases hne : i = anp
            · subst hne
              exact lt_of_lt_of_le h3 (hinvS.2.2.2 x hx)
            · exact lt_trans h3 (hinvS.2.2.1 i hi hne x hx)
          have hinv' : smsAccInv (P ++ [v :: t]) ⟨some v, P.length⟩ :=
            smsAccInv_adopt P (v :: t) v rfl hs hP
          have ih := sms_scan_spec rest (P ++ [v :: t]) ⟨some v, P.length⟩ hrest hinv'
          have hplen : (P ++ [v :: t]).length = P.length + 1 := by simp
          rw [hplen] at ih
          obtain ⟨ih1, ih2, ih3, ih4, ih5⟩ := ih
          refine ⟨?_, ?_, ?_, ?_, ?_⟩
          · rw [List.append_cons]
            exact ih1
          · intro u hu
            rcases List.mem_cons.mp hu with rfl | hu
            · exact hs
            · exact ih2 u hu
          · intro x hx
            simp only [List.flatten_cons, List.mem_append] at hx ⊢
            rcases hx with hx | hx
            · exact Or.inl hx
            · exact Or.inr (ih3 x hx)
          · intro x hx
            simp only [List.flatten_cons, List.mem_append] at hx ⊢
            rcases hx with hx | hx
            · exact Or.inr (Or.inl hx)
            · rcases ih4 x hx with h | h
              · rcases (mem_flatten_append_singleton _ _ _).mp h with h | h
                · exact Or.inl h
                · exact Or.inr (Or.inl h)
              · exact Or.inr (Or.inr h)
          · simp only [elemCount_cons]
            omega
        · -- duplicate of the current least: the head is dropped here
          rw [sms_scan_cons_dup v t rest P.length anp nv (by rw [h3]; exact lt_irrefl nv) h3.symm]
          dsimp only
          have htail : ∀ x ∈ t, nv < x := by
            have := (head?_sorted_le (v :: t) v rfl hs).2
            intro x hx
            rw [← h3]
            exact this x (by simpa using hx)
          have hinv' : smsAccInv (P ++ [t]) ⟨some nv, anp⟩ :=
            smsAccInv_extend_gt P _ nv t rfl hinv htail
          have ih := sms_scan_spec rest (P ++ [t]) ⟨some nv, anp⟩ hrest hinv'
          have hplen : (P ++ [t]).length = P.length + 1 := by simp
          rw [hplen] at ih
          obtain ⟨ih1, ih2, ih3, ih4, ih5⟩ := ih
          refine ⟨?_, ?_, ?_, ?_, ?_⟩
          · rw [List.append_cons]
            exact ih1
          · intro u hu
            rcases List.mem_cons.mp hu with rfl | hu
            · exact (List.pairwise_cons.mp hs).2
            · exact ih2 u hu
          · intro x hx
            simp only [List.flatten_cons, List.mem_append] at hx ⊢
            rcases hx with hx | hx
            · exact Or.inl (List.mem_cons_of_mem v hx)
            · exact Or.inr (ih3 x hx)
          · intro x hx
            simp only [List.flatten_cons, List.mem_append] at hx ⊢
            rcases hx with hx | hx
            · rcases List.mem_cons.mp hx with rfl | hx
              · -- the dropped duplicate: its copy sits at the holder in P
                left
                have hmem : x ∈ P.getD anp [] := by
                  have hhead := hinvS.2.1
                  rw [← h3] at hhead
                  cases hgd : P.getD anp [] with
                  | nil => rw [hgd] at hhead; cases hhead
                  | cons a u =>
                    rw [hgd] at hhead
                    obtain rfl : a = x := Option.some.inj hhead
                    exact List.mem_cons_self _ _
                exact (mem_flatten_getD P x).mpr ⟨anp, hinvS.1, hmem⟩
              · exact Or.inr (Or.inl hx)
            · rcases ih4 x hx with h | h
              · rcases (mem_flatten_append_singleton _ _ _).mp h with h | h
                · exact Or.inl h
                · exact Or.inr (Or.inl h)
              · exact Or.inr (Or.inr h)
          · simp only [elemCount_cons, List.length_cons]
            omega
        · -- the current least stays
          rw [sms_scan_cons_keep v t rest P.length anp nv (lt_asymm h3) (ne_of_lt h3)]
          dsimp only
          have hall : ∀ x ∈ v :: t, nv < x := by
            intro x hx
            exact lt_of_lt_of_le h3 ((head?_sorted_le (v :: t) v rfl hs).1 x hx)
          have hinv' : smsAccInv (P ++ [v :: t]) ⟨some nv, anp⟩ :=
            smsAccInv_extend_gt P _ nv (v :: t) rfl hinv hall
          have ih := sms_scan_spec rest (P ++ [v :: t]) ⟨some nv, anp⟩ hrest hinv'
          have hplen : (P ++ [v :: t]).length = P.length + 1 := by simp
          rw [hplen] at ih
          obtain ⟨ih1, ih2, ih3, ih4, ih5⟩ := ih
          refine ⟨?_, ?_, ?_, ?_, ?_⟩
          · rw [List.append_cons]
            exact ih1
          · intro u hu
            rcases List.mem_cons.mp hu with rfl | hu
            · exact hs
            · exact ih2 u hu
          · intro x hx
            simp only [List.flatten_cons, List.mem_append] at hx ⊢
            rcases hx with hx | hx
            · exact Or.inl hx
            · exact Or.inr (ih3 x hx)
          · intro x hx
            simp only [List.flatten_cons, List.mem_append] at hx ⊢
            rcases hx with hx | hx
            · exact Or.inr (Or.inl hx)
            · rcases ih4 x hx with h | h
              · rcases (mem_flatten_append_singleton _ _ _).mp h with h | h
                · exact Or.inl h
                · exact Or.inr (Or.inl h)
              · exact Or.inr (Or.inr h)
          · simp only [elemCount_cons]
            omega

theorem sms_step_spec (states : List (List Str))
    (hs : ∀ s ∈ states, s.Pairwise (· < ·)) :
    (sms_step states = none → ∀ s ∈ states, s = []) ∧
    (∀ v states1, sms_step states = some (v, states1) →
      (∀ s ∈ states1, s.Pairwise (· < ·)) ∧
      (∀ x ∈ states1.flatten, v < x) ∧
      (∀ x, x ∈ states.flatten ↔ (x = v ∨ x ∈ states1.flatten)) ∧
      elemCount states1 < elemCount states) := by
  have hinv0 : smsAccInv [] ⟨none, 0⟩ := by
    intro s hsm
    cases hsm
  have hspec := sms_scan_spec states [] ⟨none, 0⟩ hs hinv0
  rcases hscan : sms_scan states 0 ⟨none, 0⟩ with ⟨⟨nv, npos⟩, states2⟩
  rw [show ([] : List (List Str)).length = 0 from rfl, hscan] at hspec
  simp only [List.nil_append, List.flatten_nil] at hspec
  obtain ⟨hinv, hsorted2, hsub, hsup, hcount⟩ := hspec
  constructor
  · intro hnone s hsmem
    unfold sms_step at hnone
    rw [hscan] at hnone
    cases nv with
    | some v => simp at hnone
    | none =>
      by_contra hne
      obtain ⟨x, hx⟩ := List.exists_mem_of_ne_nil s hne
      have hxf : x ∈ states.flatten := List.mem_flatten.mpr ⟨s, hsmem, hx⟩
      rcases hsup x hxf with h | h
      · cases h
      · obtain ⟨l, hl, hxl⟩ := List.mem_flatten.mp h
        have : l = [] := hinv l hl
        rw [this] at hxl
        cases hxl
  · intro v states1 hsome
    unfold sms_step at hsome
    rw [hscan] at hsome
    cases nv with
    | none => simp at hsome
    | some w =>
      obtain ⟨h1, h2⟩ := Prod.mk.inj (Option.some.inj hsome)
      subst h1
      subst h2
      have hinv' : npos < states2.length ∧ (states2.getD npos []).head? = some w ∧
          (∀ i, i < states2.length → i ≠ npos → ∀ x ∈ states2.getD i [], w < x) ∧
          (∀ x ∈ states2.getD npos [], w ≤ x) := hinv
      obtain ⟨hpos, hhead, hothers, hholder⟩ := hinv'
      obtain ⟨tl, hheq⟩ : ∃ tl, states2.getD npos [] = w :: tl := by
        cases hgd : states2.getD npos [] with
        | nil => rw [hgd] at hhead; cases hhead
        | cons a u =>
          rw [hgd] at hhead
          exact ⟨u, by rw [← Option.some.inj hhead]⟩
      have hholder_sorted : (states2.getD npos []).Pairwise (· < ·) :=
        hsorted2 _ (getD_mem states2 npos [] hpos)
      have htl_gt : ∀ x ∈ tl, w < x := by
        have := (head?_sorted_le _ w hhead hholder_sorted).2
        intro x hx
        apply this
        rw [hheq]
        simpa using hx
      have htail_eq : (states2.getD npos []).tail = tl := by rw [hheq, List.tail_cons]
      refine ⟨?_, ?_, ?_, ?_⟩
      · intro s hsm
        rcases List.mem_or_eq_of_mem_set hsm with hsm | rfl
        · exact hsorted2 s hsm
        · rw [htail_eq]
          exact (List.pairwise_cons.mp (hheq ▸ hholder_sorted)).2
      · intro x hx
        obtain ⟨i, hi, hxi⟩ := (mem_flatten_getD _ x).mp hx
        rw [List.length_set] at hi
        by_cases hip : i = npos
        · subst hip
          rw [getD_set_self _ _ _ _ hpos, htail_eq] at hxi
          exact htl_gt x hxi
        · rw [getD_set_ne _ _ _ _ _ (Ne.symm hip)] at hxi
          exact hothers i hi hip x hxi
      · intro x
        constructor
        · intro hx
          rcases hsup x hx with h | h
          · cases h
          obtain ⟨i, hi, hxi⟩ := (mem_flatten_getD _ x).mp h
          by_cases hip : i = npos
          · subst hip
            rw [hheq] at hxi
            rcases List.mem_cons.mp hxi with rfl | hxi
            · exact Or.inl rfl
            · refine Or.inr ((mem_flatten_getD _ x).mpr ⟨i, ?_, ?_⟩)
              · rw [List.length_set]
                exact hpos
              · rw [getD_set_self _ _ _ _ hpos, htail_eq]
                exact hxi
          · refine Or.inr ((mem_flatten_getD _ x).mpr ⟨i, ?_, ?_⟩)
            · rw [List.length_set]
              exact hi
            · rw [getD_set_ne _ _ _ _ _ (Ne.symm hip)]
              exact hxi
        · intro hx
          rcases hx with rfl | hx
          · apply hsub
            exact (mem_flatten_getD _ x).mpr ⟨npos, hpos, by rw [hheq]; exact List.mem_cons_self _ _⟩
          · apply hsub
            obtain ⟨i, hi, hxi⟩ := (mem_flatten_getD _ x).mp hx
            rw [List.length_set] at hi
            by_cases hip : i = npos
            · subst hip
              rw [getD_set_self _ _ _ _ hpos, htail_eq] at hxi
              exact (mem_flatten_getD _ x).mpr
                ⟨i, hpos, by rw [hheq]; exact List.mem_cons_of_mem w hxi⟩
            · rw [getD_set_ne _ _ _ _ _ (Ne.symm hip)] at hxi
              exact (mem_flatten_getD _ x).mpr ⟨i, hi, hxi⟩
      · have hset := elemCount_set states2 npos (states2.getD npos []).tail hpos
        rw [htail_eq, hheq] at hset
        simp only [List.length_cons] at hset
        rw [htail_eq]
        omega

theorem sms_run_spec (fuel : Nat) :
    ∀ (states : List (List Str)),
      (∀ s ∈ states, s.Pairwise (· < ·)) → elemCount states ≤ fuel →
      (sms_run fuel states).Pairwise (· < ·) ∧
      (∀ x, x ∈ sms_run fuel states ↔ x ∈ states.flatten) := by
  induction fuel with
  | zero =>
    intro states hs hf
    have hflat : states.flatten = [] := elemCount_zero_flatten states (Nat.le_zero.mp hf)
    refine ⟨List.Pairwise.nil, ?_⟩
    intro x
    rw [hflat]
    constructor
    · intro hx
      cases hx
    · intro hx
      cases hx
  | succ n ih =>
    intro states hs hf
    have hstep := sms_step_spec states hs
    cases hsv : sms_step states with
    | none =>
      have hall := hstep.1 hsv
      have hflat : states.flatten = [] := by
        cases hfe : states.flatten with
        | nil => rfl
        | cons y t =>
          obtain ⟨l, hl, hyl⟩ := List.mem_flatten.mp (hfe ▸ List.mem_cons_self y t)
          rw [hall l hl] at hyl
          cases hyl
      constructor
      · show (sms_run (n + 1) states).Pairwise (· < ·)
        unfold sms_run
        rw [hsv]
        exact List.Pairwise.nil
      · intro x
        show x ∈ sms_run (n + 1) states ↔ _
        unfold sms_run
        rw [hsv, hflat]
    | some p =>
      obtain ⟨v, states1⟩ := p
      obtain ⟨hs1, hlt, hiff, hcnt⟩ := hstep.2 v states1 hsv
      have hf1 : elemCount states1 ≤ n := by omega
      obtain ⟨ihp, ihm⟩ := ih states1 hs1 hf1
      constructor
      · show (sms_run (n + 1) states).Pairwise (· < ·)
        unfold sms_run
        rw [hsv]
        exact List.pairwise_cons.mpr ⟨fun x hx => hlt x ((ihm x).mp hx), ihp⟩
      · intro x
        show x ∈ sms_run (n + 1) states ↔ _
        unfold sms_run
        rw [hsv]
        rw [List.mem_cons, ihm x]
        exact (hiff x).symm

theorem sorted_eq_of_mem_iff {α : Type} [LinearOrder α] :
    ∀ (l1 l2 : List α), l1.Pairwise (· < ·) → l2.Pairwise (· < ·) →
      (∀ x, x ∈ l1 ↔ x ∈ l2) → l1 = l2
  | [], [], _, _, _ => rfl
  | [], b :: u, _, _, h => absurd ((h b).mpr (List.mem_cons_self b u)) (by simp)
  | a :: t, [], _, _, h => absurd ((h a).mp (List.mem_cons_self a t)) (by simp)
  | a :: t, b :: u, h1, h2, h => by
    obtain ⟨ha1, ht1⟩ := List.pairwise_cons.mp h1
    obtain ⟨hb2, hu2⟩ := List.pairwise_cons.mp h2
    have hab : a = b := by
      rcases List.mem_cons.mp ((h a).mp (List.mem_cons_self a t)) with hab | hau
      · exact hab
      · rcases List.mem_cons.mp ((h b).mpr (List.mem_cons_self b u)) with hba | hbt
        · exact hba.symm
        · exact absurd (ha1 b hbt) (lt_asymm (hb2 a hau))
    subst hab
    have htu : ∀ x, x ∈ t ↔ x ∈ u := by
      intro x
      constructor
      · intro hx
        rcases List.mem_cons.mp ((h x).mp (List.mem_cons_of_mem a hx)) with rfl | hx2
        · exact absurd (ha1 x hx) (lt_irrefl x)
        · exact hx2
      · intro hx
        rcases List.mem_cons.mp ((h x).mpr (List.mem_cons_of_mem a hx)) with rfl | hx2
        · exact absurd (hb2 x hx) (lt_irrefl x)
        · exact hx2
    rw [sorted_eq_of_mem_iff t u ht1 hu2 htu]

/-- C5: For StringMergeStream over any finite list of input streams, each of
which emits strings in strictly ascending order (hence with no duplicates
within a single input), the merged output `sms_run` (the totalized
`StringMergeStream::poll_next` loop, partitioned_store.rs lines 79-137) is
strictly ascending, its members are exactly the union of all input values
(each appearing exactly once, duplicates across inputs collapsed), and it is
the unique strictly ascending list with those members, i.e. the sorted
set-union of the inputs. -/
theorem stringMergeStream_C5 (streams : List (List Str))
    (hs : ∀ s ∈ streams, s.Pairwise (· < ·))
    (fuel : Nat) (hf : elemCount streams ≤ fuel) :
    (sms_run fuel streams).Pairwise (· < ·) ∧
    (∀ x, x ∈ sms_run fuel streams ↔ x ∈ streams.flatten) ∧
    (∀ u : List Str, u.Pairwise (· < ·) → (∀ x, x ∈ u ↔ x ∈ streams.flatten) →
      sms_run fuel streams = u) := by
  obtain ⟨hp, hm⟩ := sms_run_spec fuel streams hs hf
  refine ⟨hp, hm, ?_⟩
  intro u hu hum
  exact sorted_eq_of_mem_iff _ _ hp hu (fun x => (hm x).trans (hum x).symm)

theorem stringMergeStream_C5_witness :
    (∀ s ∈ [[str "a", str "c"], [str "b", str "c", str "d"],
        [str "c", str "e", str "f"], ([] : List Str)], s.Pairwise (· < ·)) ∧
    elemCount [[str "a", str "c"], [str "b", str "c", str "d"],
        [str "c", str "e", str "f"], ([] : List Str)] ≤ 8 ∧
    ((sms_run 8 [[str "a", str "c"], [str "b", str "c", str "d"],
        [str "c", str "e", str "f"], ([] : List Str)]).Pairwise (· < ·) ∧
      (∀ x, x ∈ sms_run 8 [[str "a", str "c"], [str "b", str "c", str "d"],
          [str "c", str "e", str "f"], ([] : List Str)] ↔
        x ∈ ([[str "a", str "c"], [str "b", str "c", str "d"],
          [str "c", str "e", str "f"], ([] : List Str)]).flatten) ∧
      (∀ u : List Str, u.Pairwise (· < ·) →
        (∀ x, x ∈ u ↔ x ∈ ([[str "a", str "c"], [str "b", str "c", str "d"],
          [str "c", str "e", str "f"], ([] : List Str)]).flatten) →
        sms_run 8 [[str "a", str "c"], [str "b", str "c", str "d"],
          [str "c", str "e", str "f"], ([] : List Str)] = u)) ∧
    sms_run 8 [[str "a", str "c"], [str "b", str "c", str "d"],
        [str "c", str "e", str "f"], ([] : List Str)] =
      [str "a", str "b", str "c", str "d", str "e", str "f"] :=
  ⟨by decide, by decide,
    stringMergeStream_C5 _ (by decide) 8 (by decide), by decide⟩

theorem kt_le_refl (a : Str × Int) : kt_le a a := Or.inr ⟨rfl, le_refl _⟩

theorem kt_le_trans {a b c : Str × Int} (h1 : kt_le a b) (h2 : kt_le b c) : kt_le a c := by
  rcases h1 with h1 | ⟨he1, ht1⟩
  · rcases h2 with h2 | ⟨he2, ht2⟩
    · exact Or.inl (lt_trans h1 h2)
    · exact Or.inl (he2 ▸ h1)
  · rcases h2 with h2 | ⟨he2, ht2⟩
    · exact Or.inl (he1 ▸ h2)
    · exact Or.inr ⟨he1.trans he2, le_trans ht1 ht2⟩

theorem kt_le_fst {a b : Str × Int} (h : kt_le a b) : a.1 ≤ b.1 := by
  rcases h with h | ⟨he, _⟩
  · exact le_of_lt h
  · exact le_of_eq he

theorem kt_le_same_key (k : Str) (t1 t2 : Int) : kt_le (k, t1) (k, t2) ↔ t1 ≤ t2 := by
  constructor
  · rintro (h | ⟨_, h⟩)
    · exact absurd h (lt_irrefl k)
    · exact h
  · intro h
    exact Or.inr ⟨rfl, h⟩

theorem getLast?_mem_self {α : Type} : ∀ (l : List α) (a : α), l.getLast? = some a → a ∈ l
  | [], _, h => by cases h
  | [x], a, h => by
    simp only [List.getLast?_singleton, Option.some.injEq] at h
    simp [h]
  | x :: z :: t, a, h => by
    rw [List.getLast?_cons_cons] at h
    exact List.mem_cons_of_mem x (getLast?_mem_self (z :: t) a h)

theorem pairwise_rel_getLast {α : Type} {R : α → α → Prop} :
    ∀ (l : List α), l.Pairwise R → ∀ y ∈ l, ∃ L, l.getLast? = some L ∧ (y = L ∨ R y L)
  | [], _, y, hy => absurd hy (by simp)
  | [x], _, y, hy => ⟨x, rfl, Or.inl (by simpa using hy)⟩
  | x :: z :: t, h, y, hy => by
    obtain ⟨hx, h2⟩ := List.pairwise_cons.mp h
    rcases List.mem_cons.mp hy with rfl | hy2
    · obtain ⟨L, hL, _⟩ := pairwise_rel_getLast (z :: t) h2 z (List.mem_cons_self z t)
      refine ⟨L, ?_, Or.inr (hx L (getLast?_mem_self (z :: t) L hL))⟩
      rw [List.getLast?_cons_cons]
      exact hL
    · obtain ⟨L, hL, hyL⟩ := pairwise_rel_getLast (z :: t) h2 y hy2
      refine ⟨L, ?_, hyL⟩
      rw [List.getLast?_cons_cons]
      exact hL

theorem mem_of_head? {α : Type} {l : List α} {a : α} (h : l.head? = some a) : a ∈ l := by
  cases l with
  | nil => cases h
  | cons x t =>
    rw [List.head?_cons] at h
    exact Option.some.inj h ▸ List.mem_cons_self x t

theorem points_i64 (k : Str) (vs : List (ReadPoint Int)) :
    (ReadBatch.mk k (.I64 vs)).points = vs.map fun p => (k, p.time, PValue.i p.value) := rfl

theorem points_f64 (k : Str) (vs : List (ReadPoint F64Val)) :
    (ReadBatch.mk k (.F64 vs)).points = vs.map fun p => (k, p.time, PValue.f p.value) := rfl

theorem pairs_i64 (k : Str) (vs : List (ReadPoint Int)) :
    (ReadBatch.mk k (.I64 vs)).pairs = vs.map fun p => (k, p.time) := by
  rw [ReadBatch.pairs, points_i64, List.map_map]
  rfl

theorem pairs_f64 (k : Str) (vs : List (ReadPoint F64Val)) :
    (ReadBatch.mk k (.F64 vs)).pairs = vs.map fun p => (k, p.time) := by
  rw [ReadBatch.pairs, points_f64, List.map_map]
  rfl

theorem points_key (b : ReadBatch) : ∀ q ∈ b.points, q.1 = b.key := by
  intro q hq
  cases b with
  | mk k vals =>
    cases vals with
    | I64 vs =>
      rw [points_i64] at hq
      obtain ⟨p, _, rfl⟩ := List.mem_map.mp hq
      rfl
    | F64 vs =>
      rw [points_f64] at hq
      obtain ⟨p, _, rfl⟩ := List.mem_map.mp hq
      rfl

theorem pairs_eq_points_map (b : ReadBatch) :
    b.pairs = b.points.map fun q => (q.1, q.2.1) := rfl

theorem batchesPoints_cons (b : ReadBatch) (t : List ReadBatch) :
    batchesPoints (b :: t) = b.points ++ batchesPoints t := by
  simp [batchesPoints]

theorem batchesPoints_nil : batchesPoints [] = [] := rfl

theorem statesPoints_cons (s : List ReadBatch) (t : List (List ReadBatch)) :
    statesPoints (s :: t) = batchesPoints s ++ statesPoints t := by
  simp [statesPoints]

theorem statesPoints_nil : statesPoints [] = [] := rfl

theorem pairs_flatten_eq : ∀ (l : List ReadBatch),
    (l.map ReadBatch.pairs).flatten = (batchesPoints l).map fun q => (q.1, q.2.1)
  | [] => rfl
  | b :: t => by
    rw [List.map_cons, List.flatten_cons, batchesPoints_cons, List.map_append,
      pairs_flatten_eq t, pairs_eq_points_map]

theorem mem_statesPoints :
    ∀ (states : List (List ReadBatch)) (q : Str × Int × PValue),
      q ∈ statesPoints states ↔ ∃ i, i < states.length ∧ q ∈ batchesPoints (states.getD i [])
  | [], q => by simp [statesPoints]
  | s :: t, q => by
    rw [statesPoints_cons]
    simp only [List.mem_append, mem_statesPoints t q]
    constructor
    · rintro (h | ⟨i, hi, hq⟩)
      · exact ⟨0, Nat.succ_pos _, h⟩
      · exact ⟨i + 1, Nat.succ_lt_succ hi, hq⟩
    · rintro ⟨i, hi, hq⟩
      cases i with
      | zero => exact Or.inl hq
      | succ j => exact Or.inr ⟨j, Nat.lt_of_succ_lt_succ hi, hq⟩

theorem statesPoints_set_perm :
    ∀ (states : List (List ReadBatch)) (pos : Nat) (l : List ReadBatch),
      pos < states.length →
      (statesPoints (states.set pos l) ++ batchesPoints (states.getD pos [])).Perm
        (statesPoints states ++ batchesPoints l)
  | [], pos, l, h => by simp at h
  | s :: t, 0, l, _ => by
    rw [List.set_cons_zero, statesPoints_cons, statesPoints_cons]
    refine List.Perm.trans List.perm_append_comm ?_
    rw [List.append_assoc]
    exact List.Perm.append_left _ List.perm_append_comm
  | s :: t, pos + 1, l, h => by
    rw [List.set_cons_succ, statesPoints_cons, statesPoints_cons]
    have ih := statesPoints_set_perm t pos l (Nat.lt_of_succ_lt_succ h)
    have hgd : (s :: t).getD (pos + 1) [] = t.getD pos [] := rfl
    rw [hgd, List.append_assoc, List.append_assoc]
    exact List.Perm.append_left _ ih

theorem insertByTime_perm {γ : Type} (p : ReadPoint γ) :
    ∀ (l : List (ReadPoint γ)), (insertByTime p l).Perm (p :: l)
  | [] => List.Perm.refl _
  | q :: rest => by
    rw [insertByTime]
    by_cases h : q.time ≤ p.time
    · rw [if_pos h]
      exact ((insertByTime_perm p rest).cons q).trans (List.Perm.swap p q rest)
    · rw [if_neg h]

theorem insertByTime_sorted {γ : Type} (p : ReadPoint γ) :
    ∀ (l : List (ReadPoint γ)), l.Pairwise (fun a b => a.time ≤ b.time) →
      (insertByTime p l).Pairwise (fun a b => a.time ≤ b.time)
  | [], _ => List.pairwise_cons.mpr ⟨fun x hx => absurd hx (by simp), List.Pairwise.nil⟩
  | q :: rest, h => by
    obtain ⟨hq, hrest⟩ := List.pairwise_cons.mp h
    rw [insertByTime]
    by_cases hqp : q.time ≤ p.time
    · rw [if_pos hqp]
      refine List.pairwise_cons.mpr ⟨?_, insertByTime_sorted p rest hrest⟩
      intro x hx
      rcases List.mem_cons.mp ((insertByTime_perm p rest).mem_iff.mp hx) with rfl | hx
      · exact hqp
      · exact hq x hx
    · rw [if_neg hqp]
      refine List.pairwise_cons.mpr ⟨?_, h⟩
      intro x hx
      rcases List.mem_cons.mp hx with rfl | hx
      · exact le_of_lt (lt_of_not_le hqp)
      · exact le_trans (le_of_lt (lt_of_not_le hqp)) (hq x hx)

theorem sortByTime_perm {γ : Type} :
    ∀ (l : List (ReadPoint γ)), (sortByTime l).Perm l
  | [] => List.Perm.refl _
  | p :: rest => by
    rw [sortByTime]
    exact (insertByTime_perm p (sortByTime rest)).trans ((sortByTime_perm rest).cons p)

theorem sortByTime_sorted {γ : Type} :
    ∀ (l : List (ReadPoint γ)), (sortByTime l).Pairwise (fun a b => a.time ≤ b.time)
  | [] => List.Pairwise.nil
  | p :: rest => by
    rw [sortByTime]
    exact insertByTime_sorted p (sortByTime rest) (sortByTime_sorted rest)

theorem sort_by_time_key (b : ReadBatch) : b.sort_by_time.key = b.key := by
  cases b with
  | mk k vals => cases vals <;> rfl

theorem sort_by_time_is_i64 (b : ReadBatch) : b.sort_by_time.is_i64 = b.is_i64 := by
  cases b with
  | mk k vals => cases vals <;> rfl

theorem sort_by_time_points_perm (b : ReadBatch) :
    b.sort_by_time.points.Perm b.points := by
  cases b with
  | mk k vals =>
    cases vals with
    | I64 vs =>
      show (ReadBatch.mk k (.I64 (sortByTime vs))).points.Perm _
      rw [points_i64, points_i64]
      exact (sortByTime_perm vs).map _
    | F64 vs =>
      show (ReadBatch.mk k (.F64 (sortByTime vs))).points.Perm _
      rw [points_f64, points_f64]
      exact (sortByTime_perm vs).map _

theorem sort_by_time_pairs_pairwise (b : ReadBatch) :
    b.sort_by_time.pairs.Pairwise kt_le := by
  cases b with
  | mk k vals =>
    cases vals with
    | I64 vs =>
      show (ReadBatch.mk k (.I64 (sortByTime vs))).pairs.Pairwise kt_le
      rw [pairs_i64]
      exact List.pairwise_map.mpr ((sortByTime_sorted vs).imp
        (fun h => (kt_le_same_key k _ _).mpr h))
    | F64 vs =>
      show (ReadBatch.mk k (.F64 (sortByTime vs))).pairs.Pairwise kt_le
      rw [pairs_f64]
      exact List.pairwise_map.mpr ((sortByTime_sorted vs).imp
        (fun h => (kt_le_same_key k _ _).mpr h))

theorem findIdx?_none_drop {α : Type} (p : α → Bool) (l : List α)
    (h : l.findIdx? p = none) : l.dropWhile (fun x => !p x) = [] := by
  have ht := findIdx?_none_take p l h
  have hsplit := List.takeWhile_append_dropWhile (p := fun x => !p x) (l := l)
  rw [ht] at hsplit
  have hlen := congrArg List.length hsplit
  rw [List.length_append] at hlen
  have : (l.dropWhile fun x => !p x).length = 0 := by omega
  exact List.length_eq_zero.mp this

theorem dropWhile_head_false {α : Type} (p : α → Bool) :
    ∀ (l : List α) (y : α) (ys : List α), l.dropWhile p = y :: ys → p y = false
  | [], y, ys, h => by cases h
  | a :: l, y, ys, h => by
    rw [List.dropWhile_cons] at h
    by_cases hp : p a = true
    · rw [if_pos hp] at h
      exact dropWhile_head_false p l y ys h
    · rw [if_neg hp] at h
      injection h with h1 h2
      rw [← h1]
      exact Bool.eq_false_iff.mpr hp

theorem append_below_time_i64 (k1 k2 : Str) (vs ws : List (ReadPoint Int)) (t : Int) :
    ReadBatch.append_below_time ⟨k1, .I64 vs⟩ ⟨k2, .I64 ws⟩ t =
      (⟨k1, .I64 (vs ++ ws.takeWhile fun w => !decide (t < w.time))⟩,
       ⟨k2, .I64 (ws.dropWhile fun w => !decide (t < w.time))⟩,
       (ws.dropWhile fun w => !decide (t < w.time)).isEmpty) := by
  have hred : ReadBatch.append_below_time ⟨k1, .I64 vs⟩ ⟨k2, .I64 ws⟩ t =
      (match ws.findIdx? (fun val => decide (t < val.time)) with
       | none => (⟨k1, .I64 (vs ++ ws)⟩, ⟨k2, .I64 []⟩, true)
       | some pos =>
         (⟨k1, .I64 (vs ++ ws.take pos)⟩,
          ⟨k2, .I64 (ws.drop pos)⟩, (ws.drop pos).isEmpty)) := rfl
  rw [hred]
  cases h : ws.findIdx? (fun val => decide (t < val.time)) with
  | none =>
    rw [findIdx?_none_take _ ws h, findIdx?_none_drop _ ws h]
    rfl
  | some i =>
    dsimp only
    rw [findIdx?_some_take _ ws i h, findIdx?_some_drop _ ws i h]

theorem append_below_time_f64 (k1 k2 : Str) (vs ws : List (ReadPoint F64Val)) (t : Int) :
    ReadBatch.append_below_time ⟨k1, .F64 vs⟩ ⟨k2, .F64 ws⟩ t =
      (⟨k1, .F64 (vs ++ ws.takeWhile fun w => !decide (t < w.time))⟩,
       ⟨k2, .F64 (ws.dropWhile fun w => !decide (t < w.time))⟩,
       (ws.dropWhile fun w => !decide (t < w.time)).isEmpty) := by
  have hred : ReadBatch.append_below_time ⟨k1, .F64 vs⟩ ⟨k2, .F64 ws⟩ t =
      (match ws.findIdx? (fun val => decide (t < val.time)) with
       | none => (⟨k1, .F64 (vs ++ ws)⟩, ⟨k2, .F64 []⟩, true)
       | some pos =>
         (⟨k1, .F64 (vs ++ ws.take pos)⟩,
          ⟨k2, .F64 (ws.drop pos)⟩, (ws.drop pos).isEmpty)) := rfl
  rw [hred]
  cases h : ws.findIdx? (fun val => decide (t < val.time)) with
  | none =>
    rw [findIdx?_none_take _ ws h, findIdx?_none_drop _ ws h]
    rfl
  | some i =>
    dsimp only
    rw [findIdx?_some_take _ ws i h, findIdx?_some_drop _ ws i h]

theorem mem_dropWhile_gt {γ : Type} (t : Int) (ws : List (ReadPoint γ))
    (hsorted : ws.Pairwise (fun a b => a.time ≤ b.time)) :
    ∀ x ∈ ws.dropWhile (fun w => !decide (t < w.time)), t < x.time := by
  intro x hx
  have hsorted2 : (ws.dropWhile (fun w => !decide (t < w.time))).Pairwise
      (fun a b => a.time ≤ b.time) := hsorted.sublist (List.dropWhile_sublist _)
  cases hd : ws.dropWhile (fun w => !decide (t < w.time)) with
  | nil =>
    rw [hd] at hx
    cases hx
  | cons y ys =>
    have hy : t < y.time := by
      have := dropWhile_head_false _ ws y ys hd
      simpa using this
    rw [hd] at hx hsorted2
    rcases List.mem_cons.mp hx with rfl | hx
    · exact hy
    · exact lt_of_lt_of_le hy ((List.pairwise_cons.mp hsorted2).1 x hx)

theorem mem_takeWhile_le {γ : Type} (t : Int) (ws : List (ReadPoint γ)) :
    ∀ x ∈ ws.takeWhile (fun w => !decide (t < w.time)), x.time ≤ t := by
  intro x hx
  have := List.mem_takeWhile_imp hx
  simpa using this

theorem pairs_ne_nil (b : ReadBatch) (h : b.values.is_empty = false) : b.pairs ≠ [] := by
  cases b with
  | mk k vals =>
    cases vals with
    | I64 vs =>
      simp only [ReadValues.is_empty] at h
      intro hc
      rw [pairs_i64, List.map_eq_nil_iff] at hc
      subst hc
      simp at h
    | F64 vs =>
      simp only [ReadValues.is_empty] at h
      intro hc
      rw [pairs_f64, List.map_eq_nil_iff] at hc
      subst hc
      simp at h

theorem inputOk_cons_tail (b : ReadBatch) (rest : List ReadBatch)
    (h : inputOk (b :: rest)) : inputOk rest := by
  obtain ⟨hne, hp⟩ := h
  refine ⟨fun x hx => hne x (List.mem_cons_of_mem b hx), ?_⟩
  rw [List.map_cons, List.flatten_cons] at hp
  exact hp.sublist (List.sublist_append_right _ _)

theorem inputOk_replace_head (b b2 : ReadBatch) (rest : List ReadBatch)
    (pre : List (Str × Int)) (h : inputOk (b :: rest))
    (hpairs : b.pairs = pre ++ b2.pairs)
    (hne : b2.values.is_empty = false) : inputOk (b2 :: rest) := by
  obtain ⟨hne0, hp⟩ := h
  refine ⟨?_, ?_⟩
  · intro x hx
    rcases List.mem_cons.mp hx with rfl | hx
    · exact hne
    · exact hne0 x (List.mem_cons_of_mem b hx)
  · rw [List.map_cons, List.flatten_cons] at hp
    rw [List.map_cons, List.flatten_cons]
    rw [hpairs, List.append_assoc] at hp
    exact hp.sublist (List.sublist_append_right _ _)

theorem pairs_getLast (b : ReadBatch) (hne : b.values.is_empty = false) :
    b.pairs.getLast? = some (b.key, b.start_stop_times.2) := by
  cases b with
  | mk k vals =>
    cases vals with
    | I64 vs =>
      simp only [ReadValues.is_empty] at hne
      cases hvl : vs.getLast? with
      | none =>
        rw [List.getLast?_eq_none_iff] at hvl
        subst hvl
        simp at hne
      | some q =>
        rw [pairs_i64, List.getLast?_map, hvl]
        have h2 : (ReadBatch.mk k (.I64 vs)).start_stop_times.2 = q.time := by
          simp [ReadBatch.start_stop_times, hvl]
        rw [h2]
        rfl
    | F64 vs =>
      simp only [ReadValues.is_empty] at hne
      cases hvl : vs.getLast? with
      | none =>
        rw [List.getLast?_eq_none_iff] at hvl
        subst hvl
        simp at hne
      | some q =>
        rw [pairs_f64, List.getLast?_map, hvl]
        have h2 : (ReadBatch.mk k (.F64 vs)).start_stop_times.2 = q.time := by
          simp [ReadBatch.start_stop_times, hvl]
        rw [h2]
        rfl

theorem pairs_fst_key (b : ReadBatch) : ∀ p ∈ b.pairs, p.1 = b.key := by
  intro p hp
  rw [pairs_eq_points_map] at hp
  obtain ⟨q, hq, rfl⟩ := List.mem_map.mp hp
  exact points_key b q hq

theorem input_pairs_key_ge (input : List ReadBatch) (hin : inputOk input) (b : ReadBatch)
    (hh : input.head? = some b) :
    ∀ p ∈ (input.map ReadBatch.pairs).flatten, b.key ≤ p.1 := by
  cases input with
  | nil => cases hh
  | cons b0 rest =>
    rw [List.head?_cons] at hh
    obtain rfl : b0 = b := Option.some.inj hh
    intro p hp
    obtain ⟨hne, hpw⟩ := hin
    rw [List.map_cons, List.flatten_cons] at hp hpw
    rcases List.mem_append.mp hp with hp | hp
    · exact le_of_eq (pairs_fst_key b0 p hp).symm
    · have hbne := hne b0 (List.mem_cons_self b0 rest)
      obtain ⟨x, hx⟩ := List.exists_mem_of_ne_nil _ (pairs_ne_nil b0 hbne)
      have hcross := (List.pairwise_append.mp hpw).2.2
      have := kt_le_fst (hcross x hx p hp)
      rw [pairs_fst_key b0 x hx] at this
      exact this

theorem input_pairs_after_head (b : ReadBatch) (rest : List ReadBatch)
    (hin : inputOk (b :: rest)) (L : Str × Int) (hL : b.pairs.getLast? = some L) :
    ∀ p ∈ (rest.map ReadBatch.pairs).flatten, kt_le L p := by
  obtain ⟨_, hpw⟩ := hin
  rw [List.map_cons, List.flatten_cons] at hpw
  have hcross := (List.pairwise_append.mp hpw).2.2
  intro p hp
  exact hcross L (getLast?_mem_self _ _ hL) p hp

theorem batch_pairs_le_last (b : ReadBatch) (rest : List ReadBatch)
    (hin : inputOk (b :: rest)) :
    ∀ p ∈ b.pairs, p.1 = b.key ∧ p.2 ≤ b.start_stop_times.2 := by
  intro p hp
  have hk : p.1 = b.key := pairs_fst_key b p hp
  obtain ⟨hne, hpw⟩ := hin
  have hbne := hne b (List.mem_cons_self b rest)
  have hL := pairs_getLast b hbne
  rw [List.map_cons, List.flatten_cons] at hpw
  have hbp : b.pairs.Pairwise kt_le := (List.pairwise_append.mp hpw).1
  obtain ⟨L, hL2, hor⟩ := pairwise_rel_getLast b.pairs hbp p hp
  rw [hL] at hL2
  obtain rfl : L = (b.key, b.start_stop_times.2) := (Option.some.inj hL2).symm
  refine ⟨hk, ?_⟩
  rcases hor with rfl | hor
  · exact le_refl _
  · rcases hor with hlt | ⟨_, hle⟩
    · rw [hk] at hlt
      exact absurd hlt (lt_irrefl _)
    · exact hle

theorem rms_scan_nil (pos : Nat) (acc : RmsAcc) : rms_scan [] pos acc = acc := rfl

theorem rms_scan_cons_empty (rest : List (List ReadBatch)) (pos : Nat) (acc : RmsAcc) :
    rms_scan ([] :: rest) pos acc = rms_scan rest (pos + 1) acc := by
  cases acc with
  | mk nk mt mp ps => cases nk <;> rfl

theorem rms_scan_cons_adopt (b : ReadBatch) (s : List ReadBatch)
    (rest : List (List ReadBatch)) (pos : Nat) (mt : Int) (mp : Nat) (ps : List Nat) :
    rms_scan ((b :: s) :: rest) pos ⟨none, mt, mp, ps⟩ =
      rms_scan rest (pos + 1) ⟨some b.key, b.start_stop_times.2, pos, ps⟩ := rfl

theorem rms_scan_cons_some (b : ReadBatch) (s : List ReadBatch)
    (rest : List (List ReadBatch)) (pos : Nat) (k : Str) (mt : Int) (mp : Nat)
    (ps : List Nat) :
    rms_scan ((b :: s) :: rest) pos ⟨some k, mt, mp, ps⟩ =
      (if b.key < k then
        rms_scan rest (pos + 1) ⟨some b.key, b.start_stop_times.2, pos, []⟩
      else if b.key = k then
        (if b.start_stop_times.2 < mt then
          rms_scan rest (pos + 1) ⟨some k, b.start_stop_times.2, pos, ps ++ [mp]⟩
        else
          rms_scan rest (pos + 1) ⟨some k, mt, mp, ps ++ [pos]⟩)
      else rms_scan rest (pos + 1) ⟨some k, mt, mp, ps⟩) := rfl

theorem rmsAccInv_extend_nil (P : List (List ReadBatch)) (acc : RmsAcc)
    (h : rmsAccInv P acc) : rmsAccInv (P ++ [[]]) acc := by
  cases acc with
  | mk nk mt mp ps =>
    cases nk with
    | none =>
      obtain ⟨h1, h2⟩ := h
      refine ⟨?_, h2⟩
      intro s hs
      rcases List.mem_append.mp hs with hs | hs
      · exact h1 s hs
      · simpa using hs
    | some k =>
      obtain ⟨h1, h2, h3, h4, h5⟩ := h
      refine ⟨?_, ?_, ?_, ?_, h5⟩
      · rw [List.length_append]
        exact Nat.lt_of_lt_of_le h1 (Nat.le_add_right _ _)
      · obtain ⟨b, hb, hk, ht⟩ := h2
        exact ⟨b, by rw [getD_append_lt _ _ _ _ h1]; exact hb, hk, ht⟩
      · intro i hi b hb
        have hi2 : i < P.length + 1 := by
          rw [List.length_append] at hi
          simpa using hi
        rcases Nat.lt_succ_iff_lt_or_eq.mp hi2 with hi3 | rfl
        · rw [getD_append_lt _ _ _ _ hi3] at hb
          exact h3 i hi3 b hb
        · rw [getD_append_len] at hb
          cases hb
      · intro i
        rw [h4 i]
        constructor
        · rintro ⟨hne, hlt, b, hb, hk⟩
          refine ⟨hne, ?_, b, ?_, hk⟩
          · rw [List.length_append]
            exact Nat.lt_of_lt_of_le hlt (Nat.le_add_right _ _)
          · rw [getD_append_lt _ _ _ _ hlt]
            exact hb
        · rintro ⟨hne, hlt, b, hb, hk⟩
          have hi2 : i < P.length + 1 := by
            rw [List.length_append] at hlt
            simpa using hlt
          rcases Nat.lt_succ_iff_lt_or_eq.mp hi2 with hi3 | rfl
          · rw [getD_append_lt _ _ _ _ hi3] at hb
            exact ⟨hne, hi3, b, hb, hk⟩
          · rw [getD_append_len] at hb
            cases hb

theorem rmsAccInv_adopt (P : List (List ReadBatch)) (b : ReadBatch)
    (s : List ReadBatch) (mt : Int) (mp : Nat) (ps : List Nat)
    (h : rmsAccInv P ⟨none, mt, mp, ps⟩) :
    rmsAccInv (P ++ [b :: s]) ⟨some b.key, b.start_stop_times.2, P.length, ps⟩ := by
  obtain ⟨h1, h2⟩ := h
  have hlen : (P ++ [b :: s]).length = P.length + 1 := by simp
  refine ⟨?_, ?_, ?_, ?_, ?_⟩
  · rw [hlen]
    exact Nat.lt_succ_self _
  · exact ⟨b, by rw [getD_append_len, List.head?_cons], rfl, rfl⟩
  · intro i hi b2 hb2
    rw [hlen] at hi
    rcases Nat.lt_succ_iff_lt_or_eq.mp hi with hi3 | rfl
    · rw [getD_append_lt _ _ _ _ hi3] at hb2
      rw [h1 _ (getD_mem P i [] hi3)] at hb2
      cases hb2
    · rw [getD_append_len] at hb2
      rw [List.head?_cons] at hb2
      obtain rfl := Option.some.inj hb2
      exact ⟨le_refl _, fun _ => le_refl _⟩
  · intro i
    rw [h2]
    constructor
    · intro hi
      cases hi
    · rintro ⟨hne, hlt, b2, hb2, hk⟩
      rw [hlen] at hlt
      rcases Nat.lt_succ_iff_lt_or_eq.mp hlt with hi3 | rfl
      · rw [getD_append_lt _ _ _ _ hi3] at hb2
        rw [h1 _ (getD_mem P i [] hi3)] at hb2
        cases hb2
      · exact absurd rfl hne
  · rw [h2]
    exact List.nodup_nil

theorem rmsAccInv_new_min (P : List (List ReadBatch)) (b : ReadBatch)
    (s : List ReadBatch) (k : Str) (mt : Int) (mp : Nat) (ps : List Nat)
    (h : rmsAccInv P ⟨some k, mt, mp, ps⟩) (hlt : b.key < k) :
    rmsAccInv (P ++ [b :: s]) ⟨some b.key, b.start_stop_times.2, P.length, []⟩ := by
  obtain ⟨h1, h2, h3, h4, h5⟩ := h
  have hlen : (P ++ [b :: s]).length = P.length + 1 := by simp
  refine ⟨?_, ?_, ?_, ?_, List.nodup_nil⟩
  · rw [hlen]
    exact Nat.lt_succ_self _
  · exact ⟨b, by rw [getD_append_len, List.head?_cons], rfl, rfl⟩
  · intro i hi b2 hb2
    rw [hlen] at hi
    rcases Nat.lt_succ_iff_lt_or_eq.mp hi with hi3 | rfl
    · rw [getD_append_lt _ _ _ _ hi3] at hb2
      have hk2 := (h3 i hi3 b2 hb2).1
      refine ⟨le_of_lt (lt_of_lt_of_le hlt hk2), ?_⟩
      intro he
      have : k < k := lt_of_le_of_lt (le_trans hk2 (le_of_eq he)) hlt
      exact absurd this (lt_irrefl k)
    · rw [getD_append_len] at hb2
      rw [List.head?_cons] at hb2
      obtain rfl := Option.some.inj hb2
      exact ⟨le_refl _, fun _ => le_refl _⟩
  · intro i
    constructor
    · intro hi
      cases hi
    · rintro ⟨hne, hilt, b2, hb2, hk⟩
      rw [hlen] at hilt
      rcases Nat.lt_succ_iff_lt_or_eq.mp hilt with hi3 | rfl
      · rw [getD_append_lt _ _ _ _ hi3] at hb2
        have hk2 := (h3 i hi3 b2 hb2).1
        rw [hk] at hk2
        exact absurd hlt (not_lt_of_le hk2)
      · exact absurd rfl hne

theorem rmsAccInv_eq_lt (P : List (List ReadBatch)) (b : ReadBatch)
    (s : List ReadBatch) (k : Str) (mt : Int) (mp : Nat) (ps : List Nat)
    (h : rmsAccInv P ⟨some k, mt, mp, ps⟩) (heq : b.key = k)
    (hlt : b.start_stop_times.2 < mt) :
    rmsAccInv (P ++ [b :: s]) ⟨some k, b.start_stop_times.2, P.length, ps ++ [mp]⟩ := by
  obtain ⟨h1, h2, h3, h4, h5⟩ := h
  have hlen : (P ++ [b :: s]).length = P.length + 1 := by simp
  refine ⟨?_, ?_, ?_, ?_, ?_⟩
  · rw [hlen]
    exact Nat.lt_succ_self _
  · exact ⟨b, by rw [getD_append_len, List.head?_cons], heq, rfl⟩
  · intro i hi b2 hb2
    rw [hlen] at hi
    rcases Nat.lt_succ_iff_lt_or_eq.mp hi with hi3 | rfl
    · rw [getD_append_lt _ _ _ _ hi3] at hb2
      obtain ⟨hk2, hm2⟩ := h3 i hi3 b2 hb2
      exact ⟨hk2, fun he => le_trans (le_of_lt hlt) (hm2 he)⟩
    · rw [getD_append_len, List.head?_cons] at hb2
      obtain rfl := Option.some.inj hb2
      exact ⟨le_of_eq heq.symm, fun _ => le_refl _⟩
  · intro i
    constructor
    · intro hi
      rcases List.mem_append.mp hi with hi | hi
      · obtain ⟨hne, hilt, b2, hb2, hk2⟩ := (h4 i).mp hi
        refine ⟨Nat.ne_of_lt hilt, ?_, b2, ?_, hk2⟩
        · rw [hlen]
          exact Nat.lt_succ_of_lt hilt
        · rw [getD_append_lt _ _ _ _ hilt]
          exact hb2
      · have : i = mp := by simpa using hi
        subst this
        obtain ⟨b0, hb0, hk0, _⟩ := h2
        refine ⟨Nat.ne_of_lt h1, ?_, b0, ?_, hk0⟩
        · rw [hlen]
          exact Nat.lt_succ_of_lt h1
        · rw [getD_append_lt _ _ _ _ h1]
          exact hb0
    · rintro ⟨hne, hilt, b2, hb2, hk2⟩
      rw [hlen] at hilt
      rcases Nat.lt_succ_iff_lt_or_eq.mp hilt with hi3 | rfl
      · rw [getD_append_lt _ _ _ _ hi3] at hb2
        by_cases him : i = mp
        · subst him
          exact List.mem_append.mpr (Or.inr (by simp))
        · exact List.mem_append.mpr (Or.inl ((h4 i).mpr ⟨him, hi3, b2, hb2, hk2⟩))
      · exact absurd rfl hne
  · rw [List.nodup_append]
    refine ⟨h5, List.nodup_singleton _, ?_⟩
    intro a ha hb
    have : a = mp := by simpa using hb
    subst this
    exact absurd rfl ((h4 a).mp ha).1

theorem rmsAccInv_eq_ge (P : List (List ReadBatch)) (b : ReadBatch)
    (s : List ReadBatch) (k : Str) (mt : Int) (mp : Nat) (ps : List Nat)
    (h : rmsAccInv P ⟨some k, mt, mp, ps⟩) (heq : b.key = k)
    (hge : ¬ b.start_stop_times.2 < mt) :
    rmsAccInv (P ++ [b :: s]) ⟨some k, mt, mp, ps ++ [P.length]⟩ := by
  obtain ⟨h1, h2, h3, h4, h5⟩ := h
  have hlen : (P ++ [b :: s]).length = P.length + 1 := by simp
  refine ⟨?_, ?_, ?_, ?_, ?_⟩
  · rw [hlen]
    exact Nat.lt_succ_of_lt h1
  · obtain ⟨b0, hb0, hk0, ht0⟩ := h2
    exact ⟨b0, by rw [getD_append_lt _ _ _ _ h1]; exact hb0, hk0, ht0⟩
  · intro i hi b2 hb2
    rw [hlen] at hi
    rcases Nat.lt_succ_iff_lt_or_eq.mp hi with hi3 | rfl
    · rw [getD_append_lt _ _ _ _ hi3] at hb2
      exact h3 i hi3 b2 hb2
    · rw [getD_append_len, List.head?_cons] at hb2
      obtain rfl := Option.some.inj hb2
      exact ⟨le_of_eq heq.symm, fun _ => le_of_not_lt hge⟩
  · intro i
    constructor
    · intro hi
      rcases List.mem_append.mp hi with hi | hi
      · obtain ⟨hne, hilt, b2, hb2, hk2⟩ := (h4 i).mp hi
        refine ⟨hne, ?_, b2, ?_, hk2⟩
        · rw [hlen]
          exact Nat.lt_succ_of_lt hilt
        · rw [getD_append_lt _ _ _ _ hilt]
          exact hb2
      · have : i = P.length := by simpa using hi
        subst this
        refine ⟨Ne.symm (Nat.ne_of_lt h1), ?_, b, ?_, heq⟩
        · rw [hlen]
          exact Nat.lt_succ_self _
        · rw [getD_append_len, List.head?_cons]
    · rintro ⟨hne, hilt, b2, hb2, hk2⟩
      rw [hlen] at hilt
      rcases Nat.lt_succ_iff_lt_or_eq.mp hilt with hi3 | rfl
      · rw [getD_append_lt _ _ _ _ hi3] at hb2
        exact List.mem_append.mpr (Or.inl ((h4 i).mpr ⟨hne, hi3, b2, hb2, hk2⟩))
      · exact List.mem_append.mpr (Or.inr (by simp))
  · rw [List.nodup_append]
    refine ⟨h5, List.nodup_singleton _, ?_⟩
    intro a ha hb
    have : a = P.length := by simpa using hb
    subst this
    exact absurd ((h4 _).mp ha).2.1 (lt_irrefl _)

theorem rmsAccInv_gt (P : List (List ReadBatch)) (b : ReadBatch)
    (s : List ReadBatch) (k : Str) (mt : Int) (mp : Nat) (ps : List Nat)
    (h : rmsAccInv P ⟨some k, mt, mp, ps⟩) (hgt : k < b.key) :
    rmsAccInv (P ++ [b :: s]) ⟨some k, mt, mp, ps⟩ := by
  obtain ⟨h1, h2, h3, h4, h5⟩ := h
  have hlen : (P ++ [b :: s]).length = P.length + 1 := by simp
  refine ⟨?_, ?_, ?_, ?_, h5⟩
  · rw [hlen]
    exact Nat.lt_succ_of_lt h1
  · obtain ⟨b0, hb0, hk0, ht0⟩ := h2
    exact ⟨b0, by rw [getD_append_lt _ _ _ _ h1]; exact hb0, hk0, ht0⟩
  · intro i hi b2 hb2
    rw [hlen] at hi
    rcases Nat.lt_succ_iff_lt_or_eq.mp hi with hi3 | rfl
    · rw [getD_append_lt _ _ _ _ hi3] at hb2
      exact h3 i hi3 b2 hb2
    · rw [getD_append_len, List.head?_cons] at hb2
      obtain rfl := Option.some.inj hb2
      refine ⟨le_of_lt hgt, ?_⟩
      intro he
      rw [he] at hgt
      exact absurd hgt (lt_irrefl k)
  · intro i
    rw [h4 i]
    constructor
    · rintro ⟨hne, hilt, b2, hb2, hk2⟩
      refine ⟨hne, ?_, b2, ?_, hk2⟩
      · rw [hlen]
        exact Nat.lt_succ_of_lt hilt
      · rw [getD_append_lt _ _ _ _ hilt]
        exact hb2
    · rintro ⟨hne, hilt, b2, hb2, hk2⟩
      rw [hlen] at hilt
      rcases Nat.lt_succ_iff_lt_or_eq.mp hilt with hi3 | rfl
      · rw [getD_append_lt _ _ _ _ hi3] at hb2
        exact ⟨hne, hi3, b2, hb2, hk2⟩
      · rw [getD_append_len, List.head?_cons] at hb2
        obtain rfl := Option.some.inj hb2
        rw [hk2] at hgt
        exact absurd hgt (lt_irrefl _)

theorem rms_scan_spec :
    ∀ (ss P : List (List ReadBatch)) (acc : RmsAcc), rmsAccInv P acc →
      rmsAccInv (P ++ ss) (rms_scan ss P.length acc)
  | [], P, acc, h => by
    rw [rms_scan_nil, List.append_nil]
    exact h
  | s :: rest, P, acc, h => by
    cases s with
    | nil =>
      rw [rms_scan_cons_empty, List.append_cons]
      have h2 := rmsAccInv_extend_nil P acc h
      have hlen : (P ++ [([] : List ReadBatch)]).length = P.length + 1 := by simp
      rw [← hlen]
      exact rms_scan_spec rest (P ++ [[]]) acc h2
    | cons b s2 =>
      cases acc with
      | mk nk mt mp ps =>
        cases nk with
        | none =>
          rw [rms_scan_cons_adopt, List.append_cons]
          have h2 := rmsAccInv_adopt P b s2 mt mp ps h
          have hlen : (P ++ [b :: s2]).length = P.length + 1 := by simp
          rw [← hlen]
          exact rms_scan_spec rest _ _ h2
        | some k =>
          rw [rms_scan_cons_some, List.append_cons]
          have hlen : (P ++ [b :: s2]).length = P.length + 1 := by simp
          by_cases h1 : b.key < k
          · rw [if_pos h1, ← hlen]
            exact rms_scan_spec rest _ _ (rmsAccInv_new_min P b s2 k mt mp ps h h1)
          · rw [if_neg h1]
            by_cases h2 : b.key = k
            · rw [if_pos h2]
              by_cases h3 : b.start_stop_times.2 < mt
              · rw [if_pos h3, ← hlen]
                exact rms_scan_spec rest _ _ (rmsAccInv_eq_lt P b s2 k mt mp ps h h2 h3)
              · rw [if_neg h3, ← hlen]
                exact rms_scan_spec rest _ _ (rmsAccInv_eq_ge P b s2 k mt mp ps h h2 h3)
            · rw [if_neg h2, ← hlen]
              have hgt : k < b.key := lt_of_le_of_ne (le_of_not_lt h1) (Ne.symm h2)
              exact rms_scan_spec rest _ _ (rmsAccInv_gt P b s2 k mt mp ps h hgt)

theorem points_nil_of_empty (b : ReadBatch) (h : b.values.is_empty = true) :
    b.points = [] := by
  cases b with
  | mk k vals =>
    cases vals with
    | I64 vs =>
      simp only [ReadValues.is_empty, List.isEmpty_iff] at h
      subst h
      rfl
    | F64 vs =>
      simp only [ReadValues.is_empty, List.isEmpty_iff] at h
      subst h
      rfl

theorem perm_append_cancel_right {α : Type} [DecidableEq α] (l1 l2 l : List α)
    (h : (l1 ++ l).Perm (l2 ++ l)) : l1.Perm l2 := by
  rw [List.perm_iff_count] at h ⊢
  intro a
  have := h a
  simp only [List.count_append] at this
  omega

theorem rms_drain_step (T : Int) (bb other : ReadBatch)
    (hk : other.key = bb.key) (htype : other.is_i64 = bb.is_i64) :
    ∃ moved : List (Str × Int × PValue),
      (bb.append_below_time other T).1.key = bb.key ∧
      (bb.append_below_time other T).1.is_i64 = bb.is_i64 ∧
      (bb.append_below_time other T).1.points = bb.points ++ moved ∧
      (∀ q ∈ moved, q.1 = bb.key ∧ q.2.1 ≤ T) ∧
      other.points = moved ++ (bb.append_below_time other T).2.1.points ∧
      (bb.append_below_time other T).2.1.key = other.key ∧
      (bb.append_below_time other T).2.1.is_i64 = other.is_i64 ∧
      (bb.append_below_time other T).2.2 = (bb.append_below_time other T).2.1.values.is_empty ∧
      (other.pairs.Pairwise kt_le →
        ∀ q ∈ (bb.append_below_time other T).2.1.points, T < q.2.1) := by
  cases bb with
  | mk K vals =>
    cases other with
    | mk K2 wvals =>
      have hkk : K2 = K := hk
      subst hkk
      cases vals with
      | I64 bvs =>
        cases wvals with
        | I64 ws =>
          rw [append_below_time_i64]
          refine ⟨(ws.takeWhile fun w => !decide (T < w.time)).map
              fun p => (K2, p.time, PValue.i p.value), rfl, rfl, ?_, ?_, ?_, rfl, rfl, rfl, ?_⟩
          · rw [points_i64, points_i64, List.map_append]
          · intro q hq
            obtain ⟨p, hp, rfl⟩ := List.mem_map.mp hq
            exact ⟨rfl, mem_takeWhile_le T ws p hp⟩
          · rw [points_i64, points_i64, ← List.map_append,
              List.takeWhile_append_dropWhile]
          · intro hpw q hq
            rw [points_i64] at hq
            obtain ⟨p, hp, rfl⟩ := List.mem_map.mp hq
            have hsorted : ws.Pairwise (fun a b => a.time ≤ b.time) := by
              rw [pairs_i64] at hpw
              exact (List.pairwise_map.mp hpw).imp
                (fun h => (kt_le_same_key K2 _ _).mp h)
            exact mem_dropWhile_gt T ws hsorted p hp
        | F64 ws => exact absurd htype (by simp [ReadBatch.is_i64])
      | F64 bvs =>
        cases wvals with
        | I64 ws => exact absurd htype (by simp [ReadBatch.is_i64])
        | F64 ws =>
          rw [append_below_time_f64]
          refine ⟨(ws.takeWhile fun w => !decide (T < w.time)).map
              fun p => (K2, p.time, PValue.f p.value), rfl, rfl, ?_, ?_, ?_, rfl, rfl, rfl, ?_⟩
          · rw [points_f64, points_f64, List.map_append]
          · intro q hq
            obtain ⟨p, hp, rfl⟩ := List.mem_map.mp hq
            exact ⟨rfl, mem_takeWhile_le T ws p hp⟩
          · rw [points_f64, points_f64, ← List.map_append,
              List.takeWhile_append_dropWhile]
          · intro hpw q hq
            rw [points_f64] at hq
            obtain ⟨p, hp, rfl⟩ := List.mem_map.mp hq
            have hsorted : ws.Pairwise (fun a b => a.time ≤ b.time) := by
              rw [pairs_f64] at hpw
              exact (List.pairwise_map.mp hpw).imp
                (fun h => (kt_le_same_key K2 _ _).mp h)
            exact mem_dropWhile_gt T ws hsorted p hp

theorem rms_drain_nil (T : Int) (bb : ReadBatch) (st : List (List ReadBatch)) :
    rms_drain T [] bb st = (bb, st) := rfl

theorem rms_drain_cons_some (T : Int) (pos : Nat) (rest : List Nat) (bb : ReadBatch)
    (st : List (List ReadBatch)) (other : ReadBatch)
    (hother : (st.getD pos []).head? = some other) :
    rms_drain T (pos :: rest) bb st =
      (if (bb.append_below_time other T).2.2 then
        rms_drain T rest (bb.append_below_time other T).1
          (st.set pos ((st.getD pos []).tail))
      else
        rms_drain T rest (bb.append_below_time other T).1
          (st.set pos ((bb.append_below_time other T).2.1 :: (st.getD pos []).tail))) := by
  unfold rms_drain
  rw [List.foldl_cons]
  dsimp only
  rw [hother]
  dsimp only
  by_cases hf : (bb.append_below_time other T).2.2 = true
  · rw [if_pos hf, if_pos hf]
  · rw [if_neg hf, if_neg hf]

theorem rms_drain_spec (T : Int) :
    ∀ (ps : List Nat) (bb : ReadBatch) (st : List (List ReadBatch)),
      ps.Nodup →
      (∀ pos ∈ ps, pos < st.length ∧
        ∃ other, (st.getD pos []).head? = some other ∧ other.key = bb.key ∧
          other.is_i64 = bb.is_i64 ∧ T ≤ other.start_stop_times.2) →
      (∀ i, i < st.length → inputOk (st.getD i [])) →
      (∀ q ∈ bb.points, q.1 = bb.key ∧ q.2.1 ≤ T) →
      (rms_drain T ps bb st).1.key = bb.key ∧
      (∀ q ∈ (rms_drain T ps bb st).1.points, q.1 = bb.key ∧ q.2.1 ≤ T) ∧
      ((rms_drain T ps bb st).1.points ++ statesPoints (rms_drain T ps bb st).2).Perm
        (bb.points ++ statesPoints st) ∧
      (rms_drain T ps bb st).2.length = st.length ∧
      (∀ i, i ∉ ps → (rms_drain T ps bb st).2.getD i [] = st.getD i []) ∧
      (∀ i, i < st.length → inputOk ((rms_drain T ps bb st).2.getD i [])) ∧
      (∀ pos ∈ ps,
        ∀ p ∈ (((rms_drain T ps bb st).2.getD pos []).map ReadBatch.pairs).flatten,
          kt_le (bb.key, T) p) ∧
      (∀ b2 ∈ (rms_drain T ps bb st).2.flatten, ∃ b0 ∈ st.flatten,
        b2.key = b0.key ∧ b2.is_i64 = b0.is_i64) ∧
      elemCount (rms_drain T ps bb st).2 ≤ elemCount st
  | [], bb, st, _, _, hst, hb => by
    rw [rms_drain_nil]
    refine ⟨rfl, hb, List.Perm.refl _, rfl, fun i _ => rfl, fun i hi => hst i hi,
      ?_, fun b2 hb2 => ⟨b2, hb2, rfl, rfl⟩, le_refl _⟩
    intro pos2 hpos2
    cases hpos2
  | pos :: rest, bb, st, hnd, hps, hst, hb => by
    obtain ⟨hpos, other, hother, hk, htype, hT⟩ := hps pos (List.mem_cons_self pos rest)
    obtain ⟨tl, hcur⟩ : ∃ tl, st.getD pos [] = other :: tl := by
      cases hgd : st.getD pos [] with
      | nil =>
        rw [hgd] at hother
        cases hother
      | cons a u =>
        rw [hgd, List.head?_cons] at hother
        exact ⟨u, by rw [← Option.some.inj hother]⟩
    obtain ⟨moved, hr_key, hr_type, hr_pts, hmoved, hsplit, hres_key, hres_type,
      hflag, hres_gt⟩ := rms_drain_step T bb other hk htype
    have hndr : rest.Nodup := (List.nodup_cons.mp hnd).2
    have hpr : pos ∉ rest := (List.nodup_cons.mp hnd).1
    have hinc : inputOk (st.getD pos []) := hst pos hpos
    have hin_cur : inputOk (other :: tl) := by
      rw [← hcur]
      exact hinc
    have hone : other.values.is_empty = false :=
      hin_cur.1 other (List.mem_cons_self other tl)
    have hLo := pairs_getLast other hone
    have hopw : other.pairs.Pairwise kt_le := by
      have h0 := hin_cur.2
      rw [List.map_cons, List.flatten_cons] at h0
      exact (List.pairwise_append.mp h0).1
    have htl_lb : ∀ p ∈ (tl.map ReadBatch.pairs).flatten, kt_le (bb.key, T) p := by
      intro p hp
      have h1 := input_pairs_after_head other tl hin_cur _ hLo p hp
      refine kt_le_trans ?_ h1
      exact Or.inr ⟨hk.symm, hT⟩
    by_cases hf : (bb.append_below_time other T).2.2 = true
    · rw [rms_drain_cons_some T pos rest bb st other hother, if_pos hf, hcur,
        List.tail_cons]
      have hlen2 : (st.set pos tl).length = st.length := by rw [List.length_set]
      have hps2 : ∀ p2 ∈ rest, p2 < (st.set pos tl).length ∧
          ∃ o2, ((st.set pos tl).getD p2 []).head? = some o2 ∧
            o2.key = (bb.append_below_time other T).1.key ∧
            o2.is_i64 = (bb.append_below_time other T).1.is_i64 ∧
            T ≤ o2.start_stop_times.2 := by
        intro p2 hp2
        obtain ⟨hplt, o2, ho2, hk2, ht2, hT2⟩ := hps p2 (List.mem_cons_of_mem pos hp2)
        have hne : p2 ≠ pos := fun he => hpr (he ▸ hp2)
        rw [hlen2]
        refine ⟨hplt, o2, ?_, ?_, ?_, hT2⟩
        · rw [getD_set_ne _ _ _ _ _ (Ne.symm hne)]
          exact ho2
        · rw [hr_key]
          exact hk2
        · rw [hr_type]
          exact ht2
      have hst2 : ∀ i, i < (st.set pos tl).length → inputOk ((st.set pos tl).getD i []) := by
        intro i hi
        rw [hlen2] at hi
        by_cases hip : i = pos
        · subst hip
          rw [getD_set_self _ _ _ _ hpos]
          exact inputOk_cons_tail other tl hin_cur
        · rw [getD_set_ne _ _ _ _ _ (Ne.symm hip)]
          exact hst i hi
      have hbp2 : ∀ q ∈ (bb.append_below_time other T).1.points,
          q.1 = (bb.append_below_time other T).1.key ∧ q.2.1 ≤ T := by
        intro q hq
        rw [hr_pts] at hq
        rw [hr_key]
        rcases List.mem_append.mp hq with hq | hq
        · exact hb q hq
        · exact hmoved q hq
      obtain ⟨ih1, ih2, ih3, ih4, ih5, ih6, ih7, ih8, ih9⟩ :=
        rms_drain_spec T rest (bb.append_below_time other T).1 (st.set pos tl)
          hndr hps2 hst2 hbp2
      have hres_empty : (bb.append_below_time other T).2.1.values.is_empty = true := by
        rw [← hflag]
        exact hf
      have hres_pts : (bb.append_below_time other T).2.1.points = [] :=
        points_nil_of_empty _ hres_empty
      refine ⟨ih1.trans hr_key, ?_, ?_, ?_, ?_, ?_, ?_, ?_, ?_⟩
      · intro q hq
        obtain ⟨h1, h2⟩ := ih2 q hq
        exact ⟨h1.trans hr_key, h2⟩
      · have hsp := statesPoints_set_perm st pos tl hpos
        rw [hcur, batchesPoints_cons, hsplit, hres_pts, List.append_nil] at hsp
        have hkey : ((moved ++ statesPoints (st.set pos tl)) ++ batchesPoints tl).Perm
            (statesPoints st ++ batchesPoints tl) := by
          refine List.Perm.trans (List.Perm.append_right _ List.perm_append_comm) ?_
          refine List.Perm.trans (List.Perm.of_eq (List.append_assoc _ _ _)) ?_
          exact hsp
        have hmv : (moved ++ statesPoints (st.set pos tl)).Perm (statesPoints st) :=
          perm_append_cancel_right _ _ _ hkey
        rw [hr_pts] at ih3
        refine ih3.trans ?_
        refine List.Perm.trans (List.Perm.of_eq (List.append_assoc _ _ _)) ?_
        exact List.Perm.append_left _ hmv
      · rw [ih4]
        exact hlen2
      · intro i hi
        have hir : i ∉ rest := fun h => hi (List.mem_cons_of_mem pos h)
        have hip : i ≠ pos := fun h => hi (h ▸ List.mem_cons_self pos rest)
        rw [ih5 i hir, getD_set_ne _ _ _ _ _ (Ne.symm hip)]
      · intro i hi
        refine ih6 i ?_
        rw [hlen2]
        exact hi
      · intro pos2 hpos2 p hp
        rcases List.mem_cons.mp hpos2 with rfl | hpos2
        · rw [ih5 _ hpr, getD_set_self _ _ _ _ hpos] at hp
          exact htl_lb p hp
        · have h2 := ih7 pos2 hpos2 p hp
          rw [hr_key] at h2
          exact h2
      · intro b2 hb2
        obtain ⟨b0, hb0, hbk, hbt⟩ := ih8 b2 hb2
        obtain ⟨l, hl, hbl⟩ := List.mem_flatten.mp hb0
        rcases List.mem_or_eq_of_mem_set hl with hl2 | rfl
        · exact ⟨b0, List.mem_flatten.mpr ⟨l, hl2, hbl⟩, hbk, hbt⟩
        · refine ⟨b0, ?_, hbk, hbt⟩
          refine List.mem_flatten.mpr ⟨st.getD pos [], getD_mem st pos [] hpos, ?_⟩
          rw [hcur]
          exact List.mem_cons_of_mem other hbl
      · have hset := elemCount_set st pos tl hpos
        rw [hcur] at hset
        simp only [List.length_cons] at hset
        refine le_trans ih9 ?_
        omega
    · rw [rms_drain_cons_some T pos rest bb st other hother, if_neg hf, hcur,
        List.tail_cons]
      have hres_ne : (bb.append_below_time other T).2.1.values.is_empty = false := by
        rw [← hflag]
        exact Bool.eq_false_iff.mpr hf
      have hpairs_split : other.pairs = (moved.map fun q => (q.1, q.2.1)) ++
          (bb.append_below_time other T).2.1.pairs := by
        rw [pairs_eq_points_map, pairs_eq_points_map, hsplit, List.map_append]
      have hin2 : inputOk ((bb.append_below_time other T).2.1 :: tl) :=
        inputOk_replace_head other _ tl _ hin_cur hpairs_split hres_ne
      have hlen2 : (st.set pos ((bb.append_below_time other T).2.1 :: tl)).length =
          st.length := by rw [List.length_set]
      have hps2 : ∀ p2 ∈ rest,
          p2 < (st.set pos ((bb.append_below_time other T).2.1 :: tl)).length ∧
          ∃ o2, ((st.set pos ((bb.append_below_time other T).2.1 :: tl)).getD p2
              []).head? = some o2 ∧
            o2.key = (bb.append_below_time other T).1.key ∧
            o2.is_i64 = (bb.append_below_time other T).1.is_i64 ∧
            T ≤ o2.start_stop_times.2 := by
        intro p2 hp2
        obtain ⟨hplt, o2, ho2, hk2, ht2, hT2⟩ := hps p2 (List.mem_cons_of_mem pos hp2)
        have hne : p2 ≠ pos := fun he => hpr (he ▸ hp2)
        rw [hlen2]
        refine ⟨hplt, o2, ?_, ?_, ?_, hT2⟩
        · rw [getD_set_ne _ _ _ _ _ (Ne.symm hne)]
          exact ho2
        · rw [hr_key]
          exact hk2
        · rw [hr_type]
          exact ht2
      have hst2 : ∀ i, i < (st.set pos ((bb.append_below_time other T).2.1 :: tl)).length →
          inputOk ((st.set pos ((bb.append_below_time other T).2.1 :: tl)).getD i []) := by
        intro i hi
        rw [hlen2] at hi
        by_cases hip : i = pos
        · subst hip
          rw [getD_set_self _ _ _ _ hpos]
          exact hin2
        · rw [getD_set_ne _ _ _ _ _ (Ne.symm hip)]
          exact hst i hi
      have hbp2 : ∀ q ∈ (bb.append_below_time other T).1.points,
          q.1 = (bb.append_below_time other T).1.key ∧ q.2.1 ≤ T := by
        intro q hq
        rw [hr_pts] at hq
        rw [hr_key]
        rcases List.mem_append.mp hq with hq | hq
        · exact hb q hq
        · exact hmoved q hq
      obtain ⟨ih1, ih2, ih3, ih4, ih5, ih6, ih7, ih8, ih9⟩ :=
        rms_drain_spec T rest (bb.append_below_time other T).1
          (st.set pos ((bb.append_below_time other T).2.1 :: tl)) hndr hps2 hst2 hbp2
      refine ⟨ih1.trans hr_key, ?_, ?_, ?_, ?_, ?_, ?_, ?_, ?_⟩
      · intro q hq
        obtain ⟨h1, h2⟩ := ih2 q hq
        exact ⟨h1.trans hr_key, h2⟩
      · have hsp := statesPoints_set_perm st pos
          ((bb.append_below_time other T).2.1 :: tl) hpos
        rw [hcur, batchesPoints_cons, batchesPoints_cons, hsplit] at hsp
        have hkey : ((moved ++ statesPoints (st.set pos
              ((bb.append_below_time other T).2.1 :: tl))) ++
            ((bb.append_below_time other T).2.1.points ++ batchesPoints tl)).Perm
            (statesPoints st ++
              ((bb.append_below_time other T).2.1.points ++ batchesPoints tl)) := by
          refine List.Perm.trans (List.Perm.append_right _ List.perm_append_comm) ?_
          refine List.Perm.trans (List.Perm.of_eq (List.append_assoc _ _ _)) ?_
          refine List.Perm.trans (List.Perm.append_left _
            (List.Perm.of_eq (List.append_assoc _ _ _).symm)) ?_
          exact hsp
        have hmv : (moved ++ statesPoints (st.set pos
            ((bb.append_below_time other T).2.1 :: tl))).Perm (statesPoints st) :=
          perm_append_cancel_right _ _ _ hkey
        rw [hr_pts] at ih3
        refine ih3.trans ?_
        refine List.Perm.trans (List.Perm.of_eq (List.append_assoc _ _ _)) ?_
        exact List.Perm.append_left _ hmv
      · rw [ih4]
        exact hlen2
      · intro i hi
        have hir : i ∉ rest := fun h => hi (List.mem_cons_of_mem pos h)
        have hip : i ≠ pos := fun h => hi (h ▸ List.mem_cons_self pos rest)
        rw [ih5 i hir, getD_set_ne _ _ _ _ _ (Ne.symm hip)]
      · intro i hi
        refine ih6 i ?_
        rw [hlen2]
        exact hi
      · intro pos2 hpos2 p hp
        rcases List.mem_cons.mp hpos2 with rfl | hpos2
        · rw [ih5 _ hpr, getD_set_self _ _ _ _ hpos, List.map_cons,
            List.flatten_cons] at hp
          rcases List.mem_append.mp hp with hp | hp
          · rw [pairs_eq_points_map] at hp
            obtain ⟨q, hq, rfl⟩ := List.mem_map.mp hp
            have ht2 := hres_gt hopw q hq
            have hk3 : q.1 = (bb.append_below_time other T).2.1.key := points_key _ q hq
            exact Or.inr ⟨(hk3.trans (hres_key.trans hk)).symm, le_of_lt ht2⟩
          · exact htl_lb p hp
        · have h2 := ih7 pos2 hpos2 p hp
          rw [hr_key] at h2
          exact h2
      · intro b2 hb2
        obtain ⟨b0, hb0, hbk, hbt⟩ := ih8 b2 hb2
        obtain ⟨l, hl, hbl⟩ := List.mem_flatten.mp hb0
        rcases List.mem_or_eq_of_mem_set hl with hl2 | rfl
        · exact ⟨b0, List.mem_flatten.mpr ⟨l, hl2, hbl⟩, hbk, hbt⟩
        · rcases List.mem_cons.mp hbl with rfl | hbl2
          · refine ⟨other, ?_, hbk.trans hres_key, hbt.trans hres_type⟩
            refine List.mem_flatten.mpr ⟨st.getD pos [], getD_mem st pos [] hpos, ?_⟩
            rw [hcur]
            exact List.mem_cons_self other tl
          · refine ⟨b0, ?_, hbk, hbt⟩
            refine List.mem_flatten.mpr ⟨st.getD pos [], getD_mem st pos [] hpos, ?_⟩
            rw [hcur]
            exact List.mem_cons_of_mem other hbl2
      · have hset := elemCount_set st pos ((bb.append_below_time other T).2.1 :: tl) hpos
        rw [hcur] at hset
        simp only [List.length_cons] at hset
        refine le_trans ih9 ?_
        omega

theorem statesPoints_all_nil :
    ∀ (states : List (List ReadBatch)), (∀ s ∈ states, s = []) →
      statesPoints states = []
  | [], _ => rfl
  | s :: t, h => by
    rw [statesPoints_cons, h s (List.mem_cons_self s t),
      statesPoints_all_nil t (fun x hx => h x (List.mem_cons_of_mem s hx))]
    rfl

theorem exists_getD_of_mem {α : Type} (L : List α) (d : α) (x : α) (h : x ∈ L) :
    ∃ i, i < L.length ∧ L.getD i d = x := by
  obtain ⟨i, hi, he⟩ := List.mem_iff_getElem.mp h
  refine ⟨i, hi, ?_⟩
  rw [List.getD_eq_getElem?_getD, List.getElem?_eq_getElem hi, he]
  rfl

theorem points_pairs_mem (b : ReadBatch) (q : Str × Int × PValue) (hq : q ∈ b.points) :
    (q.1, q.2.1) ∈ b.pairs := by
  rw [pairs_eq_points_map]
  exact List.mem_map.mpr ⟨q, hq, rfl⟩

theorem rms_step_spec (states : List (List ReadBatch)) (h : statesOk states) :
    (rms_step states = none → statesPoints states = []) ∧
    (∀ b states1, rms_step states = some (b, states1) →
      statesOk states1 ∧
      elemCount states1 < elemCount states ∧
      b.pairs.Pairwise kt_le ∧
      (∃ K T, (∀ p ∈ b.pairs, p.1 = K ∧ p.2 ≤ T) ∧
        (∀ i, i < states1.length →
          ∀ p ∈ ((states1.getD i []).map ReadBatch.pairs).flatten, kt_le (K, T) p)) ∧
      (b.points ++ statesPoints states1).Perm (statesPoints states)) := by
  obtain ⟨hstOk, htypeOk⟩ := h
  have hinv0 : rmsAccInv [] ⟨none, 2 ^ 63 - 1, 0, []⟩ :=
    ⟨fun s hs => absurd hs (by simp), rfl⟩
  have hspec := rms_scan_spec states [] ⟨none, 2 ^ 63 - 1, 0, []⟩ hinv0
  rcases hscan : rms_scan states 0 ⟨none, 2 ^ 63 - 1, 0, []⟩ with ⟨nk, mt, mp, pss⟩
  rw [show ([] : List (List ReadBatch)).length = 0 from rfl, hscan,
    List.nil_append] at hspec
  cases nk with
  | none =>
    obtain ⟨hall, hpss⟩ := hspec
    constructor
    · intro _
      exact statesPoints_all_nil states hall
    · intro b states1 hsome
      unfold rms_step at hsome
      rw [hscan] at hsome
      dsimp only at hsome
      cases hsome
  | some k =>
    obtain ⟨h1, ⟨b0, hb0, hb0k, hb0t⟩, h3, h4, h5⟩ := hspec
    obtain ⟨tl, hcur⟩ : ∃ tl, states.getD mp [] = b0 :: tl := by
      cases hgd : states.getD mp [] with
      | nil =>
        rw [hgd] at hb0
        cases hb0
      | cons a u =>
        rw [hgd, List.head?_cons] at hb0
        exact ⟨u, by rw [← Option.some.inj hb0]⟩
    have hb0' : (states.getD mp []).head? = some b0 := by
      rw [hcur, List.head?_cons]
    have hin_cur : inputOk (b0 :: tl) := by
      rw [← hcur]
      exact hstOk _ (getD_mem states mp [] h1)
    constructor
    · intro hnone
      unfold rms_step at hnone
      rw [hscan] at hnone
      dsimp only at hnone
      rw [hb0'] at hnone
      dsimp only at hnone
      by_cases hemp : pss.isEmpty = true
      · rw [if_pos hemp] at hnone
        cases hnone
      · rw [if_neg hemp] at hnone
        cases hnone
    · intro b states1 hsome
      unfold rms_step at hsome
      rw [hscan] at hsome
      dsimp only at hsome
      rw [hb0'] at hsome
      dsimp only at hsome
      rw [hcur, List.tail_cons] at hsome
      have hb0pw : b0.pairs.Pairwise kt_le := by
        have h0 := hin_cur.2
        rw [List.map_cons, List.flatten_cons] at h0
        exact (List.pairwise_append.mp h0).1
      have hb0le := batch_pairs_le_last b0 tl hin_cur
      have hb0ne : b0.values.is_empty = false :=
        hin_cur.1 b0 (List.mem_cons_self b0 tl)
      have hmp_lb : ∀ p ∈ (tl.map ReadBatch.pairs).flatten, kt_le (k, mt) p := by
        intro p hp
        have hL := pairs_getLast b0 hb0ne
        have h2 := input_pairs_after_head b0 tl hin_cur _ hL p hp
        rw [hb0k, hb0t] at h2
        exact h2
      have huntouched : ∀ i, i < states.length → i ≠ mp → i ∉ pss →
          ∀ p ∈ ((states.getD i []).map ReadBatch.pairs).flatten, kt_le (k, mt) p := by
        intro i hi hne hnp p hp
        cases hgd : states.getD i [] with
        | nil =>
          rw [hgd] at hp
          simp at hp
        | cons b2 t2 =>
          have hhead : (states.getD i []).head? = some b2 := by
            rw [hgd, List.head?_cons]
          have hk2 : k ≤ b2.key := (h3 i hi b2 hhead).1
          have hkne : b2.key ≠ k := fun he => hnp ((h4 i).mpr ⟨hne, hi, b2, hhead, he⟩)
          have hge := input_pairs_key_ge (states.getD i [])
            (hstOk _ (getD_mem states i [] hi)) b2 hhead p hp
          exact Or.inl (lt_of_lt_of_le (lt_of_le_of_ne hk2 (Ne.symm hkne)) hge)
      have hlenset : (states.set mp tl).length = states.length := by
        rw [List.length_set]
      have hsub1 : ∀ b2 ∈ (states.set mp tl).flatten, b2 ∈ states.flatten := by
        intro b2 hb2
        obtain ⟨l, hl, hbl⟩ := List.mem_flatten.mp hb2
        rcases List.mem_or_eq_of_mem_set hl with hl2 | rfl
        · exact List.mem_flatten.mpr ⟨l, hl2, hbl⟩
        · refine List.mem_flatten.mpr ⟨states.getD mp [], getD_mem states mp [] h1, ?_⟩
          rw [hcur]
          exact List.mem_cons_of_mem b0 hbl
      have hstOk1 : ∀ input ∈ states.set mp tl, inputOk input := by
        intro input hin
        rcases List.mem_or_eq_of_mem_set hin with hin | heq
        · exact hstOk input hin
        · rw [heq]
          exact inputOk_cons_tail b0 tl hin_cur
      have htype1 : statesTypeOk (states.set mp tl) := by
        intro b1 b2 hb1 hb2 hk12
        exact htypeOk b1 b2 (hsub1 b1 hb1) (hsub1 b2 hb2) hk12
      have hcount1 : elemCount (states.set mp tl) < elemCount states := by
        have hset := elemCount_set states mp tl h1
        rw [hcur] at hset
        simp only [List.length_cons] at hset
        omega
      have hst_set : ∀ i, i < (states.set mp tl).length →
          inputOk ((states.set mp tl).getD i []) := by
        intro i hi
        rw [hlenset] at hi
        by_cases hip : i = mp
        · rw [hip, getD_set_self _ _ _ _ h1]
          exact inputOk_cons_tail b0 tl hin_cur
        · rw [getD_set_ne _ _ _ _ _ (Ne.symm hip)]
          exact hstOk _ (getD_mem states i [] hi)
      have hsp := statesPoints_set_perm states mp tl h1
      rw [hcur, batchesPoints_cons] at hsp
      have hperm1 : (b0.points ++ statesPoints (states.set mp tl)).Perm
          (statesPoints states) := by
        refine perm_append_cancel_right _ _ (batchesPoints tl) ?_
        refine List.Perm.trans (List.Perm.append_right _ List.perm_append_comm) ?_
        refine List.Perm.trans (List.Perm.of_eq (List.append_assoc _ _ _)) ?_
        exact hsp
      by_cases hemp : pss.isEmpty = true
      · rw [if_pos hemp] at hsome
        obtain ⟨hbeq, hs1⟩ := Prod.mk.inj (Option.some.inj hsome)
        subst hbeq
        subst hs1
        have hpss : pss = [] := List.isEmpty_iff.mp hemp
        refine ⟨⟨hstOk1, htype1⟩, hcount1, hb0pw, ⟨k, mt, ?_, ?_⟩, hperm1⟩
        · intro p hp
          obtain ⟨hpk, hpt⟩ := hb0le p hp
          rw [hb0k] at hpk
          rw [hb0t] at hpt
          exact ⟨hpk, hpt⟩
        · intro i hi p hp
          rw [hlenset] at hi
          by_cases hip : i = mp
          · rw [hip, getD_set_self _ _ _ _ h1] at hp
            exact hmp_lb p hp
          · rw [getD_set_ne _ _ _ _ _ (Ne.symm hip)] at hp
            refine huntouched i hi hip ?_ p hp
            rw [hpss]
            exact List.not_mem_nil i
      · rw [if_neg hemp] at hsome
        have hmp_notin : mp ∉ pss := fun hm => absurd rfl ((h4 mp).mp hm).1
        have hdps : ∀ pos ∈ pss, pos < (states.set mp tl).length ∧
            ∃ other, ((states.set mp tl).getD pos []).head? = some other ∧
              other.key = b0.key ∧ other.is_i64 = b0.is_i64 ∧
              mt ≤ other.start_stop_times.2 := by
          intro pos hpos
          obtain ⟨hnemp, hlt, o2, ho2, hko2⟩ := (h4 pos).mp hpos
          rw [hlenset]
          refine ⟨hlt, o2, ?_, ?_, ?_, ?_⟩
          · rw [getD_set_ne _ _ _ _ _ (Ne.symm hnemp)]
            exact ho2
          · rw [hko2, ← hb0k]
          · refine htypeOk o2 b0 ?_ ?_ ?_
            · exact List.mem_flatten.mpr ⟨states.getD pos [],
                getD_mem states pos [] hlt, mem_of_head? ho2⟩
            · exact List.mem_flatten.mpr ⟨states.getD mp [],
                getD_mem states mp [] h1, mem_of_head? hb0'⟩
            · rw [hko2, ← hb0k]
          · exact (h3 pos hlt o2 ho2).2 hko2
        have hbpts : ∀ q ∈ b0.points, q.1 = b0.key ∧ q.2.1 ≤ mt := by
          intro q hq
          obtain ⟨hqk, hqt⟩ := hb0le (q.1, q.2.1) (points_pairs_mem b0 q hq)
          rw [hb0t] at hqt
          exact ⟨hqk, hqt⟩
        obtain ⟨d1, d2, d3, d4, d5, d6, d7, d8, d9⟩ :=
          rms_drain_spec mt pss b0 (states.set mp tl) h5 hdps hst_set hbpts
        obtain ⟨hbeq, hs1⟩ := Prod.mk.inj (Option.some.inj hsome)
        subst hbeq
        subst hs1
        refine ⟨⟨?_, ?_⟩, ?_, sort_by_time_pairs_pairwise _, ⟨k, mt, ?_, ?_⟩, ?_⟩
        · intro input hin
          obtain ⟨i, hi, hgd⟩ := exists_getD_of_mem _ [] input hin
          rw [← hgd]
          refine d6 i ?_
          rw [d4] at hi
          exact hi
        · intro b1 b2 hb1 hb2 hk12
          obtain ⟨c1, hc1, hkey1, htp1⟩ := d8 b1 hb1
          obtain ⟨c2, hc2, hkey2, htp2⟩ := d8 b2 hb2
          have h9 := htypeOk c1 c2 (hsub1 c1 hc1) (hsub1 c2 hc2)
            (by rw [← hkey1, ← hkey2, hk12])
          rw [htp1, htp2, h9]
        · exact lt_of_le_of_lt d9 hcount1
        · intro p hp
          rw [pairs_eq_points_map] at hp
          obtain ⟨q, hq, rfl⟩ := List.mem_map.mp hp
          have hq2 : q ∈ (rms_drain mt pss b0 (states.set mp tl)).1.points :=
            (sort_by_time_points_perm _).mem_iff.mp hq
          obtain ⟨hqk, hqt⟩ := d2 q hq2
          rw [hb0k] at hqk
          exact ⟨hqk, hqt⟩
        · intro i hi p hp
          rw [d4, hlenset] at hi
          by_cases hmem : i ∈ pss
          · have h7 := d7 i hmem p hp
            rw [hb0k] at h7
            exact h7
          · by_cases hip : i = mp
            · rw [hip] at hp
              rw [d5 mp hmp_notin, getD_set_self _ _ _ _ h1] at hp
              exact hmp_lb p hp
            · rw [d5 i hmem, getD_set_ne _ _ _ _ _ (Ne.symm hip)] at hp
              exact huntouched i hi hip hmem p hp
        · refine List.Perm.trans
            (List.Perm.append_right _ (sort_by_time_points_perm _)) ?_
          exact d3.trans hperm1

theorem rms_run_spec (fuel : Nat) :
    ∀ (states : List (List ReadBatch)), statesOk states → elemCount states ≤ fuel →
      (((rms_run fuel states).map ReadBatch.pairs).flatten).Pairwise kt_le ∧
      (batchesPoints (rms_run fuel states)).Perm (statesPoints states) := by
  induction fuel with
  | zero =>
    intro states hok hf
    have hall : ∀ s ∈ states, s = [] := by
      intro s hs
      have h0 : elemCount states = 0 := Nat.le_zero.mp hf
      have hflat : states.flatten = [] := elemCount_zero_flatten states h0
      cases hse : s with
      | nil => rfl
      | cons b t =>
        have hmem : b ∈ states.flatten :=
          List.mem_flatten.mpr ⟨s, hs, by rw [hse]; exact List.mem_cons_self b t⟩
        rw [hflat] at hmem
        cases hmem
    refine ⟨List.Pairwise.nil, ?_⟩
    rw [statesPoints_all_nil states hall]
    exact List.Perm.refl _
  | succ n ih =>
    intro states hok hf
    have hstep := rms_step_spec states hok
    cases hsv : rms_step states with
    | none =>
      have hsp := hstep.1 hsv
      constructor
      · show (((rms_run (n + 1) states).map _).flatten).Pairwise _
        unfold rms_run
        rw [hsv]
        exact List.Pairwise.nil
      · show (batchesPoints (rms_run (n + 1) states)).Perm _
        unfold rms_run
        rw [hsv, hsp]
        exact List.Perm.refl _
    | some p =>
      obtain ⟨b, states1⟩ := p
      obtain ⟨hok1, hcnt, hbpw, ⟨K, T, hbKT, hLB⟩, hperm⟩ := hstep.2 b states1 hsv
      have hf1 : elemCount states1 ≤ n := by omega
      obtain ⟨ihp, ihm⟩ := ih states1 hok1 hf1
      constructor
      · show (((rms_run (n + 1) states).map _).flatten).Pairwise _
        unfold rms_run
        rw [hsv]
        rw [List.map_cons, List.flatten_cons]
        refine (List.pairwise_append).mpr ⟨hbpw, ihp, ?_⟩
        intro x hx y hy
        obtain ⟨hxK, hxT⟩ := hbKT x hx
        rw [pairs_flatten_eq] at hy
        obtain ⟨q, hq, rfl⟩ := List.mem_map.mp hy
        have hq1 : q ∈ statesPoints states1 := ihm.mem_iff.mp hq
        obtain ⟨i, hi, hqi⟩ := (mem_statesPoints states1 q).mp hq1
        have hy2 : (q.1, q.2.1) ∈ ((states1.getD i []).map ReadBatch.pairs).flatten := by
          rw [pairs_flatten_eq]
          exact List.mem_map.mpr ⟨q, hqi, rfl⟩
        have hKT := hLB i hi _ hy2
        refine kt_le_trans ?_ hKT
        exact Or.inr ⟨hxK, hxT⟩
      · show (batchesPoints (rms_run (n + 1) states)).Perm _
        unfold rms_run
        rw [hsv, batchesPoints_cons]
        exact (List.Perm.append_left _ ihm).trans hperm

/-- C1: For ReadMergeStream over any finite list of input streams satisfying
the documented preconditions (partitioned_store.rs lines 144-147: every batch
non-empty, each input emits batches in lexicographic key order with times
ascending within a batch and across batches of one key, and all batches
sharing a key carry the same value type), the totalized merge `rms_run`
(the `ReadMergeStream::poll_next` loop, lines 171-267) emits batches whose
flattened `(key, time)` pairs are non-decreasing in the lexicographic
(key, then time) order, and the multiset of emitted `(key, time, value)`
points is exactly the multiset union of all input points. -/
theorem readMergeStream_C1 (streams : List (List ReadBatch))
    (hok : statesOk streams) (fuel : Nat) (hf : elemCount streams ≤ fuel) :
    (((rms_run fuel streams).map ReadBatch.pairs).flatten).Pairwise kt_le ∧
    (batchesPoints (rms_run fuel streams)).Perm (statesPoints streams) :=
  rms_run_spec fuel streams hok hf

instance (input : List ReadBatch) : Decidable (inputOk input) :=
  inferInstanceAs (Decidable ((∀ b ∈ input, b.values.is_empty = false) ∧
    ((input.map ReadBatch.pairs).flatten).Pairwise kt_le))

theorem statesTypeOk_iff (states : List (List ReadBatch)) :
    statesTypeOk states ↔ ∀ b1 ∈ states.flatten, ∀ b2 ∈ states.flatten,
      b1.key = b2.key → b1.is_i64 = b2.is_i64 := by
  constructor
  · intro h b1 h1 b2 h2 hk
    exact h b1 b2 h1 h2 hk
  · intro h b1 b2 h1 h2 hk
    exact h b1 h1 b2 h2 hk

theorem readMergeStream_C1_witness :
    statesOk rmsTestStreams ∧
    elemCount rmsTestStreams ≤ 5 ∧
    ((((rms_run 5 rmsTestStreams).map ReadBatch.pairs).flatten).Pairwise kt_le ∧
      (batchesPoints (rms_run 5 rmsTestStreams)).Perm (statesPoints rmsTestStreams)) ∧
    rms_run 5 rmsTestStreams =
      [⟨str "bar", .F64 [⟨5, ⟨55⟩⟩, ⟨6, ⟨66⟩⟩]⟩,
       ⟨str "foo", .I64 [⟨1, 10⟩, ⟨2, 20⟩, ⟨3, 30⟩, ⟨4, 40⟩]⟩,
       ⟨str "foo", .I64 [⟨5, 50⟩, ⟨6, 60⟩, ⟨10, 100⟩]⟩,
       ⟨str "foo", .I64 [⟨11, 110⟩]⟩,
       ⟨str "test", .F64 [⟨1, ⟨11⟩⟩, ⟨2, ⟨22⟩⟩]⟩] :=
  ⟨⟨by decide, (statesTypeOk_iff rmsTestStreams).mpr (by decide)⟩, by decide,
    readMergeStream_C1 rmsTestStreams
      ⟨by decide, (statesTypeOk_iff rmsTestStreams).mpr (by decide)⟩ 5 (by decide),
    by decide⟩
